import Mathlib

/-!
# Verification of the trajectory-memory Optimization Engine

A shallow embedding of the Optimization Engine of the `trajectory-memory`
repository (package `internal/optimizer`, its persistence layer
`internal/store`, and the strategy-selection handler of `internal/mcp`),
together with proofs about the embedded definitions.

Documents are modelled as `List Char` (Go operates on byte strings; all
documents of interest are text).  Go `float64` scores are modelled as `ℚ`:
every comparison performed by the code is against the constants 0.75 and 0.5
and all concrete scores appearing in the development are decimal literals
whose ordering agrees with their `float64` ordering.

The file is organised bottom-up:
  1. line splitting/joining utilities (Go `strings.Split`, `bufio.ScanLines`,
     `strings.TrimSpace`);
  2. the marker regular expressions of `parser.go` as executable matchers
     plus a propositional characterisation;
  3. `Parser.FindTargets` / `Parser.ReplaceTarget` / the strategies-marker
     scanner;
  4. the atomic-write model (`atomicWrite`);
  5. the lifecycle engine (`Optimizer.SaveProposal/Apply/Reject/Rollback`
     over `BoltStore.CreateOptimization`/`GetOptimization`/
     `UpdateOptimization`);
  6. the trajectory analyzer (`Analyzer.Analyze`, `curateExamples`);
  7. the strategy selector (`Server.handleStrategiesSelect`).
-/

namespace TrajectoryMemory

/-! ## 1. Character and line utilities -/
/-- Whitespace as matched by the RE2 character class `\s`, which Go's
`regexp` package defines as `[\t\n\f\r ]`. -/
def wsRE (c : Char) : Bool :=
  c = ' ' || c = '\t' || c = '\n' || c = '\x0c' || c = '\r'

/-- Whitespace as reported by Go's `unicode.IsSpace` (the set stripped by
`strings.TrimSpace`), restricted to the Latin-1 range. -/
def wsGo (c : Char) : Bool :=
  c = '\t' || c = '\n' || c = '\x0b' || c = '\x0c' || c = '\r' || c = ' ' ||
  c = '\x85' || c = '\xa0'

/-- Drop trailing whitespace (structural form). -/
def trimRight : List Char → List Char
  | [] => []
  | c :: cs =>
    match trimRight cs with
    | [] => if wsGo c then [] else [c]
    | r :: rs => c :: r :: rs

/-- `strings.TrimSpace`: drop leading and trailing whitespace. -/
def trimSpace (cs : List Char) : List Char :=
  trimRight (cs.dropWhile wsGo)

/-- `strings.Split(s, "\n")` viewed on character lists.  Always returns a
non-empty list of newline-free lines. -/
def splitNL : List Char → List (List Char)
  | [] => [[]]
  | c :: cs =>
    if c = '\n' then [] :: splitNL cs
    else
      match splitNL cs with
      | [] => [[c]]
      | l :: ls => (c :: l) :: ls

/-- `strings.Join(lines, "\n")`: interleave the lines with `'\n'`. -/
def joinNL : List (List Char) → List Char
  | [] => []
  | [l] => l
  | l :: ls => l ++ '\n' :: joinNL ls

/-- Each line followed by a newline (the shape produced by the prefix loop of
`Parser.ReplaceTarget`, which writes `lines[i]` then `"\n"`). -/
def flatJoin (ls : List (List Char)) : List Char :=
  (ls.map (· ++ ['\n'])).flatten

/-- `dropCR` of `bufio.ScanLines`: strip one trailing `'\r'`. -/
def stripCR (l : List Char) : List Char :=
  match l.getLast? with
  | some '\r' => l.dropLast
  | _ => l

/-! ## 2. Marker patterns

`parser.go` recognises marker lines with the regular expressions

  * `optimizeStartPattern = <!--\s*trajectory-optimize:start\s+(.+?)\s*-->`
  * `optimizeEndPattern   = <!--\s*trajectory-optimize:end\s*-->`

applied with Go's leftmost-first (Perl-like) semantics.  The matchers below
implement exactly that search: positions are tried left to right; at a
position the greedy `\s*` runs are deterministic (each is followed by a
non-whitespace literal), the greedy `\s+` backtracks from the longest
whitespace run down, and the lazy `(.+?)` grows from one character up until
`\s*-->` matches. -/
def litOpen : List Char := "<!--".data

def litClose : List Char := "-->".data

def kwOptStart : List Char := "trajectory-optimize:start".data

def kwOptEnd : List Char := "trajectory-optimize:end".data

/-- `lit.isPrefixOf cs`: consume a literal. -/
def chopLit (lit cs : List Char) : Option (List Char) :=
  if lit.isPrefixOf cs then some (cs.drop lit.length) else none

/-- Does `\s*-->` match at this point? (`\s*` is effectively deterministic:
`-->` starts with a non-whitespace character.) -/
def closesAt (cs : List Char) : Bool :=
  litClose.isPrefixOf (cs.dropWhile wsRE)

/-- The lazy capture `(.+?)` followed by `\s*-->`: the shortest non-empty
prefix whose remainder matches `\s*-->`. -/
def lazyCap : List Char → Option (List Char)
  | [] => none
  | c :: rest => if closesAt rest then some [c] else (lazyCap rest).map (c :: ·)

/-- Backtracking over the greedy `\s+`: try `k` whitespace characters,
`k` descending. -/
def tryK (cs : List Char) : Nat → Option (List Char)
  | 0 => none
  | k + 1 => lazyCap (cs.drop (k + 1)) <|> tryK cs k

/-- Match `<!--\s*KW\s+(.+?)\s*-->` (`reqWs = true`) or
`<!--\s*KW(.+?)\s*-->` (`reqWs = false`) anchored at the head. -/
def markerCapAt (kw : List Char) (reqWs : Bool) (cs : List Char) :
    Option (List Char) :=
  (chopLit litOpen cs).bind fun r1 =>
    (chopLit kw (r1.dropWhile wsRE)).bind fun r2 =>
      if reqWs then tryK r2 (r2.takeWhile wsRE).length
      else lazyCap r2

/-- Unanchored leftmost-first search for the capturing marker pattern
(`FindStringSubmatch` returning the capture group). -/
def searchCap (kw : List Char) (reqWs : Bool) : List Char → Option (List Char)
  | [] => none
  | c :: rest => markerCapAt kw reqWs (c :: rest) <|> searchCap kw reqWs rest

/-- Match `<!--\s*KW\s*-->` anchored at the head. -/
def bareAt (kw cs : List Char) : Bool :=
  ((chopLit litOpen cs).bind fun r1 => chopLit kw (r1.dropWhile wsRE)).elim
    false fun r2 => litClose.isPrefixOf (r2.dropWhile wsRE)

/-- Unanchored search for the non-capturing marker pattern (`MatchString`). -/
def searchBare (kw : List Char) : List Char → Bool
  | [] => false
  | c :: rest => bareAt kw (c :: rest) || searchBare kw rest

/-- `optimizeStartPattern.FindStringSubmatch(line)`, capture group 1. -/
def optimizeStartCapture (line : List Char) : Option (List Char) :=
  searchCap kwOptStart true line

/-- `optimizeEndPattern.MatchString(line)`. -/
def optimizeEndMatch (line : List Char) : Bool :=
  searchBare kwOptEnd line

/-! ### Attribute patterns -/
/-- `tag\s*=\s*"([^"]+)"` anchored at the head. -/
def tagAttrAt (cs : List Char) : Option (List Char) :=
  match chopLit "tag".data cs with
  | none => none
  | some r1 =>
    match r1.dropWhile wsRE with
    | '=' :: r2 =>
      match r2.dropWhile wsRE with
      | '"' :: r3 =>
        let cap := r3.takeWhile (fun c => !(c = '"'))
        if cap.isEmpty then none
        else
          match r3.drop cap.length with
          | '"' :: _ => some cap
          | _ => none
      | _ => none
    | _ => none

/-- Leftmost match of the `tag` attribute pattern. -/
def searchTagAttr : List Char → Option (List Char)
  | [] => none
  | c :: rest => tagAttrAt (c :: rest) <|> searchTagAttr rest

def digitRE (c : Char) : Bool := '0' ≤ c && c ≤ '9'

/-- `KW\s*=\s*(\d+)` anchored at the head. -/
def numAttrAt (kw : List Char) (cs : List Char) : Option (List Char) :=
  match chopLit kw cs with
  | none => none
  | some r1 =>
    match r1.dropWhile wsRE with
    | '=' :: r2 =>
      let r3 := r2.dropWhile wsRE
      let cap := r3.takeWhile digitRE
      if cap.isEmpty then none else some cap
    | _ => none

/-- Leftmost match of a numeric attribute pattern. -/
def searchNumAttr (kw : List Char) : List Char → Option (List Char)
  | [] => none
  | c :: rest => numAttrAt kw (c :: rest) <|> searchNumAttr kw rest

def digitsToNat (ds : List Char) : Nat :=
  ds.foldl (fun n c => n * 10 + (c.toNat - '0'.toNat)) 0

/-- `parseOptimizeAttrs`: the required `tag` attribute (else `ErrMissingTag`)
and `min_sessions` (default 10; `strconv.Atoi` fails on values above
`MaxInt64` and the error branch keeps the default). -/
def parseOptimizeAttrs (attrs : List Char) : Option (List Char × Nat) :=
  match searchTagAttr attrs with
  | none => none
  | some tag =>
    let ms :=
      match searchNumAttr "min_sessions".data attrs with
      | none => 10
      | some ds =>
        let n := digitsToNat ds
        if n ≤ 2 ^ 63 - 1 then n else 10
    some (tag, ms)

/-! ### Propositional characterisation of the matchers

Used to show that a line with no marker match has no marker match in any of
its infixes either (the matchers search for a contiguous pattern). -/
/-- All characters in the RE2 `\s` class. -/
def WsRun (l : List Char) : Prop := ∀ c ∈ l, wsRE c

/-- The anchored capturing pattern `<!--\s*KW\s+(.+?)\s*-->` (`reqWs = true`)
or `<!--\s*KW(.+?)\s*-->` (`reqWs = false`). -/
def CapShape (kw : List Char) (reqWs : Bool) (cs : List Char) : Prop :=
  ∃ a b cap d rest,
    cs = litOpen ++ a ++ kw ++ b ++ cap ++ d ++ litClose ++ rest ∧
    WsRun a ∧ WsRun b ∧ (reqWs = true → b ≠ []) ∧ (reqWs = false → b = []) ∧
    cap ≠ [] ∧ WsRun d

/-- The anchored pattern `<!--\s*KW\s*-->`. -/
def BareShape (kw cs : List Char) : Prop :=
  ∃ a d rest,
    cs = litOpen ++ a ++ kw ++ d ++ litClose ++ rest ∧ WsRun a ∧ WsRun d

/-! ## 3. `Parser.FindTargets` and `Parser.ReplaceTarget`

The scan loop of `FindTargets` processes `scanner.Text()` lines — the raw
line between newlines with one trailing `'\r'` removed (`bufio.ScanLines`) —
and after a trailing newline the scanner emits no empty final token.
`ReplaceTarget` re-reads the file and works on `strings.Split(content, "\n")`
lines.  Both views are kept in terms of the raw `splitNL` lines so that
positions line up; the scan applies `stripCR` at each use. -/
/-- `types.OptimizationTarget`. -/
structure OptimizationTarget where
  filePath : List Char
  tag : List Char
  minSessions : Nat
  startLine : Nat
  endLine : Nat
  content : List Char
  deriving DecidableEq, Repr

/-- The in-progress region of the scan loop (`pendingTarget`). -/
structure PendingTarget where
  tag : List Char
  minSessions : Nat
  startLine : Nat
  content : List Char
  deriving DecidableEq, Repr

/-- The error cases of `FindTargets` (`ErrNestedMarkers`,
`ErrUnpairedMarkers`, `ErrMissingTag`), with the offending line number. -/
inductive ParseErr where
  | nested (line : Nat)
  | endWithoutStart (line : Nat)
  | unpairedStart (line : Nat)
  | missingTag (line : Nat)
  deriving DecidableEq, Repr

/-- The `strings.Builder` accumulation of the scan loop: a separating
newline is written only when the builder is non-empty. -/
def builderPush (acc line : List Char) : List Char :=
  if acc.length > 0 then acc ++ '\n' :: line else line

/-- Emit a target at the closing marker (`Content` is trimmed). -/
def mkTarget (fp : List Char) (pt : PendingTarget) (endLine : Nat) :
    OptimizationTarget :=
  { filePath := fp, tag := pt.tag, minSessions := pt.minSessions,
    startLine := pt.startLine, endLine := endLine,
    content := trimSpace pt.content }

/-- One iteration of the scan loop of `Parser.FindTargets`; `raw` is the raw
line, `stripCR raw` is `scanner.Text()`. -/
def scanStep (fp : List Char) (n : Nat) (pending : Option PendingTarget)
    (acc : List OptimizationTarget) (raw : List Char) :
    Except ParseErr (Option PendingTarget × List OptimizationTarget) :=
  let line := stripCR raw
  match optimizeStartCapture line with
  | some attrs =>
    match pending with
    | some _ => .error (.nested n)
    | none =>
      match parseOptimizeAttrs attrs with
      | none => .error (.missingTag n)
      | some (tag, ms) => .ok (some ⟨tag, ms, n, []⟩, acc)
  | none =>
    if optimizeEndMatch line then
      match pending with
      | none => .error (.endWithoutStart n)
      | some pt => .ok (none, acc ++ [mkTarget fp pt n])
    else
      match pending with
      | some pt => .ok (some { pt with content := builderPush pt.content line }, acc)
      | none => .ok (none, acc)

/-- The scan loop over a list of raw lines. -/
def runScan (fp : List Char) :
    List (List Char) → Nat → Option PendingTarget → List OptimizationTarget →
    Except ParseErr (Nat × Option PendingTarget × List OptimizationTarget)
  | [], n, pending, acc => .ok (n, pending, acc)
  | raw :: rest, n, pending, acc =>
    match scanStep fp n pending acc raw with
    | .error e => .error e
    | .ok (p', acc') => runScan fp rest (n + 1) p' acc'

/-- The lines seen by `bufio.Scanner`: split on newline; no token is emitted
after a trailing newline. -/
def scanLines (doc : List Char) : List (List Char) :=
  let ls := splitNL doc
  if ls.getLast? = some [] then ls.dropLast else ls

/-- `Parser.FindTargets` on the file contents `doc` of file `fp`. -/
def findTargets (fp doc : List Char) :
    Except ParseErr (List OptimizationTarget) :=
  match runScan fp (scanLines doc) 1 none [] with
  | .error e => .error e
  | .ok (_, some pt, _) => .error (.unpairedStart pt.startLine)
  | .ok (_, none, acc) => .ok acc

/-- The document produced by the builder of `Parser.ReplaceTarget`: the
lines before the start marker each followed by a newline, the new content
followed by a newline, then the lines from the end marker on joined with
newlines (no trailing newline after the last line). -/
def replaceContent (doc : List Char) (startLine endLine : Nat)
    (newContent : List Char) : List Char :=
  let lines := splitNL doc
  flatJoin (lines.take startLine) ++ newContent ++
    '\n' :: joinNL (lines.drop (endLine - 1))

/-- `Parser.ReplaceTarget` as a pure content transformation: the bounds
check (`StartLine < 1 || EndLine > len(lines) || StartLine >= EndLine`)
guards the splice; on success the result is handed to `atomicWrite`. -/
def replaceTarget (doc : List Char) (t : OptimizationTarget)
    (newContent : List Char) : Except (List Char) (List Char) :=
  let lines := splitNL doc
  if t.startLine < 1 ∨ lines.length < t.endLine ∨ t.endLine ≤ t.startLine then
    .error "invalid line range".data
  else
    .ok (replaceContent doc t.startLine t.endLine newContent)

/-- A raw line on which the scan loop neither opens nor closes a region. -/
def NonMarker (raw : List Char) : Prop :=
  optimizeStartCapture (stripCR raw) = none ∧
  optimizeEndMatch (stripCR raw) = false

/-- Invariant carried by the scan: targets are well-formed and appear in
document order, and any open region starts before the current line. -/
def ScanInv (n : Nat) (p : Option PendingTarget)
    (acc : List OptimizationTarget) : Prop :=
  (∀ t ∈ acc, 1 ≤ t.startLine ∧ t.startLine < t.endLine ∧ t.endLine < n) ∧
  (∀ pt, p = some pt → 1 ≤ pt.startLine ∧ pt.startLine < n ∧
    ∀ t ∈ acc, t.endLine < pt.startLine) ∧
  List.Pairwise (fun a b => a.endLine < b.startLine) acc

/-- The builder fold over the body lines of a region. -/
def bodyFold (init : List Char) (B : List (List Char)) : List Char :=
  B.foldl (fun a raw => builderPush a (stripCR raw)) init

/-! ## Claim C3: frame effect of `ReplaceTarget` and the find/replace round-trip -/
/-- Example file path for the C3 counterexample. -/
def c3fp : List Char := "f".data

/-- A document whose region body has a line ending in `\r\r`: the scanner
(`bufio.ScanLines`) strips one trailing `\r` per line, so the recorded
content differs from the raw body bytes. -/
def c3doc : List Char :=
  ("<!-- trajectory-optimize:start tag=\"a\" -->\nx\r\r\ny\n<!-- trajectory-optimize:end -->").data

/-- `c3doc` after replacing the region with its own recorded content. -/
def c3doc2 : List Char :=
  ("<!-- trajectory-optimize:start tag=\"a\" -->\nx\r\ny\n<!-- trajectory-optimize:end -->").data

/-- Example file path for the C3 witness. -/
def w3fp : List Char := "notes.md".data

/-- A well-formed document with one CR-clean region. -/
def w3doc : List Char :=
  ("# H\n<!-- trajectory-optimize:start tag=\"research\" min_sessions=5 -->\nbody line\nsecond\n<!-- trajectory-optimize:end -->\ntail\n").data

/-- The target `FindTargets` returns on `w3doc`. -/
def w3t : OptimizationTarget :=
  ⟨w3fp, "research".data, 5, 2, 5, ("body line\nsecond").data⟩

/-! ## Claim C4: validation performed by `ReplaceTarget` at replace time -/
/-- Example file path for the C4 counterexample. -/
def c4fp : List Char := "g".data

/-- A document with one region, as it was when the target was located. -/
def c4doc0 : List Char :=
  ("<!-- trajectory-optimize:start tag=\"a\" -->\nbody\n<!-- trajectory-optimize:end -->").data

/-- The same document after a line was prepended: the recorded line range is
stale but still within bounds. -/
def c4doc1 : List Char := ("new first line\n").data ++ c4doc0

/-- What `ReplaceTarget` produces from the stale range: the start marker is
destroyed and the body duplicated. -/
def c4bad : List Char :=
  ("new first line\nbody\nbody\n<!-- trajectory-optimize:end -->").data

/-! ## Claim C5: the compact marker form and the merged finder

The repository's region syntax has two forms: the legacy verbose form
`<!-- trajectory-optimize:start tag="L" key=value -->` …
`<!-- trajectory-optimize:end -->` and the compact label-in-delimiter form
`<!-- trajectory-optimize:L key=value -->` … `<!-- /trajectory-optimize:L -->`
(the spec's `<open:L key=value-->` … `<close:L-->`; `src/README.md` and the
tests `TestParser_FindTargets_NewFormat`/`_MixedFormats` show both consumed
by the one `Parser.FindTargets`, merged in document order).  The staged
`parser.go` predates the compact form — its `FindTargets` knows only the
legacy patterns — so the compact matchers and the merged scanner below are
modelled from the specification's description of the compact form, with
the scan-loop structure of the staged `FindTargets`. -/

/-- Label characters of the compact marker form. -/
def labelChar (c : Char) : Bool := c.isAlphanum || c = '-' || c = '_'

/-- Keyword of the compact opening marker (the label glued on by `:`). -/
def litCompactOpenKw : List Char := "trajectory-optimize:".data

/-- Keyword of the compact closing marker. -/
def litCompactCloseKw : List Char := "/trajectory-optimize:".data

/-- Modelled from the spec: the compact marker `<!-- KW LABEL attrs -->`
anchored at the head — the literal `<!--`, optional whitespace, the keyword
`kw`, a non-empty run of label characters, then either `\s*-->` directly
(no attributes) or `\s+` and the attributes up to `\s*-->`; returns the
label and the attribute text. -/
def compactCapAt (kw cs : List Char) : Option (List Char × List Char) :=
  (chopLit litOpen cs).bind fun r1 =>
    (chopLit kw (r1.dropWhile wsRE)).bind fun r2 =>
      let tg := r2.takeWhile labelChar
      if tg.length = 0 then none
      else
        let r3 := r2.drop tg.length
        if closesAt r3 then some (tg, [])
        else (tryK r3 ((r3.takeWhile wsRE).length)).map fun attrs => (tg, attrs)

/-- Unanchored leftmost search for the compact marker. -/
def searchCompactCap (kw : List Char) :
    List Char → Option (List Char × List Char)
  | [] => none
  | c :: rest => compactCapAt kw (c :: rest) <|> searchCompactCap kw rest

/-- The compact opening marker, searched anywhere in a line. -/
def compactOpenCapture (cs : List Char) : Option (List Char × List Char) :=
  searchCompactCap litCompactOpenKw cs

/-- The compact closing marker, searched anywhere in a line (its label). -/
def compactCloseCapture (cs : List Char) : Option (List Char) :=
  (searchCompactCap litCompactCloseKw cs).map fun p => p.1

/-- `min_sessions` from a compact marker's attribute text (default 10, with
the same `Atoi` overflow handling as the legacy attributes). -/
def parseCompactAttrs (attrs : List Char) : Nat :=
  match searchNumAttr "min_sessions".data attrs with
  | none => 10
  | some ds =>
    let n := digitsToNat ds
    if n ≤ 2 ^ 63 - 1 then n else 10

/-- Modelled from the spec: one iteration of the merged scan loop — the
legacy start and end checks of the staged `FindTargets` first, then the
compact close and open markers; either close form ends the open region
(the compact one when its label matches). -/
def stepBoth (fp : List Char) (n : Nat) (pending : Option PendingTarget)
    (acc : List OptimizationTarget) (raw : List Char) :
    Except ParseErr (Option PendingTarget × List OptimizationTarget) :=
  match optimizeStartCapture (stripCR raw) with
  | some attrs =>
    match pending with
    | some _ => .error (.nested n)
    | none =>
      match parseOptimizeAttrs attrs with
      | none => .error (.missingTag n)
      | some (tag, ms) => .ok (some ⟨tag, ms, n, []⟩, acc)
  | none =>
    if optimizeEndMatch (stripCR raw) then
      match pending with
      | none => .error (.endWithoutStart n)
      | some pt => .ok (none, acc ++ [mkTarget fp pt n])
    else
      match compactCloseCapture (stripCR raw) with
      | some tg =>
        match pending with
        | none => .error (.endWithoutStart n)
        | some pt =>
          if pt.tag = tg then .ok (none, acc ++ [mkTarget fp pt n])
          else .error (.endWithoutStart n)
      | none =>
        match compactOpenCapture (stripCR raw) with
        | some (tg, attrs) =>
          match pending with
          | some _ => .error (.nested n)
          | none => .ok (some ⟨tg, parseCompactAttrs attrs, n, []⟩, acc)
        | none =>
          match pending with
          | some pt =>
            .ok (some { pt with
              content := builderPush pt.content (stripCR raw) }, acc)
          | none => .ok (none, acc)

/-- The merged scan loop over a list of raw lines. -/
def runScanBoth (fp : List Char) :
    List (List Char) → Nat → Option PendingTarget → List OptimizationTarget →
    Except ParseErr (Nat × Option PendingTarget × List OptimizationTarget)
  | [], n, pending, acc => .ok (n, pending, acc)
  | raw :: rest, n, pending, acc =>
    match stepBoth fp n pending acc raw with
    | .error e => .error e
    | .ok (p', acc') => runScanBoth fp rest (n + 1) p' acc'

/-- Modelled from the spec: `Parser.FindTargets` with both marker forms, on
the file contents `doc` of file `fp`. -/
def findTargetsBoth (fp doc : List Char) :
    Except ParseErr (List OptimizationTarget) :=
  match runScanBoth fp (scanLines doc) 1 none [] with
  | .error e => .error e
  | .ok (_, some pt, _) => .error (.unpairedStart pt.startLine)
  | .ok (_, none, acc) => .ok acc

/-- A raw line on which the merged scan loop neither opens nor closes a
region, in either form. -/
def NonMarkerBoth (raw : List Char) : Prop :=
  optimizeStartCapture (stripCR raw) = none ∧
  optimizeEndMatch (stripCR raw) = false ∧
  compactCloseCapture (stripCR raw) = none ∧
  compactOpenCapture (stripCR raw) = none

instance (raw : List Char) : Decidable (NonMarkerBoth raw) :=
  inferInstanceAs (Decidable (_ ∧ _ ∧ _ ∧ _))

/-- Example file path for the C5 witness. -/
def c5fp : List Char := "mixed.md".data

/-- The mixed-formats document of `TestParser_FindTargets_MixedFormats`: a
compact region followed by a legacy verbose region. -/
def c5doc : List Char :=
  ("# Mixed Formats\n\n<!-- trajectory-optimize:new-style min_sessions=5 -->\nNew format content\n<!-- /trajectory-optimize:new-style -->\n\n<!-- trajectory-optimize:start tag=\"legacy-style\" min_sessions=15 -->\nLegacy format content\n<!-- trajectory-optimize:end -->\n").data

/-! ## Claim C2: `atomicWrite`

The filesystem visible to `atomicWrite` is the target path and the one
sibling temp file that `os.CreateTemp(dir, ".tmp-")` creates in the target's
directory; each fallible system call carries a fault flag so that every
failure point before the final `os.Rename` can be exercised. -/
/-- The two paths `atomicWrite` touches: the contents at the target path
(`none` = no file) and the contents of its sibling temp file. -/
structure FileSys where
  doc : Option (List Char)
  tmp : Option (List Char)
  deriving DecidableEq, Repr

/-- Fault injection for the system calls of `atomicWrite`, in program
order: `os.CreateTemp`, `WriteString`, `Close`, `os.Chmod`, `os.Rename`. -/
structure FsFaults where
  createTemp : Bool
  write : Bool
  close : Bool
  chmod : Bool
  rename : Bool
  deriving DecidableEq, Repr

/-- `atomicWrite`: create a sibling temp file, write the content, close,
copy the original's permissions when it exists (`os.Stat` succeeds), then
install with one `os.Rename`; the deferred cleanup removes the temp file on
every non-success path.  Returns the error (if any) and the resulting
filesystem. -/
def atomicWrite (f : FsFaults) (content : List Char) (fs : FileSys) :
    Option (List Char) × FileSys :=
  if f.createTemp then (some ("failed to create temp file").data, fs)
  else
    let fs1 : FileSys := { fs with tmp := some [] }
    if f.write then (some ("failed to write temp file").data, { fs1 with tmp := none })
    else
      let fs2 : FileSys := { fs1 with tmp := some content }
      if f.close then (some ("failed to close temp file").data, { fs2 with tmp := none })
      else if fs.doc.isSome && f.chmod then
        (some ("failed to set permissions").data, { fs2 with tmp := none })
      else if f.rename then
        (some ("failed to rename temp file").data, { fs2 with tmp := none })
      else (none, { doc := some content, tmp := none })

/-! ## The lifecycle engine

`Optimizer.SaveProposal/Apply/Reject/Rollback` over the persistence
operations `BoltStore.CreateOptimization` / `GetOptimization` /
`UpdateOptimization`.  The store is the optimizations bucket: an
association list keyed by record ID (`b.Put` inserts or replaces).  Time
stamps are abstract ticks (`Nat`); ULIDs are passed in as parameters.  A
`ufail` flag injects a failure of the final `db.Update` transaction of
`UpdateOptimization`, after its existence check. -/
/-- `types.OptStatusProposed`. -/
def optStatusProposed : List Char := "proposed".data

/-- `types.OptStatusAccepted`. -/
def optStatusAccepted : List Char := "accepted".data

/-- `types.OptStatusRejected`. -/
def optStatusRejected : List Char := "rejected".data

/-- `types.OptStatusRolledBack`. -/
def optStatusRolledBack : List Char := "rolled_back".data

/-- `types.OptimizationRecord` (scores as `ℚ`, times as ticks). -/
structure OptimizationRecord where
  id : List Char
  targetFile : List Char
  tag : List Char
  sessionsUsed : Nat
  avgScoreHigh : ℚ
  avgScoreLow : ℚ
  previousContent : List Char
  newContent : List Char
  diff : List Char
  status : List Char
  createdAt : Nat
  appliedAt : Option Nat
  rolledBackAt : Option Nat
  deriving DecidableEq, Repr

/-- The optimizations bucket: an association list keyed by record ID. -/
def Store : Type := List (List Char × OptimizationRecord)

/-- Bucket lookup (`b.Get`). -/
def storeGet : Store → List Char → Option OptimizationRecord
  | [], _ => none
  | p :: rest, id => if p.1 = id then some p.2 else storeGet rest id

/-- Bucket write (`b.Put`): insert or replace at the key. -/
def storePut : Store → List Char → OptimizationRecord → Store
  | [], id, r => [(id, r)]
  | p :: rest, id, r =>
    if p.1 = id then (id, r) :: rest else p :: storePut rest id r

/-- Decimal digits of a natural number (`fmt.Sprintf("%d", n)`). -/
def natDecAux : Nat → Nat → List Char
  | 0, _ => []
  | fuel + 1, n =>
    if n < 10 then [Char.ofNat (48 + n)]
    else natDecAux fuel (n / 10) ++ [Char.ofNat (48 + n % 10)]

/-- Decimal rendering of a natural number. -/
def natDec (n : Nat) : List Char := natDecAux (n + 1) n

/-- `generateUnifiedDiff`: header, one `@@` hunk, all old lines with `-`,
then all new lines with `+`. -/
def generateUnifiedDiff (oldContent newContent oldName newName : List Char) :
    List Char :=
  let oldLines := splitNL oldContent
  let newLines := splitNL newContent
  "--- ".data ++ oldName ++ '
' ::
    ("+++ ".data ++ newName ++ '
' ::
      ("@@ -1,".data ++ natDec oldLines.length ++ " +1,".data ++
        natDec newLines.length ++ " @@
".data ++
        oldLines.foldr (fun l acc => '-' :: (l ++ '
' :: acc))
          (newLines.foldr (fun l acc => '+' :: (l ++ '
' :: acc)) [])))

/-- `b.Put` of a record at its own ID, returning the stored record. -/
def putRecord (st : Store) (r : OptimizationRecord) :
    Store × OptimizationRecord :=
  (storePut st r.id r, r)

/-- `BoltStore.CreateOptimization`: generate an ID when empty, stamp
`CreatedAt`, then `b.Put` unconditionally — an existing record at the same
key is replaced. -/
def createOptimization (st : Store) (newId : List Char) (now : Nat)
    (r : OptimizationRecord) : Store × OptimizationRecord :=
  if r.id = [] then putRecord st { r with id := newId, createdAt := now }
  else putRecord st { r with createdAt := now }

/-- `BoltStore.GetOptimization`. -/
def getOptimization (st : Store) (id : List Char) :
    Except (List Char) OptimizationRecord :=
  match storeGet st id with
  | none => .error ("optimization record not found").data
  | some r => .ok r

/-- `BoltStore.UpdateOptimization`: error when the key is absent, then
`b.Put`; `ufail` injects a failure of the enclosing `db.Update`
transaction. -/
def updateOptimization (ufail : Bool) (st : Store) (r : OptimizationRecord) :
    Except (List Char) Store :=
  match storeGet st r.id with
  | none => .error ("optimization record not found").data
  | some _ =>
    if ufail then .error ("update failed").data
    else .ok (storePut st r.id r)

/-- `Optimizer.SaveProposal`: build the record (diff included, status
`proposed`) and persist it through `CreateOptimization`. -/
def saveProposal (st : Store) (newId : List Char) (now : Nat)
    (recordID filePath tag previousContent newContent : List Char) :
    Store × OptimizationRecord :=
  let diff := generateUnifiedDiff previousContent newContent
    ("current").data ("proposed").data
  createOptimization st newId now
    { id := recordID, targetFile := filePath, tag := tag, sessionsUsed := 0,
      avgScoreHigh := 0, avgScoreLow := 0,
      previousContent := previousContent, newContent := newContent,
      diff := diff, status := optStatusProposed, createdAt := now,
      appliedAt := none, rolledBackAt := none }

/-- `Optimizer.Apply` on the contents `doc` of the record's target file:
get the record, require status `proposed`, re-find the targets, take the
first with the record's tag, replace its body with `NewContent` (this is
the document write), then persist status `accepted`.  Returns the error
(if any) with the resulting store and document contents. -/
def applyCore (ufail : Bool) (st : Store) (doc : List Char) (now : Nat)
    (record : OptimizationRecord) : Option (List Char) × Store × List Char :=
  if record.status ≠ optStatusProposed then
    (some ("optimization is not in proposed status").data, st, doc)
  else
      match findTargets record.targetFile doc with
      | .error _ => (some ("failed to parse file").data, st, doc)
      | .ok targets =>
        match targets.find? (fun t => t.tag = record.tag) with
        | none => (some ("optimization target not found in file").data, st, doc)
        | some target =>
          match replaceTarget doc target record.newContent with
          | .error _ => (some ("failed to replace content").data, st, doc)
          | .ok doc2 =>
            let r2 := { record with
              status := optStatusAccepted, appliedAt := some now }
            match updateOptimization ufail st r2 with
            | .error e => (some e, st, doc2)
            | .ok st2 => (none, st2, doc2)

/-- `Optimizer.Apply` dispatch: fetch the record, then run the core. -/
def applyOpt (ufail : Bool) (st : Store) (doc : List Char)
    (recordID : List Char) (now : Nat) :
    Option (List Char) × Store × List Char :=
  match getOptimization st recordID with
  | .error e => (some e, st, doc)
  | .ok record => applyCore ufail st doc now record

/-- `Optimizer.Reject`: get the record, require status `proposed`, persist
status `rejected`. -/
def rejectCore (ufail : Bool) (st : Store) (record : OptimizationRecord) :
    Option (List Char) × Store :=
  if record.status ≠ optStatusProposed then
    (some ("optimization is not in proposed status").data, st)
  else
    match updateOptimization ufail st
        { record with status := optStatusRejected } with
    | .error e => (some e, st)
    | .ok st2 => (none, st2)

/-- `Optimizer.Reject` dispatch: fetch the record, then run the core. -/
def rejectOpt (ufail : Bool) (st : Store) (recordID : List Char) :
    Option (List Char) × Store :=
  match getOptimization st recordID with
  | .error e => (some e, st)
  | .ok record => rejectCore ufail st record

/-- `Optimizer.Rollback`: get the record, require status `accepted`,
re-find the targets, take the first with the record's tag, replace its
body with `PreviousContent` (the document write), then persist status
`rolled_back`. -/
def rollbackCore (ufail : Bool) (st : Store) (doc : List Char) (now : Nat)
    (record : OptimizationRecord) : Option (List Char) × Store × List Char :=
  if record.status ≠ optStatusAccepted then
    (some ("optimization is not in accepted status").data, st, doc)
  else
      match findTargets record.targetFile doc with
      | .error _ => (some ("failed to parse file").data, st, doc)
      | .ok targets =>
        match targets.find? (fun t => t.tag = record.tag) with
        | none => (some ("optimization target not found in file").data, st, doc)
        | some target =>
          match replaceTarget doc target record.previousContent with
          | .error _ => (some ("failed to restore content").data, st, doc)
          | .ok doc2 =>
            let r2 := { record with
              status := optStatusRolledBack, rolledBackAt := some now }
            match updateOptimization ufail st r2 with
            | .error e => (some e, st, doc2)
            | .ok st2 => (none, st2, doc2)

/-- `Optimizer.Rollback` dispatch: fetch the record, then run the core. -/
def rollbackOpt (ufail : Bool) (st : Store) (doc : List Char)
    (recordID : List Char) (now : Nat) :
    Option (List Char) × Store × List Char :=
  match getOptimization st recordID with
  | .error e => (some e, st, doc)
  | .ok record => rollbackCore ufail st doc now record

/-! ## Claims C1 and C10: the record lifecycle -/
def c1fp : List Char := "f.md".data

/-- Target document for the lifecycle examples. -/
def c1doc : List Char :=
  ("<!-- trajectory-optimize:start tag=\"t\" -->\nold\n<!-- trajectory-optimize:end -->").data

/-- Store holding one proposed record `X` (old → new on tag `t`). -/
def c1st1 : Store :=
  (saveProposal [] "Z".data 1 "X".data c1fp "t".data "old".data "new".data).1

/-- `c1st1` after a successful `Apply` of record `X`. -/
def c1st2 : Store := (applyOpt false c1st1 c1doc "X".data 5).2.1

/-- `c1doc` after a successful `Apply` of record `X`. -/
def c1doc2 : List Char := (applyOpt false c1st1 c1doc "X".data 5).2.2

instance (raw : List Char) : Decidable (NonMarker raw) :=
  inferInstanceAs (Decidable (optimizeStartCapture (stripCR raw) = none ∧
    optimizeEndMatch (stripCR raw) = false))

def c6fp : List Char := "g.md".data

/-- A document whose region body `  old` carries leading whitespace, so the
recorded (trimmed) content differs from the raw body bytes. -/
def c6doc : List Char :=
  ("<!-- trajectory-optimize:start tag=\"t\" -->\n  old\n<!-- trajectory-optimize:end -->").data

/-- Store holding the proposed record `X` for `c6doc` (previous content as
recorded at proposal time: the trimmed `old`). -/
def c6st1 : Store :=
  (saveProposal [] "Z".data 1 "X".data c6fp "t".data "old".data "new".data).1

/-- The apply step on `c6doc`. -/
def c6app : Option (List Char) × Store × List Char :=
  applyOpt false c6st1 c6doc "X".data 5

/-- The rollback step after `c6app`. -/
def c6rb : Option (List Char) × Store × List Char :=
  rollbackOpt false c6app.2.1 c6app.2.2 "X".data 6

/-! ## The trajectory analyzer

`Analyzer.Analyze` and its curation pipeline (`curateExamples`,
`selectDiverse`, `tokenize`, `jaccardSimilarity`), with `float64` scores as
`ℚ`.  `Analyze` is modelled from the point where `getSessionsByTag` has
returned the tag's sessions (the store lookup behind it is
`SearchSessions`, whose source is not in the staged tree); the pattern
extraction strings (`HighScorePatterns` etc.) do not appear in any claim
and are not modelled.  Go's `sort.Slice` is not stable; the model uses
insertion sort, which agrees with it on all lists whose scores are
pairwise distinct. -/
/-- `HighScoreThreshold = 0.75`. -/
def HighScoreThreshold : ℚ := mkRat 3 4

/-- `LowScoreThreshold = 0.5`. -/
def LowScoreThreshold : ℚ := mkRat 1 2

/-- `types.Outcome` (score plus user notes). -/
structure Outcome where
  score : ℚ
  notes : List Char
  deriving DecidableEq, Repr

/-- `types.Session`, restricted to the fields the analyzer reads. -/
structure Session where
  id : List Char
  taskPrompt : List Char
  summary : List Char
  outcome : Option Outcome
  deriving DecidableEq, Repr

/-- `s.Outcome.Score` (0 when unscored; the analyzer only reads it on
scored sessions). -/
def sessionScore (s : Session) : ℚ :=
  match s.outcome with
  | some o => o.score
  | none => 0

/-- `s.Outcome.Notes` with the nil guard of `curateExamples`. -/
def sessionNotes (s : Session) : List Char :=
  match s.outcome with
  | some o => o.notes
  | none => []

/-- `calculateAvgScore`: 0 on an empty list, otherwise the sum of the
scores of the scored sessions divided by the list length. -/
def calculateAvgScore (sessions : List Session) : ℚ :=
  if sessions.length = 0 then 0
  else (sessions.foldl (fun acc s =>
    match s.outcome with
    | some o => acc + o.score
    | none => acc) 0) / (sessions.length : ℚ)

/-- The rune class kept by `tokenize`: `[a-z0-9]`. -/
def isTokenChar (c : Char) : Bool :=
  ('a' ≤ c && c ≤ 'z') || ('0' ≤ c && c ≤ '9')

/-- `strings.FieldsFunc`: maximal runs of token characters. -/
def fieldsAux : List Char → List Char → List (List Char)
  | [], acc => if acc = [] then [] else [acc.reverse]
  | c :: cs, acc =>
    if isTokenChar c then fieldsAux cs (c :: acc)
    else if acc = [] then fieldsAux cs []
    else acc.reverse :: fieldsAux cs []

/-- Split into token-character fields. -/
def fields (cs : List Char) : List (List Char) := fieldsAux cs []

/-- The stop-word set of `tokenize`. -/
def stopWords : List (List Char) :=
  ["the".data, "a".data, "an".data, "and".data, "or".data,
   "to".data, "in".data, "for".data, "of".data, "on".data,
   "with".data, "this".data, "that".data, "is".data, "are".data]

/-- `tokenize`: lower-case, split on non-`[a-z0-9]`, drop stop words and
words of length ≤ 2. -/
def tokenize (text : List Char) : List (List Char) :=
  (fields (text.map Char.toLower)).filter
    (fun w => !stopWords.contains w && decide (2 < w.length))

/-- `jaccardSimilarity`: |A ∩ B| / |A ∪ B| over the deduplicated word
sets; 1 when both are empty, 0 when exactly one is. -/
def jaccardSimilarity (a b : List (List Char)) : ℚ :=
  if a = [] && b = [] then 1
  else if a = [] || b = [] then 0
  else
    let A := a.dedup
    let B := b.dedup
    let inter := (A.filter (fun w => B.contains w)).length
    (inter : ℚ) / ((A.length + B.length - inter : Nat) : ℚ)

/-- Ascending score order (`low[i].Outcome.Score < low[j].Outcome.Score`). -/
def ascScore : Session → Session → Prop :=
  fun a b => sessionScore a ≤ sessionScore b

instance : DecidableRel ascScore :=
  fun a b => inferInstanceAs (Decidable (sessionScore a ≤ sessionScore b))

instance : IsTotal Session ascScore := ⟨fun _ _ => le_total _ _⟩

instance : IsTrans Session ascScore := ⟨fun _ _ _ hab hbc => le_trans hab hbc⟩

/-- Descending score order (`high[i].Outcome.Score > high[j].Outcome.Score`). -/
def descScore : Session → Session → Prop :=
  fun a b => sessionScore b ≤ sessionScore a

instance : DecidableRel descScore :=
  fun a b => inferInstanceAs (Decidable (sessionScore b ≤ sessionScore a))

instance : IsTotal Session descScore := ⟨fun _ _ => le_total _ _⟩

instance : IsTrans Session descScore := ⟨fun _ _ _ hab hbc => le_trans hbc hab⟩

/-- Diversity check of `selectDiverse`: similar to no already-selected
session (Go rejects when similarity exceeds 0.6). -/
def diverseAgainst (sel : List Session) (s : Session) : Bool :=
  sel.all (fun e => decide (jaccardSimilarity (tokenize s.taskPrompt)
    (tokenize e.taskPrompt) ≤ mkRat 3 5))

/-- First pass of `selectDiverse`: keep diverse sessions with summaries,
up to `n`. -/
def diversePass : List Session → List Session → Nat → List Session
  | [], sel, _ => sel
  | s :: ss, sel, n =>
    if n ≤ sel.length then sel
    else if diverseAgainst sel s && !s.summary.isEmpty then
      diversePass ss (sel ++ [s]) n
    else diversePass ss sel n

/-- Second pass of `selectDiverse`: backfill with remaining sessions. -/
def backfillPass : List Session → List Session → Nat → List Session
  | [], sel, _ => sel
  | s :: ss, sel, n =>
    if n ≤ sel.length then sel
    else if sel.any (fun e => e.id = s.id) then backfillPass ss sel n
    else backfillPass ss (sel ++ [s]) n

/-- `selectDiverse`. -/
def selectDiverse (sessions : List Session) (n : Nat) : List Session :=
  if sessions.length ≤ n then sessions
  else backfillPass sessions (diversePass sessions [] n) n

/-- `types.CuratedExample` (the selection-reason string, a formatted
message, is not modelled). -/
structure CuratedExample where
  sessionID : List Char
  taskPrompt : List Char
  summary : List Char
  score : ℚ
  notes : List Char
  deriving DecidableEq, Repr

/-- Build a curated example from a session. -/
def mkCuratedExample (s : Session) : CuratedExample :=
  { sessionID := s.id, taskPrompt := s.taskPrompt, summary := s.summary,
    score := sessionScore s, notes := sessionNotes s }

/-- The negative-example selection of `curateExamples`: when the low cohort
is non-empty, sort it by ascending score and take the first session with a
non-empty summary, if any. -/
def lowExamples (low : List Session) : List CuratedExample :=
  if low = [] then []
  else
    match (List.insertionSort ascScore low).find?
        (fun s => !s.summary.isEmpty) with
    | some s => [mkCuratedExample s]
    | none => []

/-- `curateExamples`: up to three diverse high-scoring examples (sorted by
descending score), then the negative example. -/
def curateExamples (high low : List Session) : List CuratedExample :=
  (selectDiverse (List.insertionSort descScore high) 3).map mkCuratedExample
    ++ lowExamples low

/-- `types.TrajectoryAnalysis`, restricted to the fields the claims speak
about. -/
structure TrajectoryAnalysis where
  tag : List Char
  totalSessions : Nat
  highScoreSessions : Nat
  lowScoreSessions : Nat
  avgScoreHigh : ℚ
  avgScoreLow : ℚ
  curatedExamples : List CuratedExample
  deriving DecidableEq, Repr, Inhabited

/-- `Analyzer.Analyze` from the point where `getSessionsByTag` has returned
`sessions`: filter to scored sessions, require at least `minSessions` of
them, split into cohorts by the two thresholds (`score ≥ 0.75` high,
`0.5 ≤ score < 0.75` medium — counted in the total but mined by neither
cohort —, `score < 0.5` low), average the high and low cohorts and curate
examples. -/
def analyzeSessions (tag : List Char) (minSessions : Nat)
    (sessions : List Session) : Except (List Char) TrajectoryAnalysis :=
  let scored := sessions.filter (fun s => s.outcome.isSome)
  if scored.length < minSessions then
    .error ("insufficient scored sessions for analysis").data
  else
    let high := scored.filter (fun s =>
      decide (HighScoreThreshold ≤ sessionScore s))
    let low := scored.filter (fun s =>
      !decide (HighScoreThreshold ≤ sessionScore s) &&
      !decide (LowScoreThreshold ≤ sessionScore s))
    .ok
      { tag := tag, totalSessions := scored.length,
        highScoreSessions := high.length, lowScoreSessions := low.length,
        avgScoreHigh := calculateAvgScore high,
        avgScoreLow := calculateAvgScore low,
        curatedExamples := curateExamples high low }

/-- The spec's example scores {0.95, 0.85, 0.80, 0.65, 0.55, 0.40, 0.30},
all scored. -/
def c7sessions : List Session :=
  [⟨"s1".data, "p1".data, "m1".data, some ⟨mkRat 19 20, []⟩⟩,
   ⟨"s2".data, "p2".data, "m2".data, some ⟨mkRat 17 20, []⟩⟩,
   ⟨"s3".data, "p3".data, "m3".data, some ⟨mkRat 4 5, []⟩⟩,
   ⟨"s4".data, "p4".data, "m4".data, some ⟨mkRat 13 20, []⟩⟩,
   ⟨"s5".data, "p5".data, "m5".data, some ⟨mkRat 11 20, []⟩⟩,
   ⟨"s6".data, "p6".data, "m6".data, some ⟨mkRat 2 5, []⟩⟩,
   ⟨"s7".data, "p7".data, "m7".data, some ⟨mkRat 3 10, []⟩⟩]

/-- The analysis of `c7sessions` with `minSessions = 5`. -/
def c7A : TrajectoryAnalysis :=
  (analyzeSessions "t".data 5 c7sessions).toOption.getD default

/-- A low cohort with a summaryless lowest scorer (0.3) and a
summary-bearing runner-up (0.4). -/
def c8low : List Session :=
  [⟨"u1".data, "q1".data, [], some ⟨mkRat 3 10, []⟩⟩,
   ⟨"u2".data, "q2".data, "bad".data, some ⟨mkRat 2 5, []⟩⟩]

/-- A non-empty low cohort none of whose sessions has a summary. -/
def c8nolow : List Session :=
  [⟨"v1".data, "r1".data, [], some ⟨mkRat 3 10, []⟩⟩]

/-! ## The strategy selector

`Server.handleStrategiesSelect`, recommend and rotate policies, over the
stats map returned by `GetStrategyStats` (an association list from
strategy name to its aggregate). -/
/-- `types.Strategy` (scores as `ℚ`). -/
structure Strategy where
  name : List Char
  approachPrompt : List Char
  avgScore : ℚ
  sessionCount : Nat
  deriving DecidableEq, Repr

/-- The stats map (`map[string]*types.Strategy`). -/
def statsGet : List (List Char × Strategy) → List Char → Option Strategy
  | [], _ => none
  | p :: rest, name => if p.1 = name then some p.2 else statsGet rest name

/-- The recommend loop: scan the declared strategies in order, keeping the
qualifying one (`SessionCount >= 2`) whose average STRICTLY beats the best
so far (initially −1). -/
def recommendLoop (stats : List (List Char × Strategy)) :
    List Strategy → Option Strategy → ℚ → Option Strategy
  | [], best, _ => best
  | strat :: rest, best, bestScore =>
    match statsGet stats strat.name with
    | some stat =>
      if 2 ≤ stat.sessionCount then
        if bestScore < stat.avgScore then
          recommendLoop stats rest
            (some { strat with
              avgScore := stat.avgScore, sessionCount := stat.sessionCount })
            stat.avgScore
        else recommendLoop stats rest best bestScore
      else recommendLoop stats rest best bestScore
    | none => recommendLoop stats rest best bestScore

/-- The `recommend` policy: loop, then fall back to the first declared
strategy ("no performance data yet"). -/
def selectRecommend (strategies : List Strategy)
    (stats : List (List Char × Strategy)) : Option Strategy :=
  match recommendLoop stats strategies none (-1) with
  | some r => some r
  | none => strategies.head?

/-- The usage count the rotate loop reads for a strategy (0 when the stats
map has no entry). -/
def usageOf (stats : List (List Char × Strategy)) (strat : Strategy) : Nat :=
  match statsGet stats strat.name with
  | some stat => stat.sessionCount
  | none => 0

/-- The strategy as selected by the rotate loop (`SessionCount` copied from
the stats entry when present). -/
def withCount (stats : List (List Char × Strategy)) (strat : Strategy) :
    Strategy :=
  match statsGet stats strat.name with
  | some stat => { strat with sessionCount := stat.sessionCount }
  | none => strat

/-- The rotate loop: scan the declared strategies in order, keeping the one
whose usage count STRICTLY undercuts the minimum so far — which starts at
the sentinel 999999, not at infinity. -/
def rotateLoop (stats : List (List Char × Strategy)) :
    List Strategy → Option Strategy → Nat → Option Strategy
  | [], sel, _ => sel
  | strat :: rest, sel, minCount =>
    if usageOf stats strat < minCount then
      rotateLoop stats rest (some (withCount stats strat)) (usageOf stats strat)
    else rotateLoop stats rest sel minCount

/-- The `rotate` policy. -/
def selectRotate (strategies : List Strategy)
    (stats : List (List Char × Strategy)) : Option Strategy :=
  rotateLoop stats strategies none 999999

/-- A strategy's qualifying stats entry under `recommend`
(`SessionCount >= 2`). -/
def qualOf (stats : List (List Char × Strategy)) (s : Strategy) :
    Option Strategy :=
  match statsGet stats s.name with
  | some stat => if 2 ≤ stat.sessionCount then some stat else none
  | none => none

/-- The two declared strategies of the spec's example: A then B. -/
def c9AB : List Strategy :=
  [⟨"A".data, "pa".data, 0, 0⟩, ⟨"B".data, "pb".data, 0, 0⟩]

/-- Their stats: A has 3 uses at mean 0.9, B has 1 use at mean 1.0. -/
def c9ABstats : List (List Char × Strategy) :=
  [("A".data, ⟨"A".data, "pa".data, mkRat 9 10, 3⟩),
   ("B".data, ⟨"B".data, "pb".data, mkRat 1 1, 1⟩)]

/-- One declared strategy whose recorded usage already reached the
999999 sentinel. -/
def c9Sat : List Strategy := [⟨"A".data, "pa".data, 0, 0⟩]

/-- Its saturated stats entry. -/
def c9SatStats : List (List Char × Strategy) :=
  [("A".data, ⟨"A".data, "pa".data, mkRat 9 10, 999999⟩)]

/-! ## Theorems -/

theorem splitNL_ne_nil (cs : List Char) : splitNL cs ≠ [] := by
  induction cs with
  | nil => simp [splitNL]
  | cons c cs ih =>
    simp only [splitNL]
    split
    · simp
    · match h : splitNL cs with
      | [] => simp
      | l :: ls => simp

theorem splitNL_no_newline (cs : List Char) :
    ∀ l ∈ splitNL cs, '\n' ∉ l := by
  induction cs with
  | nil => intro l hl; simp [splitNL] at hl; simp [hl]
  | cons c cs ih =>
    intro l hl
    simp only [splitNL] at hl
    by_cases hc : c = '\n'
    · simp [hc] at hl
      rcases hl with h | h
      · simp [h]
      · exact ih l h
    · simp [hc] at hl
      match h : splitNL cs, splitNL_ne_nil cs with
      | l₀ :: ls, _ =>
        rw [h] at hl
        simp at hl
        rcases hl with h' | h'
        · subst h'
          intro hmem
          rcases List.mem_cons.mp hmem with h'' | h''
          · exact hc h''.symm
          · exact ih l₀ (by rw [h]; exact List.mem_cons_self _ _) h''
        · exact ih l (by rw [h]; exact List.mem_cons_of_mem _ h')

theorem splitNL_cons_newline (cs : List Char) :
    splitNL ('\n' :: cs) = [] :: splitNL cs := by
  simp [splitNL]

theorem splitNL_exists_cons (cs : List Char) :
    ∃ m ms, splitNL cs = m :: ms := by
  match h : splitNL cs, splitNL_ne_nil cs with
  | m :: ms, _ => exact ⟨m, ms, rfl⟩

theorem splitNL_cons_ne {c : Char} (hc : c ≠ '\n') (cs : List Char) :
    splitNL (c :: cs) = (c :: (splitNL cs).headI) :: (splitNL cs).tail := by
  simp only [splitNL, if_neg hc]
  obtain ⟨m, ms, h⟩ := splitNL_exists_cons cs
  rw [h]
  simp

/-- A newline-free list is its own single line. -/
theorem splitNL_nlfree {l : List Char} (hl : '\n' ∉ l) : splitNL l = [l] := by
  induction l with
  | nil => simp [splitNL]
  | cons c cs ih =>
    have hc : c ≠ '\n' := fun h => hl (by simp [h])
    have := ih (fun h => hl (List.mem_cons_of_mem _ h))
    rw [splitNL_cons_ne hc]
    simp [this]

/-- Splitting a newline-free line followed by a newline peels off that line. -/
theorem splitNL_line_append {l : List Char} (hl : '\n' ∉ l) (rest : List Char) :
    splitNL (l ++ '\n' :: rest) = l :: splitNL rest := by
  induction l with
  | nil => simp [splitNL_cons_newline]
  | cons c cs ih =>
    have hc : c ≠ '\n' := fun h => hl (by simp [h])
    have hrec := ih (fun h => hl (List.mem_cons_of_mem _ h))
    rw [List.cons_append, splitNL_cons_ne hc, hrec]
    simp

/-- The first line of `x` is a prefix of the first line of `x ++ v`. -/
theorem splitNL_head_le_head (x v : List Char) :
    (splitNL x).headI <+: (splitNL (x ++ v)).headI := by
  induction x with
  | nil => simp [splitNL]
  | cons c x ih =>
    by_cases hc : c = '\n'
    · subst hc
      rw [splitNL_cons_newline, List.cons_append, splitNL_cons_newline]
      simp
    · rw [splitNL_cons_ne hc, List.cons_append, splitNL_cons_ne hc]
      simpa [List.cons_prefix_cons] using ih

/-- Every line of `x` is an infix of some line of `u ++ x`. -/
theorem splitNL_infix_left (u x : List Char) :
    ∀ l' ∈ splitNL x, ∃ l ∈ splitNL (u ++ x), l' <:+: l := by
  induction u with
  | nil => exact fun l' hl' => ⟨l', by simpa using hl', List.infix_refl l'⟩
  | cons c u ih =>
    intro l' hl'
    obtain ⟨l, hl, hinf⟩ := ih l' hl'
    by_cases hc : c = '\n'
    · subst hc
      rw [List.cons_append, splitNL_cons_newline]
      exact ⟨l, List.mem_cons_of_mem _ hl, hinf⟩
    · rw [List.cons_append, splitNL_cons_ne hc]
      obtain ⟨m, ms, hS⟩ := splitNL_exists_cons (u ++ x)
      rw [hS] at hl
      rcases List.mem_cons.mp hl with h | h
      · subst h
        exact ⟨c :: (splitNL (u ++ x)).headI, by simp,
          hinf.trans (by rw [hS]; exact ⟨[c], [], by simp⟩)⟩
      · exact ⟨l, by simp [hS, h], hinf⟩

/-- Every line of `x` is an infix of some line of `x ++ v`. -/
theorem splitNL_infix_right (x v : List Char) :
    ∀ l' ∈ splitNL x, ∃ l ∈ splitNL (x ++ v), l' <:+: l := by
  induction x with
  | nil =>
    intro l' hl'
    simp only [splitNL, List.mem_singleton] at hl'
    subst hl'
    obtain ⟨m, ms, hS⟩ := splitNL_exists_cons v
    exact ⟨m, by simp [hS], by simp⟩
  | cons c x ih =>
    intro l' hl'
    by_cases hc : c = '\n'
    · subst hc
      rw [splitNL_cons_newline] at hl'
      rw [List.cons_append, splitNL_cons_newline]
      rcases List.mem_cons.mp hl' with h | h
      · exact ⟨[], by simp, by simp [h]⟩
      · obtain ⟨l, hl, hinf⟩ := ih l' h
        exact ⟨l, List.mem_cons_of_mem _ hl, hinf⟩
    · rw [splitNL_cons_ne hc] at hl'
      rw [List.cons_append, splitNL_cons_ne hc]
      rcases List.mem_cons.mp hl' with h | h
      · refine ⟨c :: (splitNL (x ++ v)).headI, by simp, ?_⟩
        subst h
        exact List.IsPrefix.isInfix
          (List.cons_prefix_cons.mpr ⟨rfl, splitNL_head_le_head x v⟩)
      · obtain ⟨l, hl, hinf⟩ := ih l' (List.mem_of_mem_tail h)
        obtain ⟨m, ms, hS⟩ := splitNL_exists_cons (x ++ v)
        rw [hS] at hl
        rcases List.mem_cons.mp hl with h' | h'
        · subst h'
          exact ⟨c :: (splitNL (x ++ v)).headI, by simp,
            hinf.trans (by rw [hS]; exact ⟨[c], [], by simp⟩)⟩
        · exact ⟨l, by simp [hS, h'], hinf⟩

/-- Every line of an infix of `s` is an infix of some line of `s`. -/
theorem splitNL_within (u x v : List Char) :
    ∀ l' ∈ splitNL x, ∃ l ∈ splitNL (u ++ x ++ v), l' <:+: l := by
  intro l' hl'
  obtain ⟨m, hm, h₁⟩ := splitNL_infix_right x v l' hl'
  obtain ⟨l, hl, h₂⟩ := splitNL_infix_left u (x ++ v) m hm
  exact ⟨l, by rwa [List.append_assoc], h₁.trans h₂⟩

theorem joinNL_splitNL (cs : List Char) : joinNL (splitNL cs) = cs := by
  induction cs with
  | nil => simp [splitNL, joinNL]
  | cons c cs ih =>
    simp only [splitNL]
    by_cases hc : c = '\n'
    · subst hc
      simp only [if_pos rfl]
      match h : splitNL cs, splitNL_ne_nil cs with
      | l :: ls, _ =>
        rw [h] at ih
        simp [joinNL, ih]
    · simp only [if_neg hc]
      match h : splitNL cs, splitNL_ne_nil cs with
      | l :: ls, _ =>
        rw [h] at ih
        cases ls with
        | nil => simp_all [joinNL]
        | cons l' ls' => simp_all [joinNL]

/-- `splitNL` is a left inverse of `joinNL` on newline-free lines. -/
theorem splitNL_joinNL (ls : List (List Char)) (hne : ls ≠ [])
    (hnl : ∀ l ∈ ls, '\n' ∉ l) : splitNL (joinNL ls) = ls := by
  induction ls with
  | nil => exact absurd rfl hne
  | cons l ls ih =>
    cases ls with
    | nil => exact splitNL_nlfree (hnl l (by simp))
    | cons l' ls' =>
      have hstep : joinNL (l :: l' :: ls') = l ++ '\n' :: joinNL (l' :: ls') := rfl
      rw [hstep, splitNL_line_append (hnl l (by simp)),
        ih (by simp) (fun m hm => hnl m (List.mem_cons_of_mem _ hm))]

theorem joinNL_cons_cons (l l' : List Char) (ls : List (List Char)) :
    joinNL (l :: l' :: ls) = l ++ '\n' :: joinNL (l' :: ls) := rfl

theorem flatJoin_append (a b : List (List Char)) :
    flatJoin (a ++ b) = flatJoin a ++ flatJoin b := by
  simp [flatJoin]

theorem joinNL_append_of_ne_nil (a : List (List Char)) {b : List (List Char)}
    (hb : b ≠ []) : joinNL (a ++ b) = flatJoin a ++ joinNL b := by
  induction a with
  | nil => simp [flatJoin]
  | cons l a ih =>
    match a, b, hb with
    | [], m :: ms, _ => simp [joinNL_cons_cons, flatJoin]
    | l' :: as, b, hb =>
      rw [show (l :: (l' :: as)) ++ b = l :: ((l' :: as) ++ b) from rfl,
        show (l' :: as) ++ b = l' :: (as ++ b) from rfl,
        joinNL_cons_cons, show l' :: (as ++ b) = (l' :: as) ++ b from rfl, ih,
        show flatJoin (l :: l' :: as) = (l ++ ['\n']) ++ flatJoin (l' :: as) by
          simp [flatJoin]]
      simp

theorem flatJoin_eq_joinNL {b : List (List Char)} (hb : b ≠ []) :
    flatJoin b = joinNL b ++ ['\n'] := by
  induction b with
  | nil => exact absurd rfl hb
  | cons l b ih =>
    cases b with
    | nil => simp [flatJoin, joinNL]
    | cons l' bs =>
      rw [joinNL_cons_cons,
        show flatJoin (l :: l' :: bs) = (l ++ ['\n']) ++ flatJoin (l' :: bs) by
          simp [flatJoin]]
      simp [ih]

theorem trimSpace_cons_ws {c : Char} (hc : wsGo c) (cs : List Char) :
    trimSpace (c :: cs) = trimSpace cs := by
  simp [trimSpace, List.dropWhile_cons, hc]

theorem trimRight_cons (c : Char) (cs : List Char) :
    trimRight (c :: cs) =
      if trimRight cs = [] ∧ wsGo c then [] else c :: trimRight cs := by
  simp only [trimRight]
  match h : trimRight cs with
  | [] =>
    by_cases hc : wsGo c <;> simp [hc]
  | r :: rs => simp

theorem trimRight_idem (cs : List Char) : trimRight (trimRight cs) = trimRight cs := by
  induction cs with
  | nil => simp [trimRight]
  | cons c cs ih =>
    rw [trimRight_cons]
    split
    · simp [trimRight]
    · rename_i hcond
      rw [trimRight_cons, ih, if_neg hcond]

theorem trimRight_isPre (cs : List Char) : trimRight cs <+: cs := by
  induction cs with
  | nil => simp [trimRight]
  | cons c cs ih =>
    rw [trimRight_cons]
    split
    · simp
    · exact List.cons_prefix_cons.mpr ⟨rfl, ih⟩

/-- The head of a left-trimmed non-empty list is not whitespace. -/
theorem dropWhile_self (p : Char → Bool) (l : List Char) :
    (l.dropWhile p).dropWhile p = l.dropWhile p := by
  match h : l.dropWhile p with
  | [] => simp
  | c :: cs =>
    have hc : p c = false := by
      have := List.head_dropWhile_not p l (by simp [h])
      simpa [h] using this
    simp [List.dropWhile_cons, hc]

/-- `trimRight` keeps the head of its argument (or returns `[]`). -/
theorem trimRight_head (c : Char) (cs : List Char) :
    trimRight (c :: cs) = [] ∨ ∃ rs, trimRight (c :: cs) = c :: rs := by
  rw [trimRight_cons]
  split
  · exact Or.inl rfl
  · exact Or.inr ⟨trimRight cs, rfl⟩

theorem trimSpace_idem (cs : List Char) : trimSpace (trimSpace cs) = trimSpace cs := by
  unfold trimSpace
  have hdw : (trimRight (cs.dropWhile wsGo)).dropWhile wsGo
      = trimRight (cs.dropWhile wsGo) := by
    match h : cs.dropWhile wsGo with
    | [] => simp [trimRight]
    | c :: cs' =>
      have hc : wsGo c = false := by
        have := List.head_dropWhile_not wsGo cs (by simp [h])
        simpa [h] using this
      rcases trimRight_head c cs' with h1 | ⟨rs, h1⟩ <;>
        simp [h1, List.dropWhile_cons, hc]
  rw [hdw, trimRight_idem]

/-- `trimSpace x` is an infix of `x`. -/
theorem trimSpace_within (cs : List Char) : trimSpace cs <:+: cs :=
  List.IsInfix.trans (List.IsPrefix.isInfix (trimRight_isPre _))
    (List.IsSuffix.isInfix (List.dropWhile_suffix wsGo))

theorem chopLit_eq_some {lit cs r : List Char} :
    chopLit lit cs = some r ↔ cs = lit ++ r := by
  unfold chopLit
  constructor
  · intro h
    split at h
    · rename_i hp
      obtain ⟨t, ht⟩ := List.isPrefixOf_iff_prefix.mp hp
      rw [← ht] at h ⊢
      rw [List.drop_left] at h
      simp_all
    · simp at h
  · intro h
    subst h
    rw [if_pos (List.isPrefixOf_iff_prefix.mpr ⟨r, rfl⟩), List.drop_left]

theorem dropWhile_ws_append {p : Char → Bool} {d : List Char}
    (hd : ∀ c ∈ d, p c) {e : Char} (he : p e = false) (r : List Char) :
    (d ++ e :: r).dropWhile p = e :: r := by
  induction d with
  | nil => simp [List.dropWhile_cons, he]
  | cons x d ih =>
    have hx : p x := hd x (by simp)
    simp only [List.cons_append, List.dropWhile_cons, hx, if_pos]
    exact ih (fun c hc => hd c (List.mem_cons_of_mem _ hc))

theorem closesAt_iff {cs : List Char} :
    closesAt cs = true ↔ ∃ d rest, cs = d ++ litClose ++ rest ∧ WsRun d := by
  unfold closesAt
  constructor
  · intro h
    obtain ⟨rest, hrest⟩ := List.isPrefixOf_iff_prefix.mp h
    refine ⟨cs.takeWhile wsRE, rest, ?_, fun c hc => List.mem_takeWhile_imp hc⟩
    conv_lhs => rw [← List.takeWhile_append_dropWhile (p := wsRE) (l := cs)]
    rw [← hrest]
    simp [List.append_assoc]
  · rintro ⟨d, rest, hcs, hd⟩
    subst hcs
    rw [List.append_assoc,
      show litClose ++ rest = '-' :: ("->".data ++ rest) from rfl,
      dropWhile_ws_append hd (by decide)]
    exact List.isPrefixOf_iff_prefix.mpr ⟨rest, by simp [litClose]⟩

theorem lazyCap_eq_some {cs cap : List Char} (h : lazyCap cs = some cap) :
    cap ≠ [] ∧ ∃ tail, cs = cap ++ tail ∧ closesAt tail = true := by
  induction cs generalizing cap with
  | nil => simp [lazyCap] at h
  | cons c rest ih =>
    simp only [lazyCap] at h
    split at h
    · rename_i hclose
      obtain rfl : [c] = cap := by simpa using h
      exact ⟨by simp, rest, rfl, hclose⟩
    · rename_i hclose
      match hrec : lazyCap rest with
      | none => rw [hrec] at h; simp at h
      | some cap' =>
        rw [hrec] at h
        simp only [Option.map_some'] at h
        obtain ⟨hne, tail, htail, hcl⟩ := ih hrec
        obtain rfl : c :: cap' = cap := by injection h
        exact ⟨by simp, tail, by simp [htail], hcl⟩

theorem lazyCap_isSome {cap tail : List Char} (hcap : cap ≠ [])
    (hcl : closesAt tail = true) : (lazyCap (cap ++ tail)).isSome := by
  induction cap with
  | nil => exact absurd rfl hcap
  | cons c cap ih =>
    cases cap with
    | nil => simp [lazyCap, hcl]
    | cons c' cap' =>
      rw [show (c :: c' :: cap') ++ tail = c :: ((c' :: cap') ++ tail) from rfl,
        show lazyCap (c :: ((c' :: cap') ++ tail)) =
          if closesAt ((c' :: cap') ++ tail) then some [c]
          else (lazyCap ((c' :: cap') ++ tail)).map (c :: ·) from rfl]
      split
      · simp
      · simpa using ih (by simp)

theorem tryK_isSome_iff {cs : List Char} {k : Nat} :
    (tryK cs k).isSome ↔ ∃ j, 1 ≤ j ∧ j ≤ k ∧ (lazyCap (cs.drop j)).isSome := by
  induction k with
  | zero =>
    constructor
    · intro h; simp [tryK] at h
    · rintro ⟨j, h1, h2, _⟩; omega
  | succ k ih =>
    constructor
    · intro h
      match h1 : lazyCap (cs.drop (k + 1)) with
      | some cap => exact ⟨k + 1, by omega, le_refl _, by simp [h1]⟩
      | none =>
        have h2 : (tryK cs k).isSome := by
          simp only [tryK, h1, Option.none_orElse] at h
          exact h
        obtain ⟨j, hj1, hj2, hj3⟩ := ih.mp h2
        exact ⟨j, hj1, by omega, hj3⟩
    · rintro ⟨j, h1, h2, h3⟩
      simp only [tryK]
      rcases Nat.lt_or_ge j (k + 1) with h | h
      · have hk := ih.mpr ⟨j, h1, by omega, h3⟩
        cases hX : lazyCap (cs.drop (k + 1)) <;> simp [hX, hk]
      · have hj : j = k + 1 := by omega
        rw [hj] at h3
        cases hX : lazyCap (cs.drop (k + 1)) with
        | none => rw [hX] at h3; simp at h3
        | some cap => simp [hX]

/-- A whitespace run at the start of `z` is no longer than the maximal one. -/
theorem ws_run_le_takeWhile {b z : List Char} (hb : WsRun b) (hpre : b <+: z) :
    b.length ≤ (z.takeWhile wsRE).length := by
  induction b generalizing z with
  | nil => simp
  | cons x b ih =>
    obtain ⟨t, ht⟩ := hpre
    have hx : wsRE x := hb x (by simp)
    rw [← ht]
    simp only [List.cons_append, List.takeWhile_cons, hx, if_pos, List.length_cons]
    have := ih (fun c hc => hb c (List.mem_cons_of_mem _ hc)) ⟨t, rfl⟩
    omega

theorem take_of_takeWhile {p : Char → Bool} {cs : List Char} {j : Nat}
    (hj : j ≤ (cs.takeWhile p).length) : ∀ c ∈ cs.take j, p c := by
  intro c hc
  have h1 : cs.take j = (cs.takeWhile p).take j := by
    conv_lhs => rw [← List.takeWhile_append_dropWhile (p := p) (l := cs)]
    rw [List.take_append_of_le_length hj]
  rw [h1] at hc
  exact List.mem_takeWhile_imp (List.mem_of_mem_take hc)

theorem markerCapAt_isSome_iff {kw : List Char} (hkw : kw ≠ [])
    (hkwh : wsRE kw.headI = false) (reqWs : Bool) (cs : List Char) :
    (markerCapAt kw reqWs cs).isSome ↔ CapShape kw reqWs cs := by
  constructor
  · intro h
    unfold markerCapAt at h
    match h1 : chopLit litOpen cs with
    | none => rw [h1] at h; simp at h
    | some r1 =>
      rw [h1] at h
      simp only [Option.some_bind] at h
      match h2 : chopLit kw (r1.dropWhile wsRE) with
      | none => rw [h2] at h; simp at h
      | some r2 =>
        rw [h2] at h
        simp only [Option.some_bind] at h
        have hcs : cs = litOpen ++ r1 := chopLit_eq_some.mp h1
        have hr1 : r1.dropWhile wsRE = kw ++ r2 := chopLit_eq_some.mp h2
        set a := r1.takeWhile wsRE with ha
        have hsplit : r1 = a ++ (kw ++ r2) := by
          rw [ha, ← hr1, List.takeWhile_append_dropWhile]
        have hwa : WsRun a := fun c hc => List.mem_takeWhile_imp hc
        cases reqWs with
        | true =>
          simp only [if_pos] at h
          obtain ⟨j, hj1, hj2, hj3⟩ := tryK_isSome_iff.mp h
          obtain ⟨cap, hcap⟩ := Option.isSome_iff_exists.mp hj3
          obtain ⟨hcne, tail, htail, hcl⟩ := lazyCap_eq_some hcap
          obtain ⟨d, rest, htl, hd⟩ := closesAt_iff.mp hcl
          have hr2 : r2 = r2.take j ++ (cap ++ (d ++ (litClose ++ rest))) := by
            rw [htl] at htail
            conv_lhs => rw [← List.take_append_drop j r2, htail]
            simp [List.append_assoc]
          refine ⟨a, r2.take j, cap, d, rest, ?_, hwa,
            take_of_takeWhile hj2, fun _ => ?_, by simp, hcne, hd⟩
          · rw [hcs, hsplit]
            conv_lhs => rw [hr2]
            simp [List.append_assoc]
          · intro hnil
            have hlen : (r2.take j).length = 0 := by rw [hnil]; rfl
            rw [List.length_take] at hlen
            have hle := List.IsPrefix.length_le (List.takeWhile_prefix (p := wsRE) (l := r2))
            omega
        | false =>
          simp only [Bool.false_eq_true, if_false] at h
          obtain ⟨cap, hcap⟩ := Option.isSome_iff_exists.mp h
          obtain ⟨hcne, tail, htail, hcl⟩ := lazyCap_eq_some hcap
          obtain ⟨d, rest, htl, hd⟩ := closesAt_iff.mp hcl
          refine ⟨a, [], cap, d, rest, ?_, hwa,
            by intro c hc; simp at hc, by simp, fun _ => rfl, hcne, hd⟩
          rw [hcs, hsplit, htail, htl]
          simp [List.append_assoc]
  · rintro ⟨a, b, cap, d, rest, hcs, ha, hb, hbt, hbf, hcne, hd⟩
    unfold markerCapAt
    have h1 : chopLit litOpen cs = some (a ++ kw ++ b ++ cap ++ d ++ litClose ++ rest) := by
      rw [chopLit_eq_some, hcs]
      simp [List.append_assoc]
    rw [h1]
    simp only [Option.some_bind]
    match hkwc : kw, hkw, hkwh with
    | k₀ :: kw', _, hkwh =>
      have hk0 : wsRE k₀ = false := by simpa using hkwh
      have h2 : (a ++ (k₀ :: kw') ++ b ++ cap ++ d ++ litClose ++ rest).dropWhile wsRE
          = (k₀ :: kw') ++ (b ++ cap ++ d ++ litClose ++ rest) := by
        rw [show a ++ (k₀ :: kw') ++ b ++ cap ++ d ++ litClose ++ rest
            = a ++ (k₀ :: (kw' ++ (b ++ cap ++ d ++ litClose ++ rest))) by
              simp [List.append_assoc]]
        rw [dropWhile_ws_append ha hk0]
        simp [List.append_assoc]
      rw [h2]
      have h3 : chopLit (k₀ :: kw') ((k₀ :: kw') ++ (b ++ cap ++ d ++ litClose ++ rest))
          = some (b ++ cap ++ d ++ litClose ++ rest) := chopLit_eq_some.mpr rfl
      rw [h3]
      simp only [Option.some_bind]
      have hcl : closesAt (d ++ litClose ++ rest) = true :=
        closesAt_iff.mpr ⟨d, rest, rfl, hd⟩
      cases reqWs with
      | true =>
        simp only [if_pos]
        rw [tryK_isSome_iff]
        refine ⟨b.length, ?_,
          ws_run_le_takeWhile hb ⟨cap ++ d ++ litClose ++ rest,
            by simp [List.append_assoc]⟩, ?_⟩
        · have : b ≠ [] := hbt rfl
          cases b with
          | nil => exact absurd rfl this
          | cons x xs => simp
        · rw [show b ++ cap ++ d ++ litClose ++ rest
              = b ++ (cap ++ (d ++ litClose ++ rest)) by simp [List.append_assoc]]
          rw [List.drop_left]
          exact lazyCap_isSome hcne hcl
      | false =>
        simp only [Bool.false_eq_true, if_false]
        have hbnil : b = [] := hbf rfl
        subst hbnil
        rw [show [] ++ cap ++ d ++ litClose ++ rest
            = cap ++ (d ++ litClose ++ rest) by simp [List.append_assoc]]
        exact lazyCap_isSome hcne hcl

theorem bareAt_iff {kw : List Char} (hkw : kw ≠ [])
    (hkwh : wsRE kw.headI = false) (cs : List Char) :
    bareAt kw cs = true ↔ BareShape kw cs := by
  constructor
  · intro h
    unfold bareAt at h
    match h1 : chopLit litOpen cs with
    | none => rw [h1] at h; simp at h
    | some r1 =>
      rw [h1] at h
      simp only [Option.some_bind] at h
      match h2 : chopLit kw (r1.dropWhile wsRE) with
      | none => rw [h2] at h; simp at h
      | some r2 =>
        rw [h2] at h
        simp only [Option.elim_some] at h
        obtain ⟨rest, hrest⟩ := List.isPrefixOf_iff_prefix.mp h
        have hcs : cs = litOpen ++ r1 := chopLit_eq_some.mp h1
        have hr1 : r1.dropWhile wsRE = kw ++ r2 := chopLit_eq_some.mp h2
        refine ⟨r1.takeWhile wsRE, r2.takeWhile wsRE, rest, ?_,
          fun c hc => List.mem_takeWhile_imp hc,
          fun c hc => List.mem_takeWhile_imp hc⟩
        rw [hcs]
        conv_lhs => rw [← List.takeWhile_append_dropWhile (p := wsRE) (l := r1), hr1]
        conv_lhs => rw [← List.takeWhile_append_dropWhile (p := wsRE) (l := r2), ← hrest]
        simp [List.append_assoc]
  · rintro ⟨a, d, rest, hcs, ha, hd⟩
    unfold bareAt
    have h1 : chopLit litOpen cs = some (a ++ kw ++ d ++ litClose ++ rest) := by
      rw [chopLit_eq_some, hcs]
      simp [List.append_assoc]
    rw [h1]
    simp only [Option.some_bind]
    match hkwc : kw, hkw, hkwh with
    | k₀ :: kw', _, hkwh =>
      have hk0 : wsRE k₀ = false := by simpa using hkwh
      have h2 : (a ++ (k₀ :: kw') ++ d ++ litClose ++ rest).dropWhile wsRE
          = (k₀ :: kw') ++ (d ++ litClose ++ rest) := by
        rw [show a ++ (k₀ :: kw') ++ d ++ litClose ++ rest
            = a ++ (k₀ :: (kw' ++ (d ++ litClose ++ rest))) by simp [List.append_assoc]]
        rw [dropWhile_ws_append ha hk0]
        simp [List.append_assoc]
      rw [h2, chopLit_eq_some.mpr rfl]
      simp only [Option.elim_some]
      rw [List.append_assoc,
        show litClose ++ rest = '-' :: ("->".data ++ rest) from rfl,
        dropWhile_ws_append hd (by decide)]
      exact List.isPrefixOf_iff_prefix.mpr ⟨rest, by simp [litClose]⟩

theorem CapShape_not_nil {kw : List Char} {reqWs : Bool} :
    ¬ CapShape kw reqWs [] := by
  rintro ⟨a, b, cap, d, rest, h, -⟩
  have hlit : litOpen ≠ [] := by decide
  rcases List.append_eq_nil.mp h.symm with ⟨h', -⟩
  rcases List.append_eq_nil.mp h' with ⟨h', -⟩
  rcases List.append_eq_nil.mp h' with ⟨h', -⟩
  rcases List.append_eq_nil.mp h' with ⟨h', -⟩
  rcases List.append_eq_nil.mp h' with ⟨h', -⟩
  rcases List.append_eq_nil.mp h' with ⟨h', -⟩
  rcases List.append_eq_nil.mp h' with ⟨h', -⟩
  exact hlit h'

theorem BareShape_not_nil {kw : List Char} : ¬ BareShape kw [] := by
  rintro ⟨a, d, rest, h, -⟩
  have hlit : litOpen ≠ [] := by decide
  rcases List.append_eq_nil.mp h.symm with ⟨h', -⟩
  rcases List.append_eq_nil.mp h' with ⟨h', -⟩
  rcases List.append_eq_nil.mp h' with ⟨h', -⟩
  rcases List.append_eq_nil.mp h' with ⟨h', -⟩
  rcases List.append_eq_nil.mp h' with ⟨h', -⟩
  exact hlit h'

theorem searchCap_isSome_iff {kw : List Char} (hkw : kw ≠ [])
    (hkwh : wsRE kw.headI = false) (reqWs : Bool) (l : List Char) :
    (searchCap kw reqWs l).isSome ↔ ∃ u v, l = u ++ v ∧ CapShape kw reqWs v := by
  induction l with
  | nil =>
    constructor
    · intro h; simp [searchCap] at h
    · rintro ⟨u, v, huv, hshape⟩
      obtain ⟨rfl, rfl⟩ := List.append_eq_nil.mp huv.symm
      exact absurd hshape CapShape_not_nil
  | cons c rest ih =>
    constructor
    · intro h
      match h1 : markerCapAt kw reqWs (c :: rest) with
      | some cap =>
        exact ⟨[], c :: rest, rfl,
          (markerCapAt_isSome_iff hkw hkwh reqWs (c :: rest)).mp (by simp [h1])⟩
      | none =>
        have h2 : (searchCap kw reqWs rest).isSome := by
          simp only [searchCap, h1, Option.none_orElse] at h
          exact h
        obtain ⟨u, v, huv, hshape⟩ := ih.mp h2
        exact ⟨c :: u, v, by simp [huv], hshape⟩
    · rintro ⟨u, v, huv, hshape⟩
      simp only [searchCap]
      cases u with
      | nil =>
        simp only [List.nil_append] at huv
        have hmc := (markerCapAt_isSome_iff hkw hkwh reqWs (c :: rest)).mpr
          (by rw [← huv] at hshape; exact hshape)
        match hX : markerCapAt kw reqWs (c :: rest) with
        | some cap => simp
        | none => rw [hX] at hmc; simp at hmc
      | cons c' u' =>
        obtain ⟨rfl, huv'⟩ : c = c' ∧ rest = u' ++ v := by
          have := huv
          simp only [List.cons_append] at this
          exact ⟨by injection this, by injection this⟩
        have h2 := ih.mpr ⟨u', v, huv', hshape⟩
        cases hX : markerCapAt kw reqWs (c :: rest) <;> simp [hX, h2]

theorem searchBare_iff {kw : List Char} (hkw : kw ≠ [])
    (hkwh : wsRE kw.headI = false) (l : List Char) :
    searchBare kw l = true ↔ ∃ u v, l = u ++ v ∧ BareShape kw v := by
  induction l with
  | nil =>
    constructor
    · intro h; simp [searchBare] at h
    · rintro ⟨u, v, huv, hshape⟩
      obtain ⟨rfl, rfl⟩ := List.append_eq_nil.mp huv.symm
      exact absurd hshape BareShape_not_nil
  | cons c rest ih =>
    simp only [searchBare, Bool.or_eq_true, ih]
    constructor
    · rintro (h | ⟨u, v, huv, hshape⟩)
      · exact ⟨[], c :: rest, rfl, (bareAt_iff hkw hkwh _).mp h⟩
      · exact ⟨c :: u, v, by simp [huv], hshape⟩
    · rintro ⟨u, v, huv, hshape⟩
      cases u with
      | nil =>
        simp only [List.nil_append] at huv
        subst huv
        exact Or.inl ((bareAt_iff hkw hkwh _).mpr hshape)
      | cons c' u' =>
        obtain ⟨rfl, huv'⟩ : c = c' ∧ rest = u' ++ v := by
          have := huv
          simp only [List.cons_append] at this
          exact ⟨by injection this, by injection this⟩
        exact Or.inr ⟨u', v, huv', hshape⟩

theorem CapShape_append {kw : List Char} {reqWs : Bool} {v : List Char}
    (h : CapShape kw reqWs v) (z : List Char) : CapShape kw reqWs (v ++ z) := by
  obtain ⟨a, b, cap, d, rest, hv, ha, hb, hbt, hbf, hcne, hd⟩ := h
  exact ⟨a, b, cap, d, rest ++ z, by rw [hv]; simp [List.append_assoc],
    ha, hb, hbt, hbf, hcne, hd⟩

theorem BareShape_append {kw : List Char} {v : List Char}
    (h : BareShape kw v) (z : List Char) : BareShape kw (v ++ z) := by
  obtain ⟨a, d, rest, hv, ha, hd⟩ := h
  exact ⟨a, d, rest ++ z, by rw [hv]; simp [List.append_assoc], ha, hd⟩

/-- If a superline matches nowhere, neither does any infix of it. -/
theorem searchCap_none_of_within {kw : List Char} (hkw : kw ≠ [])
    (hkwh : wsRE kw.headI = false) {reqWs : Bool} {l' l : List Char}
    (hinf : l' <:+: l) (h : searchCap kw reqWs l = none) :
    searchCap kw reqWs l' = none := by
  by_contra hne
  have h1 : (searchCap kw reqWs l').isSome := by
    cases hX : searchCap kw reqWs l' with
    | none => exact absurd hX hne
    | some cap => simp
  obtain ⟨u, v, huv, hshape⟩ := (searchCap_isSome_iff hkw hkwh _ _).mp h1
  obtain ⟨w, z, hwz⟩ := hinf
  have h2 : (searchCap kw reqWs l).isSome :=
    (searchCap_isSome_iff hkw hkwh _ _).mpr
      ⟨w ++ u, v ++ z, by rw [← hwz, huv]; simp [List.append_assoc],
        CapShape_append hshape z⟩
  rw [h] at h2
  simp at h2

theorem searchBare_false_of_within {kw : List Char} (hkw : kw ≠ [])
    (hkwh : wsRE kw.headI = false) {l' l : List Char}
    (hinf : l' <:+: l) (h : searchBare kw l = false) :
    searchBare kw l' = false := by
  by_contra hne
  have h1 : searchBare kw l' = true := by
    cases hX : searchBare kw l' with
    | false => exact absurd hX hne
    | true => rfl
  obtain ⟨u, v, huv, hshape⟩ := (searchBare_iff hkw hkwh _).mp h1
  obtain ⟨w, z, hwz⟩ := hinf
  have h2 : searchBare kw l = true :=
    (searchBare_iff hkw hkwh _).mpr
      ⟨w ++ u, v ++ z, by rw [← hwz, huv]; simp [List.append_assoc],
        BareShape_append hshape z⟩
  rw [h] at h2
  simp at h2

theorem optimizeStartCapture_none_of_within {l' l : List Char}
    (hinf : l' <:+: l) (h : optimizeStartCapture l = none) :
    optimizeStartCapture l' = none :=
  searchCap_none_of_within (by decide) (by decide) hinf h

theorem optimizeEndMatch_false_of_within {l' l : List Char}
    (hinf : l' <:+: l) (h : optimizeEndMatch l = false) :
    optimizeEndMatch l' = false :=
  searchBare_false_of_within (by decide) (by decide) hinf h

/-! ### Structural lemmas about the scan -/
theorem runScan_append (fp : List Char) (xs ys : List (List Char)) (n : Nat)
    (p : Option PendingTarget) (acc : List OptimizationTarget) :
    runScan fp (xs ++ ys) n p acc =
      match runScan fp xs n p acc with
      | .error e => .error e
      | .ok (n', p', acc') => runScan fp ys n' p' acc' := by
  induction xs generalizing n p acc with
  | nil => simp [runScan]
  | cons raw rest ih =>
    simp only [List.cons_append, runScan]
    cases h : scanStep fp n p acc raw with
    | error e => rfl
    | ok s => exact ih ..

/-- A successful step extends the accumulator by zero or one target. -/
theorem scanStep_acc {fp : List Char} {n : Nat} {p p' : Option PendingTarget}
    {acc acc' : List OptimizationTarget} {raw : List Char}
    (h : scanStep fp n p acc raw = .ok (p', acc')) :
    acc' = acc ∨ ∃ pt, p = some pt ∧ p' = none ∧
      acc' = acc ++ [mkTarget fp pt n] := by
  unfold scanStep at h
  cases hs : optimizeStartCapture (stripCR raw) with
  | some attrs =>
    simp only [hs] at h
    cases p with
    | some _ => simp at h
    | none =>
      cases hp : parseOptimizeAttrs attrs with
      | none => simp [hp] at h
      | some tm =>
        cases tm with
        | mk tg ms =>
          simp [hp] at h
          exact Or.inl h.2.symm
  | none =>
    simp only [hs] at h
    by_cases he : optimizeEndMatch (stripCR raw) = true
    · rw [if_pos he] at h
      cases p with
      | none => simp at h
      | some pt =>
        simp at h
        exact Or.inr ⟨pt, rfl, h.1.symm, h.2.symm⟩
    · rw [if_neg he] at h
      cases p with
      | some pt => simp at h; exact Or.inl h.2.symm
      | none => simp at h; exact Or.inl h.2.symm

/-- The accumulator only grows. -/
theorem runScan_acc_grows {fp : List Char} {lines : List (List Char)}
    {n n' : Nat} {p p' : Option PendingTarget}
    {acc acc' : List OptimizationTarget}
    (h : runScan fp lines n p acc = .ok (n', p', acc')) :
    ∃ ds, acc' = acc ++ ds := by
  induction lines generalizing n p acc with
  | nil =>
    simp only [runScan] at h
    obtain ⟨-, -, rfl⟩ : n = n' ∧ p = p' ∧ acc = acc' := by
      injection h with h
      exact ⟨congrArg Prod.fst h, congrArg (fun x => x.2.1) h,
        congrArg (fun x => x.2.2) h⟩
    exact ⟨[], by simp⟩
  | cons raw rest ih =>
    simp only [runScan] at h
    cases hstep : scanStep fp n p acc raw with
    | error e => rw [hstep] at h; simp at h
    | ok s =>
      rw [hstep] at h
      obtain ⟨p₁, acc₁⟩ := s
      obtain ⟨ds, hds⟩ := ih h
      rcases scanStep_acc hstep with h1 | ⟨pt, -, -, h1⟩
      · exact ⟨ds, by rw [hds, h1]⟩
      · exact ⟨mkTarget fp pt n :: ds, by rw [hds, h1]; simp⟩

/-- The final line counter. -/
theorem runScan_final_count {fp : List Char} {lines : List (List Char)}
    {n n' : Nat} {p p' : Option PendingTarget}
    {acc acc' : List OptimizationTarget}
    (h : runScan fp lines n p acc = .ok (n', p', acc')) :
    n' = n + lines.length := by
  induction lines generalizing n p acc with
  | nil =>
    simp only [runScan] at h
    have : n = n' := by injection h with h; exact congrArg Prod.fst h
    simp [← this]
  | cons raw rest ih =>
    simp only [runScan] at h
    cases hstep : scanStep fp n p acc raw with
    | error e => rw [hstep] at h; simp at h
    | ok s =>
      rw [hstep] at h
      obtain ⟨p₁, acc₁⟩ := s
      have := ih h
      simp [this]
      omega

/-- Scanning a run of non-marker lines with no open region is a no-op. -/
theorem runScan_nonmarkers {fp : List Char} {A : List (List Char)}
    (hA : ∀ l ∈ A, NonMarker l) (n : Nat) (acc : List OptimizationTarget) :
    runScan fp A n none acc = .ok (n + A.length, none, acc) := by
  induction A generalizing n with
  | nil => simp [runScan]
  | cons raw rest ih =>
    obtain ⟨h1, h2⟩ := hA raw (by simp)
    have hstep : scanStep fp n none acc raw = .ok (none, acc) := by
      unfold scanStep
      simp [h1, h2]
    have hrec := ih (fun l hl => hA l (List.mem_cons_of_mem _ hl)) (n + 1)
    have harith : n + 1 + rest.length = n + (raw :: rest).length := by
      simp
      omega
    simp only [runScan, hstep]
    rw [hrec, harith]

/-- Scanning a run of non-marker lines inside an open region accumulates
their (CR-stripped) text into the builder. -/
theorem runScan_body {fp : List Char} {B : List (List Char)}
    (hB : ∀ l ∈ B, NonMarker l) (n : Nat) (pt : PendingTarget)
    (acc : List OptimizationTarget) :
    runScan fp B n (some pt) acc =
      .ok (n + B.length,
        some { pt with
          content := B.foldl (fun a raw => builderPush a (stripCR raw)) pt.content },
        acc) := by
  induction B generalizing n pt with
  | nil => simp [runScan]
  | cons raw rest ih =>
    obtain ⟨h1, h2⟩ := hB raw (by simp)
    have hstep : scanStep fp n (some pt) acc raw =
        .ok (some { pt with content := builderPush pt.content (stripCR raw) }, acc) := by
      unfold scanStep
      simp [h1, h2]
    have hrec := ih (fun l hl => hB l (List.mem_cons_of_mem _ hl)) (n + 1)
      { pt with content := builderPush pt.content (stripCR raw) }
    have harith : n + 1 + rest.length = n + (raw :: rest).length := by
      simp
      omega
    simp only [runScan, hstep]
    rw [hrec, harith]
    simp [List.foldl_cons]

/-- Full case analysis of a successful scan step. -/
theorem scanStep_cases {fp : List Char} {n : Nat} {p p' : Option PendingTarget}
    {acc acc' : List OptimizationTarget} {raw : List Char}
    (h : scanStep fp n p acc raw = .ok (p', acc')) :
    (∃ attrs tg ms, optimizeStartCapture (stripCR raw) = some attrs ∧
      parseOptimizeAttrs attrs = some (tg, ms) ∧ p = none ∧
      p' = some ⟨tg, ms, n, []⟩ ∧ acc' = acc) ∨
    (∃ pt, optimizeStartCapture (stripCR raw) = none ∧
      optimizeEndMatch (stripCR raw) = true ∧ p = some pt ∧ p' = none ∧
      acc' = acc ++ [mkTarget fp pt n]) ∨
    (NonMarker raw ∧ acc' = acc ∧
      ((∃ pt, p = some pt ∧
        p' = some { pt with content := builderPush pt.content (stripCR raw) }) ∨
      (p = none ∧ p' = none))) := by
  unfold scanStep at h
  cases hs : optimizeStartCapture (stripCR raw) with
  | some attrs =>
    simp only [hs] at h
    cases p with
    | some _ => simp at h
    | none =>
      cases hp : parseOptimizeAttrs attrs with
      | none => simp [hp] at h
      | some tm =>
        cases tm with
        | mk tg ms =>
          simp [hp] at h
          exact Or.inl ⟨attrs, tg, ms, rfl, hp, rfl, h.1.symm, h.2.symm⟩
  | none =>
    simp only [hs] at h
    by_cases he : optimizeEndMatch (stripCR raw) = true
    · rw [if_pos he] at h
      cases p with
      | none => simp at h
      | some pt =>
        simp at h
        exact Or.inr (Or.inl ⟨pt, rfl, he, rfl, h.1.symm, h.2.symm⟩)
    · rw [if_neg he] at h
      have hnm : NonMarker raw := ⟨hs, by simpa using he⟩
      cases p with
      | some pt =>
        simp at h
        exact Or.inr (Or.inr ⟨hnm, h.2.symm, Or.inl ⟨pt, rfl, h.1.symm⟩⟩)
      | none =>
        simp at h
        exact Or.inr (Or.inr ⟨hnm, h.2.symm, Or.inr ⟨rfl, h.1.symm⟩⟩)

/-- Success of the scan, the number of lines consumed, and the shape of the
final pending state do not depend on the line counter, the accumulator, or
the contents of an open pending region — only on its presence. -/
theorem runScan_shape_transfer {fp : List Char} {C : List (List Char)}
    {m n₁ : Nat} {p q : Option PendingTarget} {a b : List OptimizationTarget}
    (h : runScan fp C m p a = .ok (n₁, q, b)) :
    ∀ (m' : Nat) (p' : Option PendingTarget) (a' : List OptimizationTarget),
      p'.isSome = p.isSome →
      ∃ q' b', runScan fp C m' p' a' = .ok (m' + C.length, q', b') ∧
        q'.isSome = q.isSome := by
  induction C generalizing m p a with
  | nil =>
    intro m' p' a' hps
    simp only [runScan] at h
    obtain ⟨-, h2, -⟩ : m = n₁ ∧ p = q ∧ a = b := by
      injection h with h
      exact ⟨congrArg Prod.fst h, congrArg (fun x => x.2.1) h,
        congrArg (fun x => x.2.2) h⟩
    exact ⟨p', a', by simp [runScan], by rw [hps, h2]⟩
  | cons raw rest ih =>
    intro m' p' a' hps
    simp only [runScan] at h
    cases hstep : scanStep fp m p a raw with
    | error e => rw [hstep] at h; simp at h
    | ok s =>
      rw [hstep] at h
      obtain ⟨p₁, acc₁⟩ := s
      have harith : ∀ k : Nat, m' + 1 + k = m' + (k + 1) := fun k => by omega
      rcases scanStep_cases hstep with
        ⟨attrs, tg, ms, hs, hpa, hpn, hp1, hacc1⟩ |
        ⟨pt, hs, he, hpn, hp1, hacc1⟩ | ⟨⟨hs, he⟩, hacc1, hrest⟩
      · -- start marker: pending is none in both runs
        have hp'n : p' = none := by
          cases p' with
          | none => rfl
          | some _ => rw [hpn] at hps; simp at hps
        have hstep' : scanStep fp m' p' a' raw = .ok (some ⟨tg, ms, m', []⟩, a') := by
          unfold scanStep
          rw [hp'n]
          simp [hs, hpa]
        obtain ⟨q', b', hrun, hq⟩ := ih h (m' + 1) (some ⟨tg, ms, m', []⟩) a'
          (by simp [hp1])
        refine ⟨q', b', ?_, hq⟩
        simp only [runScan, hstep']
        rw [hrun, harith rest.length]
        rfl
      · -- end marker: pending is some in both runs
        obtain ⟨pt', hp't⟩ : ∃ pt', p' = some pt' := by
          cases p' with
          | none => rw [hpn] at hps; simp at hps
          | some pt' => exact ⟨pt', rfl⟩
        have hstep' : scanStep fp m' p' a' raw =
            .ok (none, a' ++ [mkTarget fp pt' m']) := by
          unfold scanStep
          rw [hp't]
          simp [hs, he]
        obtain ⟨q', b', hrun, hq⟩ := ih h (m' + 1) none (a' ++ [mkTarget fp pt' m'])
          (by simp [hp1])
        refine ⟨q', b', ?_, hq⟩
        simp only [runScan, hstep']
        rw [hrun, harith rest.length]
        rfl
      · -- non-marker line
        cases hp' : p' with
        | some pt' =>
          have hp1s : p₁.isSome = true := by
            rcases hrest with ⟨pt₂, hpt₂, hp₁⟩ | ⟨hpt₂, -⟩
            · rw [hp₁]; rfl
            · rw [hpt₂, hp'] at hps; simp at hps
          have hstep' : scanStep fp m' (some pt') a' raw =
              .ok (some { pt' with content := builderPush pt'.content (stripCR raw) },
                a') := by
            unfold scanStep
            simp [hs, he]
          obtain ⟨q', b', hrun, hq⟩ := ih h (m' + 1)
            (some { pt' with content := builderPush pt'.content (stripCR raw) }) a'
            (by simp [hp1s])
          refine ⟨q', b', ?_, hq⟩
          simp only [runScan, hstep']
          rw [hrun, harith rest.length]
          rfl
        | none =>
          have hp1n : p₁ = none := by
            rcases hrest with ⟨pt₂, hpt₂, hp₁⟩ | ⟨-, hp₁⟩
            · rw [hpt₂, hp'] at hps
              simp at hps
            · exact hp₁
          have hstep' : scanStep fp m' none a' raw = .ok (none, a') := by
            unfold scanStep
            simp [hs, he]
          obtain ⟨q', b', hrun, hq⟩ := ih h (m' + 1) none a'
            (by simp [hp1n])
          refine ⟨q', b', ?_, hq⟩
          simp only [runScan, hstep']
          rw [hrun, harith rest.length]
          rfl

theorem runScan_inv {fp : List Char} {lines : List (List Char)}
    {n n' : Nat} {p p' : Option PendingTarget}
    {acc acc' : List OptimizationTarget}
    (h : runScan fp lines n p acc = .ok (n', p', acc'))
    (hn : 1 ≤ n) (hinv : ScanInv n p acc) : ScanInv n' p' acc' := by
  induction lines generalizing n p acc with
  | nil =>
    simp only [runScan] at h
    obtain ⟨h1, h2, h3⟩ : n = n' ∧ p = p' ∧ acc = acc' := by
      injection h with h
      exact ⟨congrArg Prod.fst h, congrArg (fun x => x.2.1) h,
        congrArg (fun x => x.2.2) h⟩
    rw [← h1, ← h2, ← h3]
    exact hinv
  | cons raw rest ih =>
    simp only [runScan] at h
    cases hstep : scanStep fp n p acc raw with
    | error e => rw [hstep] at h; simp at h
    | ok s =>
      rw [hstep] at h
      obtain ⟨p₁, acc₁⟩ := s
      obtain ⟨hacc, hpend, hpair⟩ := hinv
      refine ih h (by omega) ?_
      rcases scanStep_cases hstep with
        ⟨attrs, tg, ms, hs, hpa, hpn, hp1, hacc1⟩ |
        ⟨pt, hs, he, hpn, hp1, hacc1⟩ | ⟨hnm, hacc1, hrest⟩
      · subst hacc1
        subst hp1
        refine ⟨fun t ht => ?_, fun pt hpt => ?_, hpair⟩
        · obtain ⟨u1, u2, u3⟩ := hacc t ht
          exact ⟨u1, u2, by omega⟩
        · obtain rfl : pt = ⟨tg, ms, n, []⟩ := by injection hpt with hpt; exact hpt.symm
          exact ⟨show 1 ≤ n by omega, show n < n + 1 by omega,
            fun t ht => show t.endLine < n from (hacc t ht).2.2⟩
      · subst hacc1
        subst hp1
        have hptinv := hpend pt hpn
        constructor
        · intro t ht
          rcases List.mem_append.mp ht with ht | ht
          · obtain ⟨u1, u2, u3⟩ := hacc t ht
            exact ⟨u1, u2, by omega⟩
          · obtain rfl : t = mkTarget fp pt n := by simpa using ht
            exact ⟨hptinv.1, hptinv.2.1, show n < n + 1 by omega⟩
        constructor
        · intro pt' hpt'
          simp at hpt'
        · rw [List.pairwise_append]
          refine ⟨hpair, by simp, fun a ha b hb => ?_⟩
          obtain rfl : b = mkTarget fp pt n := by simpa using hb
          exact hptinv.2.2 a ha
      · subst hacc1
        rcases hrest with ⟨pt, hpn, hp1⟩ | ⟨hpn, hp1⟩
        · subst hp1
          refine ⟨fun t ht => ?_, fun pt' hpt' => ?_, hpair⟩
          · obtain ⟨u1, u2, u3⟩ := hacc t ht
            exact ⟨u1, u2, by omega⟩
          · obtain rfl : pt' = { pt with content := builderPush pt.content (stripCR raw) } := by
              injection hpt' with hpt'
              exact hpt'.symm
            have := hpend pt hpn
            exact ⟨this.1, show pt.startLine < n + 1 by have := this.2.1; omega,
              fun t ht => this.2.2 t ht⟩
        · subst hp1
          refine ⟨fun t ht => ?_, fun pt' hpt' => ?_, hpair⟩
          · obtain ⟨u1, u2, u3⟩ := hacc t ht
            exact ⟨u1, u2, by omega⟩
          · simp at hpt'

/-- `FindTargets` returns well-formed targets in document order. -/
theorem findTargets_inv {fp doc : List Char} {ts : List OptimizationTarget}
    (h : findTargets fp doc = .ok ts) :
    (∀ t ∈ ts, 1 ≤ t.startLine ∧ t.startLine < t.endLine ∧
      t.endLine ≤ (scanLines doc).length) ∧
    List.Pairwise (fun a b => a.endLine < b.startLine) ts := by
  unfold findTargets at h
  cases hrun : runScan fp (scanLines doc) 1 none [] with
  | error e => rw [hrun] at h; simp at h
  | ok s =>
    rw [hrun] at h
    obtain ⟨nf, pf, accf⟩ := s
    cases pf with
    | some pt => simp at h
    | none =>
      obtain rfl : accf = ts := by simpa using h
      have hinv := runScan_inv hrun (by omega)
        ⟨by simp, by simp, List.Pairwise.nil⟩
      have hcount := runScan_final_count hrun
      exact ⟨fun t ht => ⟨(hinv.1 t ht).1, (hinv.1 t ht).2.1, by
        have := (hinv.1 t ht).2.2
        omega⟩, hinv.2.2⟩

/-- If the scan starting inside an open region eventually emits a target,
the first one emitted closes that region. -/
theorem runScan_open_first {fp : List Char} {lines : List (List Char)}
    {n n' : Nat} {pt : PendingTarget} {p' : Option PendingTarget}
    {acc₀ : List OptimizationTarget} {t : OptimizationTarget}
    {ts₂ : List OptimizationTarget}
    (h : runScan fp lines n (some pt) acc₀ = .ok (n', p', acc₀ ++ t :: ts₂)) :
    ∃ B el C, lines = B ++ el :: C ∧ (∀ l ∈ B, NonMarker l) ∧
      optimizeStartCapture (stripCR el) = none ∧
      optimizeEndMatch (stripCR el) = true ∧
      t = mkTarget fp { pt with content := bodyFold pt.content B } (n + B.length) ∧
      runScan fp C (n + B.length + 1) none (acc₀ ++ [t])
        = .ok (n', p', acc₀ ++ t :: ts₂) := by
  induction lines generalizing n pt with
  | nil =>
    simp only [runScan] at h
    have hacc : acc₀ = acc₀ ++ t :: ts₂ := by
      injection h with h
      exact congrArg (fun x => x.2.2) h
    have hlen := congrArg List.length hacc
    simp at hlen
  | cons raw rest ih =>
    simp only [runScan] at h
    cases hstep : scanStep fp n (some pt) acc₀ raw with
    | error e => rw [hstep] at h; simp at h
    | ok s =>
      rw [hstep] at h
      obtain ⟨p₁, acc₁⟩ := s
      rcases scanStep_cases hstep with
        ⟨attrs, tg, ms, hs, hpa, hpn, hp1, hacc1⟩ |
        ⟨pt₂, hs, he, hpn, hp1, hacc1⟩ | ⟨hnm, hacc1, hrest⟩
      · exact absurd hpn (by simp)
      · have hpteq : pt = pt₂ := by injection hpn
        subst hpteq
        subst hp1
        subst hacc1
        obtain ⟨ds, hds⟩ := runScan_acc_grows h
        have hteq : mkTarget fp pt n = t := by
          rw [List.append_assoc] at hds
          have := List.append_cancel_left hds
          simp only [List.singleton_append] at this
          injection this with h1 h2
          exact h1.symm
        refine ⟨[], raw, rest, rfl, by simp, hs, he, ?_, ?_⟩
        · rw [← hteq]
          rfl
        · rw [← hteq] at h ⊢
          exact h
      · subst hacc1
        rcases hrest with ⟨pt₃, hpt₃, hp1⟩ | ⟨hpn', -⟩
        · have hpteq : pt = pt₃ := by injection hpt₃
          subst hpteq
          subst hp1
          obtain ⟨B', el, C, hlines, hB, hsel, heel, ht, hrun⟩ := ih h
          refine ⟨raw :: B', el, C, by rw [hlines]; simp, ?_, hsel, heel, ?_, ?_⟩
          · intro l hl
            rcases List.mem_cons.mp hl with h' | h'
            · rw [h']; exact hnm
            · exact hB l h'
          · rw [ht]
            have harith : n + 1 + B'.length = n + (raw :: B').length := by
              simp
              omega
            rw [harith]
            rfl
          · have harith : n + 1 + B'.length + 1 = n + (raw :: B').length + 1 := by
              simp
              omega
            rw [harith] at hrun
            exact hrun
        · exact absurd hpn' (by simp)

/-- If the scan starting with no open region emits a target, the lines up to
it decompose into non-markers, a start marker, a non-marker body, and an end
marker. -/
theorem runScan_none_first {fp : List Char} {lines : List (List Char)}
    {n n' : Nat} {p' : Option PendingTarget}
    {acc₀ : List OptimizationTarget} {t : OptimizationTarget}
    {ts₂ : List OptimizationTarget}
    (h : runScan fp lines n none acc₀ = .ok (n', p', acc₀ ++ t :: ts₂)) :
    ∃ A sl B el C attrs tg ms,
      lines = A ++ sl :: (B ++ el :: C) ∧ (∀ l ∈ A, NonMarker l) ∧
      optimizeStartCapture (stripCR sl) = some attrs ∧
      parseOptimizeAttrs attrs = some (tg, ms) ∧
      (∀ l ∈ B, NonMarker l) ∧
      optimizeStartCapture (stripCR el) = none ∧
      optimizeEndMatch (stripCR el) = true ∧
      t = mkTarget fp ⟨tg, ms, n + A.length, bodyFold [] B⟩
        (n + A.length + B.length + 1) ∧
      runScan fp C (n + A.length + B.length + 1 + 1) none (acc₀ ++ [t])
        = .ok (n', p', acc₀ ++ t :: ts₂) := by
  induction lines generalizing n acc₀ with
  | nil =>
    simp only [runScan] at h
    have hacc : acc₀ = acc₀ ++ t :: ts₂ := by
      injection h with h
      exact congrArg (fun x => x.2.2) h
    have hlen := congrArg List.length hacc
    simp at hlen
  | cons raw rest ih =>
    simp only [runScan] at h
    cases hstep : scanStep fp n none acc₀ raw with
    | error e => rw [hstep] at h; simp at h
    | ok s =>
      rw [hstep] at h
      obtain ⟨p₁, acc₁⟩ := s
      rcases scanStep_cases hstep with
        ⟨attrs, tg, ms, hs, hpa, hpn, hp1, hacc1⟩ |
        ⟨pt₂, hs, he, hpn, hp1, hacc1⟩ | ⟨hnm, hacc1, hrest⟩
      · subst hp1
        subst hacc1
        obtain ⟨B, el, C, hlines, hB, hsel, heel, ht, hrun⟩ := runScan_open_first h
        refine ⟨[], raw, B, el, C, attrs, tg, ms, by rw [hlines]; simp, by simp,
          hs, hpa, hB, hsel, heel, ?_, ?_⟩
        · rw [ht]
          have harith : n + 1 + B.length
              = n + ([] : List (List Char)).length + B.length + 1 := by
            simp
            omega
          rw [harith]
          rfl
        · have harith : n + 1 + B.length + 1
              = n + ([] : List (List Char)).length + B.length + 1 + 1 := by
            simp
            omega
          rw [harith] at hrun
          exact hrun
      · exact absurd hpn (by simp)
      · subst hacc1
        rcases hrest with ⟨pt₃, hpt₃, -⟩ | ⟨-, hp1⟩
        · exact absurd hpt₃ (by simp)
        · subst hp1
          obtain ⟨A', sl, B, el, C, attrs, tg, ms, hlines, hA, hsl, hpa, hB,
            hsel, heel, ht, hrun⟩ := ih h
          refine ⟨raw :: A', sl, B, el, C, attrs, tg, ms, by rw [hlines]; simp, ?_,
            hsl, hpa, hB, hsel, heel, ?_, ?_⟩
          · intro l hl
            rcases List.mem_cons.mp hl with h' | h'
            · rw [h']; exact hnm
            · exact hA l h'
          · rw [ht]
            have harith : n + 1 + A'.length = n + (raw :: A').length := by
              simp
              omega
            rw [harith]
          · have harith : n + 1 + A'.length + B.length + 1 + 1
                = n + (raw :: A').length + B.length + 1 + 1 := by
              simp
              omega
            rw [harith] at hrun
            exact hrun

/-- Running the scan across one complete region (non-marker prefix, start
marker, non-marker body, end marker) appends that region and continues. -/
theorem runScan_segment {fp : List Char} {A : List (List Char)} {sl : List Char}
    {B : List (List Char)} {el : List Char} (C : List (List Char))
    {attrs tg : List Char} {ms : Nat}
    (hA : ∀ l ∈ A, NonMarker l)
    (hsl : optimizeStartCapture (stripCR sl) = some attrs)
    (hpa : parseOptimizeAttrs attrs = some (tg, ms))
    (hB : ∀ l ∈ B, NonMarker l)
    (hsel : optimizeStartCapture (stripCR el) = none)
    (heel : optimizeEndMatch (stripCR el) = true)
    (n : Nat) (acc : List OptimizationTarget) :
    runScan fp (A ++ sl :: (B ++ el :: C)) n none acc =
      runScan fp C (n + A.length + B.length + 2) none
        (acc ++ [mkTarget fp ⟨tg, ms, n + A.length, bodyFold [] B⟩
          (n + A.length + B.length + 1)]) := by
  rw [runScan_append, runScan_nonmarkers hA]
  have hstep : scanStep fp (n + A.length) none acc sl
      = .ok (some ⟨tg, ms, n + A.length, []⟩, acc) := by
    unfold scanStep
    simp [hsl, hpa]
  simp only [runScan, hstep]
  rw [runScan_append, runScan_body hB]
  simp only [bodyFold]
  have hstep2 : scanStep fp (n + A.length + 1 + B.length)
      (some { tag := tg, minSessions := ms, startLine := n + A.length,
              content := B.foldl (fun a raw => builderPush a (stripCR raw)) [] })
      acc el
      = .ok (none, acc ++ [mkTarget fp
          { tag := tg, minSessions := ms, startLine := n + A.length,
            content := B.foldl (fun a raw => builderPush a (stripCR raw)) [] }
          (n + A.length + 1 + B.length)]) := by
    unfold scanStep
    simp [hsel, heel]
  simp only [runScan, hstep2]
  have e1 : n + A.length + 1 + B.length + 1 = n + A.length + B.length + 2 := by omega
  have e2 : n + A.length + 1 + B.length = n + A.length + B.length + 1 := by omega
  rw [e1, e2]

/-- Peeling the first `ts₁.length` targets off a successful scan: the line
list splits into a prefix that produces exactly `ts₁` and a remainder. -/
theorem runScan_peel {fp : List Char} {ts₁ : List OptimizationTarget} :
    ∀ {lines : List (List Char)} {n n' : Nat} {p' : Option PendingTarget}
      {acc₀ : List OptimizationTarget} {t : OptimizationTarget}
      {ts₂ : List OptimizationTarget},
      runScan fp lines n none acc₀ = .ok (n', p', acc₀ ++ (ts₁ ++ t :: ts₂)) →
      ∃ P rest', lines = P ++ rest' ∧
        runScan fp P n none acc₀ = .ok (n + P.length, none, acc₀ ++ ts₁) ∧
        runScan fp rest' (n + P.length) none (acc₀ ++ ts₁)
          = .ok (n', p', acc₀ ++ (ts₁ ++ t :: ts₂)) := by
  induction ts₁ with
  | nil =>
    intro lines n n' p' acc₀ t ts₂ h
    refine ⟨[], lines, by simp, by simp [runScan], ?_⟩
    simpa using h
  | cons x ts₁' ih =>
    intro lines n n' p' acc₀ t ts₂ h
    have hx : runScan fp lines n none acc₀
        = .ok (n', p', acc₀ ++ x :: (ts₁' ++ t :: ts₂)) := by
      rw [h]
      simp
    obtain ⟨A, sl, B, el, C, attrs, tg, ms, hlines, hA, hsl, hpa, hB, hsel,
      heel, ht, hrun⟩ := runScan_none_first hx
    have hrun2 : runScan fp C (n + A.length + B.length + 2) none (acc₀ ++ [x])
        = .ok (n', p', (acc₀ ++ [x]) ++ (ts₁' ++ t :: ts₂)) := by
      have : acc₀ ++ x :: (ts₁' ++ t :: ts₂) = (acc₀ ++ [x]) ++ (ts₁' ++ t :: ts₂) := by
        simp
      rw [← this]
      exact hrun
    obtain ⟨P₁, rest', hC, hP₁, hrest'⟩ := ih hrun2
    refine ⟨A ++ sl :: (B ++ el :: P₁), rest', ?_, ?_, ?_⟩
    · rw [hlines, hC]
      simp
    · rw [runScan_segment P₁ hA hsl hpa hB hsel heel, ← ht, hP₁]
      have harith : n + A.length + B.length + 2 + P₁.length
          = n + (A ++ sl :: (B ++ el :: P₁)).length := by
        simp
        omega
      rw [harith]
      simp
    · have harith : n + A.length + B.length + 2 + P₁.length
          = n + (A ++ sl :: (B ++ el :: P₁)).length := by
        simp
        omega
      rw [harith] at hrest'
      have hacc : (acc₀ ++ [x]) ++ ts₁' = acc₀ ++ x :: ts₁' := by simp
      rw [hacc] at hrest'
      rw [hrest']
      simp

/-- Full decomposition of a document at any one of its found regions: the
scanner lines split as (prefix producing the earlier targets) ++ start
marker ++ body ++ end marker ++ remainder, with all positions and the
target's content determined. -/
theorem findTargets_decomp {fp doc : List Char} {ts ts₁ ts₂ : List OptimizationTarget}
    {t : OptimizationTarget}
    (h : findTargets fp doc = .ok ts) (hts : ts = ts₁ ++ t :: ts₂) :
    ∃ Pre sl B el C attrs tg ms,
      scanLines doc = Pre ++ sl :: (B ++ el :: C) ∧
      runScan fp Pre 1 none [] = .ok (1 + Pre.length, none, ts₁) ∧
      optimizeStartCapture (stripCR sl) = some attrs ∧
      parseOptimizeAttrs attrs = some (tg, ms) ∧
      (∀ l ∈ B, NonMarker l) ∧
      optimizeStartCapture (stripCR el) = none ∧
      optimizeEndMatch (stripCR el) = true ∧
      t = mkTarget fp ⟨tg, ms, 1 + Pre.length, bodyFold [] B⟩
        (1 + Pre.length + B.length + 1) ∧
      runScan fp C (1 + Pre.length + B.length + 2) none (ts₁ ++ [t])
        = .ok (1 + (scanLines doc).length, none, ts) := by
  unfold findTargets at h
  cases hrun : runScan fp (scanLines doc) 1 none [] with
  | error e => rw [hrun] at h; simp at h
  | ok s =>
    rw [hrun] at h
    obtain ⟨nf, pf, accf⟩ := s
    cases pf with
    | some pt => simp at h
    | none =>
      obtain rfl : accf = ts := by simpa using h
      have hnf : nf = 1 + (scanLines doc).length := runScan_final_count hrun
      subst hnf
      have hrun0 : runScan fp (scanLines doc) 1 none []
          = .ok (1 + (scanLines doc).length, none, [] ++ (ts₁ ++ t :: ts₂)) := by
        rw [hrun, hts]
        simp
      obtain ⟨P, rest', hsplit, hP, hrest'⟩ := runScan_peel hrun0
      have hrest2 : runScan fp rest' (1 + P.length) none ts₁
          = .ok (1 + (scanLines doc).length, none, ts₁ ++ t :: ts₂) := by
        have h1 : ([] : List OptimizationTarget) ++ ts₁ = ts₁ := by simp
        rw [h1] at hrest'
        rw [hrest']
        simp
      obtain ⟨A, sl, B, el, C, attrs, tg, ms, hlines, hA, hsl, hpa, hB, hsel,
        heel, ht, hrun3⟩ := runScan_none_first hrest2
      refine ⟨P ++ A, sl, B, el, C, attrs, tg, ms, ?_, ?_, hsl, hpa, hB, hsel,
        heel, ?_, ?_⟩
      · rw [hsplit, hlines]
        simp
      · rw [runScan_append]
        simp only [hP]
        rw [runScan_nonmarkers hA]
        have harith : 1 + P.length + A.length = 1 + (P ++ A).length := by
          simp
          omega
        rw [harith]
        simp
      · rw [ht]
        have harith1 : 1 + P.length + A.length = 1 + (P ++ A).length := by
          simp
          omega
        rw [harith1]
      · have harith2 : 1 + P.length + A.length + B.length + 1 + 1
            = 1 + (P ++ A).length + B.length + 2 := by
          simp
          omega
        rw [harith2] at hrun3
        rw [hts]
        exact hrun3

/-! ### Relating the two line views and the splice formula -/
theorem splitNL_append_newline (x y : List Char) :
    splitNL (x ++ '\n' :: y) = splitNL x ++ splitNL y := by
  induction x with
  | nil =>
    rw [List.nil_append, splitNL_cons_newline]
    rfl
  | cons c x ih =>
    by_cases hc : c = '\n'
    · subst hc
      rw [List.cons_append, splitNL_cons_newline, splitNL_cons_newline, ih]
      rfl
    · rw [List.cons_append, splitNL_cons_ne hc, splitNL_cons_ne hc, ih]
      obtain ⟨m, ms, hS⟩ := splitNL_exists_cons x
      rw [hS]
      simp

/-- Prepending whole newline-terminated lines prepends them to the split. -/
theorem splitNL_flatJoin_append {X : List (List Char)}
    (hX : ∀ l ∈ X, '\n' ∉ l) (y : List Char) :
    splitNL (flatJoin X ++ y) = X ++ splitNL y := by
  induction X with
  | nil => simp [flatJoin]
  | cons l X ih =>
    have h1 : flatJoin (l :: X) = l ++ '\n' :: flatJoin X := by
      simp [flatJoin]
    rw [h1, List.append_assoc,
      show ('\n' :: flatJoin X) ++ y = '\n' :: (flatJoin X ++ y) from rfl,
      splitNL_line_append (hX l (by simp)),
      ih (fun m hm => hX m (List.mem_cons_of_mem _ hm))]
    rfl

theorem getLast?_append_of_ne_nil (U : List (List Char)) {V : List (List Char)}
    (hV : V ≠ []) : (U ++ V).getLast? = V.getLast? := by
  rw [List.getLast?_append]
  cases hv : V.getLast? with
  | none =>
    obtain ⟨m, ms, hV'⟩ : ∃ m ms, V = m :: ms := by
      cases V with
      | nil => exact absurd rfl hV
      | cons m ms => exact ⟨m, ms, rfl⟩
    rw [hV'] at hv
    simp at hv
  | some a => rfl

/-- `scanLines` and `splitNL` differ by at most a trailing empty line. -/
theorem scanLines_spec (doc : List Char) :
    ∃ t0, splitNL doc = scanLines doc ++ t0 ∧
      ((t0 = [] ∧ (splitNL doc).getLast? ≠ some []) ∨ t0 = [[]]) := by
  unfold scanLines
  by_cases h : (splitNL doc).getLast? = some []
  · rw [if_pos h]
    obtain ⟨ys, hys⟩ := List.getLast?_eq_some_iff.mp h
    refine ⟨[[]], ?_, Or.inr rfl⟩
    rw [hys, List.dropLast_concat]
  · rw [if_neg h]
    exact ⟨[], by simp, Or.inl ⟨rfl, h⟩⟩

theorem take_append_cons (A : List (List Char)) (x : List Char)
    (Z : List (List Char)) :
    (A ++ x :: Z).take (A.length + 1) = A ++ [x] := by
  rw [List.take_append_eq_append_take]
  simp

/-- The document splits around a line range `1 ≤ s < e ≤ |L|`. -/
theorem joinNL_decomp {L : List (List Char)} {s e : Nat}
    (h1 : 1 ≤ s) (h2 : s < e) (h3 : e ≤ L.length) :
    joinNL L = flatJoin (L.take s) ++ flatJoin ((L.drop s).take (e - 1 - s)) ++
      joinNL (L.drop (e - 1)) := by
  have hLs : L = L.take s ++ ((L.drop s).take (e - 1 - s) ++ L.drop (e - 1)) := by
    have hdd : (L.drop s).drop (e - 1 - s) = L.drop (e - 1) := by
      rw [List.drop_drop]
      congr 1
      omega
    conv_lhs => rw [← List.take_append_drop s L]
    congr 1
    conv_lhs => rw [← List.take_append_drop (e - 1 - s) (L.drop s)]
    rw [hdd]
  have hne : L.drop (e - 1) ≠ [] := by
    have : e - 1 < L.length := by omega
    intro hnil
    have := List.drop_eq_nil_iff.mp hnil
    omega
  conv_lhs => rw [hLs]
  rw [joinNL_append_of_ne_nil _ (by
      intro hnil
      rcases List.append_eq_nil.mp hnil with ⟨-, h'⟩
      exact hne h'),
    joinNL_append_of_ne_nil _ hne]
  simp [List.append_assoc]

/-- For a freshly found target the bounds check passes and `ReplaceTarget`
returns the spliced document. -/
theorem replaceTarget_found {fp doc : List Char} {ts : List OptimizationTarget}
    {t : OptimizationTarget} (h : findTargets fp doc = .ok ts) (ht : t ∈ ts)
    (new : List Char) :
    replaceTarget doc t new
      = .ok (replaceContent doc t.startLine t.endLine new) := by
  obtain ⟨hb, -⟩ := findTargets_inv h
  obtain ⟨h1, h2, h3⟩ := hb t ht
  obtain ⟨t0, hsp, -⟩ := scanLines_spec doc
  have hlen : (scanLines doc).length ≤ (splitNL doc).length := by
    rw [hsp]
    simp
  unfold replaceTarget
  rw [if_neg]
  push_neg
  exact ⟨by omega, by omega, by omega⟩

/-! ### The builder versus `joinNL` -/
theorem foldl_builderPush_of_ne {acc : List Char} (hacc : acc ≠ [])
    (L : List (List Char)) : L.foldl builderPush acc = joinNL (acc :: L) := by
  induction L generalizing acc with
  | nil => simp [joinNL]
  | cons x L ih =>
    have hstep : builderPush acc x = acc ++ '\n' :: x := by
      unfold builderPush
      rw [if_pos]
      simpa [List.length_pos] using hacc
    rw [List.foldl_cons, hstep, ih (by simp), joinNL_cons_cons]
    cases L with
    | nil => simp [joinNL]
    | cons y L' => rw [joinNL_cons_cons]; simp [joinNL_cons_cons]

theorem foldl_builderPush_nil (L : List (List Char)) :
    L.foldl builderPush [] = joinNL (L.dropWhile (· = [])) := by
  induction L with
  | nil => simp [joinNL]
  | cons x L ih =>
    by_cases hx : x = []
    · subst hx
      have hstep : builderPush [] ([] : List Char) = [] := by
        unfold builderPush
        simp
      rw [List.foldl_cons, hstep, ih]
      congr 1
    · have hstep : builderPush [] x = x := by
        unfold builderPush
        simp
      rw [List.foldl_cons, hstep, foldl_builderPush_of_ne hx]
      congr 1
      rw [List.dropWhile_cons]
      simp [hx]

theorem trimSpace_joinNL_dropWhile (L : List (List Char)) :
    trimSpace (joinNL (L.dropWhile (· = []))) = trimSpace (joinNL L) := by
  induction L with
  | nil => simp
  | cons x L ih =>
    by_cases hx : x = []
    · subst hx
      rw [List.dropWhile_cons]
      simp only [decide_True, if_pos]
      rw [ih]
      cases L with
      | nil => simp [joinNL]
      | cons y L' =>
        rw [joinNL_cons_cons]
        rw [show ([] : List Char) ++ '\n' :: joinNL (y :: L') = '\n' :: joinNL (y :: L') from rfl]
        rw [trimSpace_cons_ws (by decide)]
    · rw [List.dropWhile_cons]
      simp [hx]

/-- The trimmed builder content equals the trimmed join of the CR-stripped
body lines. -/
theorem bodyFold_trim (B : List (List Char)) :
    trimSpace (bodyFold [] B) = trimSpace (joinNL (B.map stripCR)) := by
  unfold bodyFold
  rw [← List.foldl_map stripCR builderPush B, foldl_builderPush_nil,
    trimSpace_joinNL_dropWhile]

theorem stripCR_isPre (l : List Char) : stripCR l <+: l := by
  unfold stripCR
  split
  · exact List.dropLast_prefix l
  · exact List.prefix_refl l

/-- A CR-stripped infix of a marker-free scanner line is marker-free. -/
theorem nonMarker_of_within {l' sline : List Char} (hinf : l' <:+: sline)
    (hs : optimizeStartCapture sline = none)
    (he : optimizeEndMatch sline = false) : NonMarker l' := by
  have hinf2 : stripCR l' <:+: sline :=
    List.IsInfix.trans (List.IsPrefix.isInfix (stripCR_isPre l')) hinf
  exact ⟨optimizeStartCapture_none_of_within hinf2 hs,
    optimizeEndMatch_false_of_within hinf2 he⟩

/-- Replacing the body of a found region with marker-free content `X`
re-parses: the earlier regions are unchanged and the region re-appears at
the same start line with body `splitNL X`. -/
theorem replace_rescan {fp doc X : List Char} {ts ts₁ ts₂ : List OptimizationTarget}
    {t : OptimizationTarget}
    (h : findTargets fp doc = .ok ts) (hts : ts = ts₁ ++ t :: ts₂)
    (hX : ∀ l ∈ splitNL X, NonMarker l) :
    ∃ ds, findTargets fp (replaceContent doc t.startLine t.endLine X)
        = .ok (ts₁ ++
            mkTarget fp ⟨t.tag, t.minSessions, t.startLine, bodyFold [] (splitNL X)⟩
              (t.startLine + (splitNL X).length + 1) :: ds) := by
  obtain ⟨Pre, sl, B, el, C, attrs, tg, ms, hSL, hPre, hsl, hpa, hB, hsel,
    heel, ht, hrunC⟩ := findTargets_decomp h hts
  obtain ⟨t0, hsp, ht0⟩ := scanLines_spec doc
  have hs : t.startLine = 1 + Pre.length := by rw [ht]; rfl
  have he : t.endLine = 1 + Pre.length + B.length + 1 := by rw [ht]; rfl
  have htag : t.tag = tg := by rw [ht]; rfl
  have hms : t.minSessions = ms := by rw [ht]; rfl
  -- the raw line list
  have hL : splitNL doc = Pre ++ sl :: (B ++ el :: (C ++ t0)) := by
    rw [hsp, hSL]
    simp [List.append_assoc]
  -- the spliced prefix and suffix
  have hnl : ∀ l ∈ splitNL doc, '\n' ∉ l := splitNL_no_newline doc
  have htake : (splitNL doc).take t.startLine = Pre ++ [sl] := by
    rw [hs, hL, Nat.add_comm 1 Pre.length]
    exact take_append_cons Pre sl _
  have hdrop : (splitNL doc).drop (t.endLine - 1) = el :: (C ++ t0) := by
    rw [he, hL]
    have harr : Pre ++ sl :: (B ++ el :: (C ++ t0))
        = (Pre ++ sl :: B) ++ (el :: (C ++ t0)) := by simp
    rw [harr]
    have hlen : 1 + Pre.length + B.length + 1 - 1 = (Pre ++ sl :: B).length := by
      simp
      omega
    rw [hlen, List.drop_left]
  have hnewdoc : replaceContent doc t.startLine t.endLine X
      = flatJoin (Pre ++ [sl]) ++ X ++ '\n' :: joinNL (el :: (C ++ t0)) := by
    show flatJoin ((splitNL doc).take t.startLine) ++ X ++
        '\n' :: joinNL ((splitNL doc).drop (t.endLine - 1))
      = flatJoin (Pre ++ [sl]) ++ X ++ '\n' :: joinNL (el :: (C ++ t0))
    rw [htake, hdrop]
  -- the new document's raw lines
  have hnlPre : ∀ l ∈ Pre ++ [sl], '\n' ∉ l := by
    intro l hl
    refine hnl l ?_
    rw [hL]
    rcases List.mem_append.mp hl with h' | h'
    · exact List.mem_append.mpr (Or.inl h')
    · simp at h'
      subst h'
      simp
  have hnlSuf : ∀ l ∈ el :: (C ++ t0), '\n' ∉ l := by
    intro l hl
    refine hnl l ?_
    rw [hL]
    have hmem : l ∈ B ++ el :: (C ++ t0) := List.mem_append.mpr (Or.inr hl)
    exact List.mem_append.mpr (Or.inr (List.mem_cons_of_mem _ hmem))
  have hsplitnew : splitNL (replaceContent doc t.startLine t.endLine X)
      = (Pre ++ [sl]) ++ (splitNL X ++ el :: (C ++ t0)) := by
    rw [hnewdoc, List.append_assoc, splitNL_flatJoin_append hnlPre,
      splitNL_append_newline, splitNL_joinNL _ (by simp) hnlSuf]
  -- the new document's scanner lines
  have hscannew : scanLines (replaceContent doc t.startLine t.endLine X)
      = Pre ++ sl :: (splitNL X ++ el :: C) := by
    unfold scanLines
    rcases ht0 with ⟨rfl, hlast⟩ | rfl
    · rw [if_neg]
      · rw [hsplitnew]
        simp
      · rw [hsplitnew]
        have h1 : ((Pre ++ [sl]) ++ (splitNL X ++ el :: (C ++ []))).getLast?
            = (el :: C).getLast? := by
          rw [getLast?_append_of_ne_nil _ (by simp),
            getLast?_append_of_ne_nil _ (by simp)]
          simp
        rw [h1]
        have h2 : (splitNL doc).getLast? = (el :: C).getLast? := by
          rw [hL]
          rw [getLast?_append_of_ne_nil _ (by simp)]
          have h3 : sl :: (B ++ el :: (C ++ []))
              = (sl :: B) ++ (el :: C) := by simp
          rw [h3, getLast?_append_of_ne_nil _ (by simp)]
        rw [← h2]
        exact hlast
    · rw [if_pos]
      · rw [hsplitnew]
        have h1 : (Pre ++ [sl]) ++ (splitNL X ++ el :: (C ++ [[]]))
            = ((Pre ++ [sl]) ++ (splitNL X ++ el :: C)) ++ [[]] := by
          simp [List.append_assoc]
        rw [h1, List.dropLast_concat]
        simp [List.append_assoc]
      · rw [hsplitnew]
        have h1 : (Pre ++ [sl]) ++ (splitNL X ++ el :: (C ++ [[]]))
            = ((Pre ++ [sl]) ++ (splitNL X ++ el :: C)) ++ [[]] := by
          simp [List.append_assoc]
        rw [h1, List.getLast?_concat]
  -- run the scan over the new document
  have hrunNew : runScan fp (Pre ++ sl :: (splitNL X ++ el :: C)) 1 none []
      = runScan fp C (1 + Pre.length + (splitNL X).length + 2) none
        (ts₁ ++ [mkTarget fp ⟨tg, ms, 1 + Pre.length, bodyFold [] (splitNL X)⟩
          (1 + Pre.length + (splitNL X).length + 1)]) := by
    rw [runScan_append]
    simp only [hPre]
    have hseg : runScan fp
        (([] : List (List Char)) ++ sl :: (splitNL X ++ el :: C))
        (1 + Pre.length) none ts₁
        = runScan fp C
          (1 + Pre.length + ([] : List (List Char)).length
            + (splitNL X).length + 2) none
          (ts₁ ++ [mkTarget fp
            ⟨tg, ms, 1 + Pre.length + ([] : List (List Char)).length,
              bodyFold [] (splitNL X)⟩
            (1 + Pre.length + ([] : List (List Char)).length
              + (splitNL X).length + 1)]) :=
      runScan_segment C (by simp) hsl hpa hX hsel heel (1 + Pre.length) ts₁
    simp only [List.nil_append, List.length_nil, Nat.add_zero] at hseg
    exact hseg
  obtain ⟨q', b', hrun2, hq⟩ := runScan_shape_transfer hrunC
    (1 + Pre.length + (splitNL X).length + 2) none
    (ts₁ ++ [mkTarget fp ⟨tg, ms, 1 + Pre.length, bodyFold [] (splitNL X)⟩
      (1 + Pre.length + (splitNL X).length + 1)]) rfl
  have hq' : q' = none := by
    cases q' with
    | none => rfl
    | some _ => simp at hq
  subst hq'
  obtain ⟨ds, hds⟩ := runScan_acc_grows hrun2
  subst hds
  refine ⟨ds, ?_⟩
  unfold findTargets
  rw [hscannew, hrunNew, hrun2, htag, hms, hs]
  simp

theorem nonMarker_nil : NonMarker [] := ⟨rfl, rfl⟩

/-- The lines of a found region's content are marker-free (they are infixes
of the region's CR-stripped body lines, which the scan checked). -/
theorem content_lines_nonMarker {B : List (List Char)}
    (hB : ∀ l ∈ B, NonMarker l) (hnlB : ∀ l ∈ B, '\n' ∉ l) :
    ∀ l ∈ splitNL (trimSpace (bodyFold [] B)), NonMarker l := by
  have hbf : bodyFold [] B = joinNL ((B.map stripCR).dropWhile (· = [])) := by
    unfold bodyFold
    rw [← List.foldl_map stripCR builderPush B, foldl_builderPush_nil]
  have hmem : ∀ m ∈ (B.map stripCR).dropWhile (· = []),
      ∃ b ∈ B, m = stripCR b := by
    intro m hm
    have hm2 : m ∈ B.map stripCR :=
      List.Sublist.mem hm (List.dropWhile_sublist _)
    obtain ⟨b, hb, hbm⟩ := List.mem_map.mp hm2
    exact ⟨b, hb, hbm.symm⟩
  cases hSBD : (B.map stripCR).dropWhile (· = []) with
  | nil =>
    rw [hbf, hSBD]
    intro l hl
    simp only [joinNL] at hl
    have : trimSpace ([] : List Char) = [] := rfl
    rw [this] at hl
    simp only [splitNL, List.mem_singleton] at hl
    rw [hl]
    exact nonMarker_nil
  | cons m0 ms0 =>
    rw [hbf]
    intro l hl
    have hnlSBD : ∀ m ∈ (B.map stripCR).dropWhile (· = []), '\n' ∉ m := by
      intro m hm
      obtain ⟨b, hb, rfl⟩ := hmem m hm
      intro hnl
      exact hnlB b hb (List.IsPrefix.mem hnl (stripCR_isPre b))
    obtain ⟨u, v, huv⟩ :=
      trimSpace_within (joinNL ((B.map stripCR).dropWhile (· = [])))
    have hlines := splitNL_within u
      (trimSpace (joinNL ((B.map stripCR).dropWhile (· = [])))) v l hl
    rw [huv] at hlines
    rw [splitNL_joinNL _ (by rw [hSBD]; simp) hnlSBD] at hlines
    obtain ⟨m, hm, hinf⟩ := hlines
    obtain ⟨b, hb, rfl⟩ := hmem m hm
    exact nonMarker_of_within hinf (hB b hb).1 (hB b hb).2

/-- Properties of a found region's content: its lines are marker-free and it
is fixed by `TrimSpace`. -/
theorem found_target_content {fp doc : List Char} {ts : List OptimizationTarget}
    {t : OptimizationTarget} (h : findTargets fp doc = .ok ts) (ht : t ∈ ts) :
    (∀ l ∈ splitNL t.content, NonMarker l) ∧ trimSpace t.content = t.content := by
  obtain ⟨ts₁, ts₂, hts⟩ := List.append_of_mem ht
  obtain ⟨Pre, sl, B, el, C, attrs, tg, ms, hSL, hPre, hsl, hpa, hB, hsel,
    heel, htEq, hrunC⟩ := findTargets_decomp h hts
  obtain ⟨t0, hsp, -⟩ := scanLines_spec doc
  have hcontent : t.content = trimSpace (bodyFold [] B) := by rw [htEq]; rfl
  have hnlB : ∀ l ∈ B, '\n' ∉ l := by
    intro l hl
    refine splitNL_no_newline doc l ?_
    rw [hsp, hSL]
    have hmem : l ∈ B ++ el :: C := List.mem_append.mpr (Or.inl hl)
    exact List.mem_append.mpr
      (Or.inl (List.mem_append.mpr (Or.inr (List.mem_cons_of_mem _ hmem))))
  constructor
  · rw [hcontent]
    exact content_lines_nonMarker hB hnlB
  · rw [hcontent, trimSpace_idem]

/-- **C3** (corrected).  For every target freshly returned by `FindTargets`,
`ReplaceTarget` changes only the body between the markers: the document
splits as prefix ++ body ++ suffix at the target's line range, where the
prefix ends with the start-marker line and the suffix begins with the
end-marker line, and replacing with any `new` yields exactly
prefix ++ new ++ newline ++ suffix (so every byte outside the body,
markers and their parameters included, is unchanged).  The spec's
round-trip clause (replace with the region's own content, re-find, get
identical content) does NOT hold for all documents — the scanner strips
one trailing carriage return per line while the replacement is spliced
verbatim, so a body line ending in `\r\r` breaks it (see
`C3_roundtrip_counterexample`) — but it holds under the amended hypothesis
that no line of the recorded content ends in `\r`: then re-finding after
replacing the region with its own content yields a target with the same
tag, start line and content. -/
theorem C3_replace_frame_roundtrip
    {fp doc : List Char} {ts : List OptimizationTarget} {t : OptimizationTarget}
    (h : findTargets fp doc = .ok ts) (ht : t ∈ ts)
    (hcr : ∀ l ∈ splitNL t.content, stripCR l = l) :
    (∀ new, replaceTarget doc t new
        = .ok (flatJoin ((splitNL doc).take t.startLine) ++ new ++
            '\n' :: joinNL ((splitNL doc).drop (t.endLine - 1)))) ∧
    doc = flatJoin ((splitNL doc).take t.startLine) ++
        flatJoin (((splitNL doc).drop t.startLine).take (t.endLine - 1 - t.startLine)) ++
        joinNL ((splitNL doc).drop (t.endLine - 1)) ∧
    ∃ ts' t', findTargets fp (replaceContent doc t.startLine t.endLine t.content)
        = .ok ts' ∧ t' ∈ ts' ∧ t'.tag = t.tag ∧ t'.startLine = t.startLine ∧
        t'.content = t.content := by
  obtain ⟨hb, -⟩ := findTargets_inv h
  obtain ⟨h1, h2, h3⟩ := hb t ht
  obtain ⟨t0, hsp, -⟩ := scanLines_spec doc
  have hlen : (scanLines doc).length ≤ (splitNL doc).length := by
    rw [hsp]; simp
  refine ⟨?_, ?_, ?_⟩
  · intro new
    rw [replaceTarget_found h ht new]
    rfl
  · conv_lhs => rw [← joinNL_splitNL doc]
    exact joinNL_decomp h1 h2 (by omega)
  · obtain ⟨ts₁, ts₂, hts⟩ := List.append_of_mem ht
    obtain ⟨hnm, htrim⟩ := found_target_content h ht
    obtain ⟨ds, hfind⟩ := replace_rescan h hts hnm
    refine ⟨_, _, hfind, List.mem_append.mpr (Or.inr (List.mem_cons_self _ _)),
      rfl, rfl, ?_⟩
    show trimSpace (bodyFold [] (splitNL t.content)) = t.content
    rw [bodyFold_trim]
    have hmap : (splitNL t.content).map stripCR = splitNL t.content := by
      calc (splitNL t.content).map stripCR
          = (splitNL t.content).map id := List.map_congr_left (fun a ha => hcr a ha)
        _ = splitNL t.content := List.map_id _
    rw [hmap, joinNL_splitNL]
    exact htrim

/-- **C3** witness: the frame/round-trip theorem applied to the concrete
document `w3doc` and its one (CR-clean) target. -/
theorem C3_replace_frame_roundtrip_witness :
    (∀ new, replaceTarget w3doc w3t new
        = .ok (flatJoin ((splitNL w3doc).take w3t.startLine) ++ new ++
            '\n' :: joinNL ((splitNL w3doc).drop (w3t.endLine - 1)))) ∧
    w3doc = flatJoin ((splitNL w3doc).take w3t.startLine) ++
        flatJoin (((splitNL w3doc).drop w3t.startLine).take
          (w3t.endLine - 1 - w3t.startLine)) ++
        joinNL ((splitNL w3doc).drop (w3t.endLine - 1)) ∧
    ∃ ts' t', findTargets w3fp (replaceContent w3doc w3t.startLine w3t.endLine w3t.content)
        = .ok ts' ∧ t' ∈ ts' ∧ t'.tag = w3t.tag ∧ t'.startLine = w3t.startLine ∧
        t'.content = w3t.content :=
  C3_replace_frame_roundtrip
    (show findTargets w3fp w3doc = .ok [w3t] from by rfl)
    (List.mem_singleton.mpr rfl) (by decide)

/-- **C3** counterexample: on `c3doc`, whose body line `x\r\r` ends in a
carriage return even after the scanner stripped one, the spec's unamended
round-trip fails — replacing the region with its own recorded content and
re-finding yields different content (`x\ny` versus `x\r\ny`). -/
theorem C3_roundtrip_counterexample :
    ∃ t t', findTargets c3fp c3doc = .ok [t] ∧
      replaceTarget c3doc t t.content = .ok c3doc2 ∧
      findTargets c3fp c3doc2 = .ok [t'] ∧
      t'.tag = t.tag ∧ t'.startLine = t.startLine ∧ t'.content ≠ t.content := by
  refine ⟨⟨c3fp, "a".data, 10, 1, 4, ("x\r\ny").data⟩,
    ⟨c3fp, "a".data, 10, 1, 4, ("x\ny").data⟩,
    by rfl, by rfl, by rfl, rfl, rfl, by decide⟩

/-- **C4** (corrected).  `ReplaceTarget` validates the recorded range against
the current document only numerically: it fails (returning an error and
producing no document, hence no write) exactly when
`StartLine < 1`, `EndLine > len(lines)` or `StartLine >= EndLine`, and
otherwise splices unconditionally.  It does NOT re-check that the markers
still sit at the recorded lines, so a stale range that happens to stay in
bounds corrupts the document (see
`C4_stale_corruption_counterexample`). -/
theorem C4_bounds_only_validation (doc new : List Char) (t : OptimizationTarget) :
    (replaceTarget doc t new = .error ("invalid line range").data ↔
      (t.startLine < 1 ∨ (splitNL doc).length < t.endLine ∨ t.endLine ≤ t.startLine)) ∧
    (replaceTarget doc t new = .ok (replaceContent doc t.startLine t.endLine new) ↔
      ¬(t.startLine < 1 ∨ (splitNL doc).length < t.endLine ∨ t.endLine ≤ t.startLine)) := by
  unfold replaceTarget
  by_cases hc : t.startLine < 1 ∨ (splitNL doc).length < t.endLine ∨ t.endLine ≤ t.startLine
  · rw [if_pos hc]
    exact ⟨⟨fun _ => hc, fun _ => rfl⟩,
      ⟨fun hbad => Except.noConfusion hbad, fun hn => absurd hc hn⟩⟩
  · rw [if_neg hc]
    exact ⟨⟨fun hbad => Except.noConfusion hbad, fun h => absurd h hc⟩,
      ⟨fun _ => hc, fun _ => rfl⟩⟩

/-- **C4** counterexample: a target located on `c4doc0` becomes stale when a
line is prepended (`c4doc1`), yet its range (1,3) still passes the bounds
check, so `ReplaceTarget` succeeds and returns a corrupted document — the
start marker is gone and re-parsing fails with `endWithoutStart`. -/
theorem C4_stale_corruption_counterexample :
    ∃ t, findTargets c4fp c4doc0 = .ok [t] ∧
      replaceTarget c4doc1 t t.content = .ok c4bad ∧
      findTargets c4fp c4bad = .error (ParseErr.endWithoutStart 4) := by
  refine ⟨⟨c4fp, "a".data, 10, 1, 3, "body".data⟩, by rfl, by rfl, by rfl⟩

/-- **C2** (confirmed).  `atomicWrite` stages the content in a sibling temp
file and installs it with the single final rename: when no step fails the
target holds exactly the new content and the temp file is gone, and for
every failure at any step before the rename (temp-file creation, write,
close, permission copy) as well as at the rename itself, the target path's
bytes are exactly what they were before the call and the temp file has
been removed — the document is never left partially written. -/
theorem C2_atomic_write (f : FsFaults) (content : List Char) (fs : FileSys)
    (htmp : fs.tmp = none) :
    ((atomicWrite f content fs).1 = none →
      (atomicWrite f content fs).2 = ⟨some content, none⟩) ∧
    ((atomicWrite f content fs).1 ≠ none →
      (atomicWrite f content fs).2.doc = fs.doc ∧
      (atomicWrite f content fs).2.tmp = none) := by
  obtain ⟨fc, fw, fcl, fch, fr⟩ := f
  obtain ⟨d, tp⟩ := fs
  obtain rfl : tp = none := htmp
  unfold atomicWrite
  cases fc <;> cases fw <;> cases fcl <;> cases fr <;>
    cases hd : (Option.isSome d && fch) <;>
    simp_all

/-- **C2** witness: one successful call installs the new content, and one
call whose rename fails leaves the original bytes with the temp removed. -/
theorem C2_atomic_write_witness :
    (atomicWrite ⟨false, false, false, false, false⟩ "new".data
        ⟨some "old".data, none⟩).2 = ⟨some "new".data, none⟩ ∧
    ((atomicWrite ⟨false, false, false, false, true⟩ "new".data
        ⟨some "old".data, none⟩).2.doc = some "old".data ∧
      (atomicWrite ⟨false, false, false, false, true⟩ "new".data
        ⟨some "old".data, none⟩).2.tmp = none) :=
  ⟨(C2_atomic_write ⟨false, false, false, false, false⟩ "new".data
      ⟨some "old".data, none⟩ rfl).1 (by decide),
    (C2_atomic_write ⟨false, false, false, false, true⟩ "new".data
      ⟨some "old".data, none⟩ rfl).2 (by decide)⟩

theorem storeGet_put (st : Store) (id : List Char) (r : OptimizationRecord) :
    storeGet (storePut st id r) id = some r := by
  induction st with
  | nil => simp [storePut, storeGet]
  | cons p rest ih =>
    by_cases hp : p.1 = id
    · simp [storePut, hp, storeGet]
    · simp [storePut, hp, storeGet, ih]

theorem getOptimization_eq_some {st : Store} {id : List Char}
    {r : OptimizationRecord} (h : getOptimization st id = .ok r) :
    storeGet st id = some r := by
  unfold getOptimization at h
  cases hsg : storeGet st id with
  | none => rw [hsg] at h; simp at h
  | some r' =>
    rw [hsg] at h
    simp at h
    rw [h]

/-- A successful pipeline run of `Apply`, for both values of the
update-failure flag: the document is rewritten either way; only the store
update depends on the flag. -/
theorem applyOpt_run {st : Store} {doc id : List Char} {now : Nat}
    {r : OptimizationRecord} {ts : List OptimizationTarget}
    {target : OptimizationTarget} {doc2 : List Char} (ufail : Bool)
    (hget : getOptimization st id = .ok r) (hid : r.id = id)
    (hst : r.status = optStatusProposed)
    (hfind : findTargets r.targetFile doc = .ok ts)
    (hfirst : ts.find? (fun t => t.tag = r.tag) = some target)
    (hrepl : replaceTarget doc target r.newContent = .ok doc2) :
    applyOpt ufail st doc id now =
      if ufail then (some ("update failed").data, st, doc2)
      else (none, storePut st id
        { r with status := optStatusAccepted, appliedAt := some now }, doc2) := by
  have hsg : storeGet st id = some r := getOptimization_eq_some hget
  have hup : updateOptimization ufail st
      { r with status := optStatusAccepted, appliedAt := some now } =
      if ufail then .error ("update failed").data
      else .ok (storePut st id
        { r with status := optStatusAccepted, appliedAt := some now }) := by
    unfold updateOptimization
    have hidr : ({ r with
        status := optStatusAccepted, appliedAt := some now } :
        OptimizationRecord).id = id := hid
    rw [hidr, hsg]
  unfold applyOpt
  rw [hget]
  show applyCore ufail st doc now r = _
  unfold applyCore
  simp only [hfind, hfirst, hrepl]
  rw [if_neg (show ¬(r.status ≠ optStatusProposed) by simp [hst])]
  rw [hup]
  cases ufail <;> rfl

/-- A successful pipeline run of `Rollback`, for both values of the
update-failure flag. -/
theorem rollbackOpt_run {st : Store} {doc id : List Char} {now : Nat}
    {r : OptimizationRecord} {ts : List OptimizationTarget}
    {target : OptimizationTarget} {doc2 : List Char} (ufail : Bool)
    (hget : getOptimization st id = .ok r) (hid : r.id = id)
    (hst : r.status = optStatusAccepted)
    (hfind : findTargets r.targetFile doc = .ok ts)
    (hfirst : ts.find? (fun t => t.tag = r.tag) = some target)
    (hrepl : replaceTarget doc target r.previousContent = .ok doc2) :
    rollbackOpt ufail st doc id now =
      if ufail then (some ("update failed").data, st, doc2)
      else (none, storePut st id
        { r with status := optStatusRolledBack, rolledBackAt := some now },
        doc2) := by
  have hsg : storeGet st id = some r := getOptimization_eq_some hget
  have hup : updateOptimization ufail st
      { r with status := optStatusRolledBack, rolledBackAt := some now } =
      if ufail then .error ("update failed").data
      else .ok (storePut st id
        { r with status := optStatusRolledBack, rolledBackAt := some now }) := by
    unfold updateOptimization
    have hidr : ({ r with
        status := optStatusRolledBack, rolledBackAt := some now } :
        OptimizationRecord).id = id := hid
    rw [hidr, hsg]
  unfold rollbackOpt
  rw [hget]
  show rollbackCore ufail st doc now r = _
  unfold rollbackCore
  simp only [hfind, hfirst, hrepl]
  rw [if_neg (show ¬(r.status ≠ optStatusAccepted) by simp [hst])]
  rw [hup]
  cases ufail <;> rfl

/-- A successful run of `Reject`. -/
theorem rejectOpt_run {st : Store} {id : List Char} {r : OptimizationRecord}
    (ufail : Bool)
    (hget : getOptimization st id = .ok r) (hid : r.id = id)
    (hst : r.status = optStatusProposed) :
    rejectOpt ufail st id =
      if ufail then (some ("update failed").data, st)
      else (none, storePut st id { r with status := optStatusRejected }) := by
  have hsg : storeGet st id = some r := getOptimization_eq_some hget
  have hup : updateOptimization ufail st { r with status := optStatusRejected } =
      if ufail then .error ("update failed").data
      else .ok (storePut st id { r with status := optStatusRejected }) := by
    unfold updateOptimization
    have hidr : ({ r with status := optStatusRejected } :
        OptimizationRecord).id = id := hid
    rw [hidr, hsg]
  unfold rejectOpt
  rw [hget]
  show rejectCore ufail st r = _
  unfold rejectCore
  rw [if_neg (show ¬(r.status ≠ optStatusProposed) by simp [hst])]
  rw [hup]
  cases ufail <;> rfl

/-- Wrong-status failures: `Apply` and `Reject` refuse a record that is not
`proposed`, `Rollback` refuses one that is not `accepted`, all three leaving
store and document untouched. -/
theorem lifecycle_wrong_status {st : Store} {doc id : List Char} {now : Nat}
    {r : OptimizationRecord} (ufail : Bool)
    (hget : getOptimization st id = .ok r) :
    (r.status ≠ optStatusProposed →
      applyOpt ufail st doc id now
        = (some ("optimization is not in proposed status").data, st, doc) ∧
      rejectOpt ufail st id
        = (some ("optimization is not in proposed status").data, st)) ∧
    (r.status ≠ optStatusAccepted →
      rollbackOpt ufail st doc id now
        = (some ("optimization is not in accepted status").data, st, doc)) := by
  constructor
  · intro hst
    constructor
    · unfold applyOpt
      rw [hget]
      show applyCore ufail st doc now r = _
      unfold applyCore
      rw [if_pos hst]
    · unfold rejectOpt
      rw [hget]
      show rejectCore ufail st r = _
      unfold rejectCore
      rw [if_pos hst]
  · intro hst
    unfold rollbackOpt
    rw [hget]
    show rollbackCore ufail st doc now r = _
    unfold rollbackCore
    rw [if_pos hst]

/-- Inversion of a successful `Apply`: the record had to be `proposed`, the
update had to succeed, and the stored record moved to `accepted`. -/
theorem applyOpt_none_inv {ufail : Bool} {st : Store} {doc id : List Char}
    {now : Nat} {st' : Store} {doc' : List Char}
    (h : applyOpt ufail st doc id now = (none, st', doc')) :
    ∃ r ts target rold, getOptimization st id = .ok r ∧
      r.status = optStatusProposed ∧
      findTargets r.targetFile doc = .ok ts ∧
      ts.find? (fun t => t.tag = r.tag) = some target ∧
      replaceTarget doc target r.newContent = .ok doc' ∧
      storeGet st r.id = some rold ∧ ufail = false ∧
      st' = storePut st r.id
        { r with status := optStatusAccepted, appliedAt := some now } := by
  unfold applyOpt at h
  cases hget : getOptimization st id with
  | error e => rw [hget] at h; simp at h
  | ok r =>
    rw [hget] at h
    have h2 : applyCore ufail st doc now r = (none, st', doc') := h
    unfold applyCore at h2
    by_cases hst : r.status ≠ optStatusProposed
    · rw [if_pos hst] at h2
      simp at h2
    · rw [if_neg hst] at h2
      push_neg at hst
      cases hf : findTargets r.targetFile doc with
      | error e => rw [hf] at h2; simp at h2
      | ok targets =>
        rw [hf] at h2
        cases hfd : targets.find? (fun t => t.tag = r.tag) with
        | none =>
          simp only [hfd] at h2
          simp at h2
        | some target =>
          simp only [hfd] at h2
          cases hr : replaceTarget doc target r.newContent with
          | error e => rw [hr] at h2; simp at h2
          | ok doc2 =>
            simp only [hr] at h2
            cases hu : updateOptimization ufail st
                { r with status := optStatusAccepted, appliedAt := some now } with
            | error e => rw [hu] at h2; simp at h2
            | ok st2 =>
              rw [hu] at h2
              simp at h2
              unfold updateOptimization at hu
              cases hsg : storeGet st ({ r with
                  status := optStatusAccepted, appliedAt := some now } :
                  OptimizationRecord).id with
              | none => rw [hsg] at hu; simp at hu
              | some rold =>
                rw [hsg] at hu
                cases ufail with
                | true => simp at hu
                | false =>
                  simp at hu
                  exact ⟨r, targets, target, rold, rfl, hst, hf, hfd,
                    by rw [← h2.2]; exact hr, hsg, rfl, by rw [← h2.1, ← hu]⟩

/-- Inversion of a successful `Reject`. -/
theorem rejectOpt_none_inv {ufail : Bool} {st : Store} {id : List Char}
    {st' : Store} (h : rejectOpt ufail st id = (none, st')) :
    ∃ r, getOptimization st id = .ok r ∧ r.status = optStatusProposed ∧
      ufail = false ∧
      st' = storePut st r.id { r with status := optStatusRejected } := by
  unfold rejectOpt at h
  cases hget : getOptimization st id with
  | error e => rw [hget] at h; simp at h
  | ok r =>
    rw [hget] at h
    have h2 : rejectCore ufail st r = (none, st') := h
    unfold rejectCore at h2
    by_cases hst : r.status ≠ optStatusProposed
    · rw [if_pos hst] at h2
      simp at h2
    · rw [if_neg hst] at h2
      push_neg at hst
      cases hu : updateOptimization ufail st
          { r with status := optStatusRejected } with
      | error e => rw [hu] at h2; simp at h2
      | ok st2 =>
        rw [hu] at h2
        simp at h2
        unfold updateOptimization at hu
        cases hsg : storeGet st ({ r with status := optStatusRejected } :
            OptimizationRecord).id with
        | none => rw [hsg] at hu; simp at hu
        | some rold =>
          rw [hsg] at hu
          cases ufail with
          | true => simp at hu
          | false =>
            simp at hu
            exact ⟨r, rfl, hst, rfl, by rw [← h2, ← hu]⟩

/-- Inversion of a successful `Rollback`. -/
theorem rollbackOpt_none_inv {ufail : Bool} {st : Store} {doc id : List Char}
    {now : Nat} {st' : Store} {doc' : List Char}
    (h : rollbackOpt ufail st doc id now = (none, st', doc')) :
    ∃ r ts target rold, getOptimization st id = .ok r ∧
      r.status = optStatusAccepted ∧
      findTargets r.targetFile doc = .ok ts ∧
      ts.find? (fun t => t.tag = r.tag) = some target ∧
      replaceTarget doc target r.previousContent = .ok doc' ∧
      storeGet st r.id = some rold ∧ ufail = false ∧
      st' = storePut st r.id
        { r with status := optStatusRolledBack, rolledBackAt := some now } := by
  unfold rollbackOpt at h
  cases hget : getOptimization st id with
  | error e => rw [hget] at h; simp at h
  | ok r =>
    rw [hget] at h
    have h2 : rollbackCore ufail st doc now r = (none, st', doc') := h
    unfold rollbackCore at h2
    by_cases hst : r.status ≠ optStatusAccepted
    · rw [if_pos hst] at h2
      simp at h2
    · rw [if_neg hst] at h2
      push_neg at hst
      cases hf : findTargets r.targetFile doc with
      | error e => rw [hf] at h2; simp at h2
      | ok targets =>
        rw [hf] at h2
        cases hfd : targets.find? (fun t => t.tag = r.tag) with
        | none =>
          simp only [hfd] at h2
          simp at h2
        | some target =>
          simp only [hfd] at h2
          cases hr : replaceTarget doc target r.previousContent with
          | error e => rw [hr] at h2; simp at h2
          | ok doc2 =>
            simp only [hr] at h2
            cases hu : updateOptimization ufail st
                { r with
                  status := optStatusRolledBack, rolledBackAt := some now } with
            | error e => rw [hu] at h2; simp at h2
            | ok st2 =>
              rw [hu] at h2
              simp at h2
              unfold updateOptimization at hu
              cases hsg : storeGet st ({ r with
                  status := optStatusRolledBack, rolledBackAt := some now } :
                  OptimizationRecord).id with
              | none => rw [hsg] at hu; simp at hu
              | some rold =>
                rw [hsg] at hu
                cases ufail with
                | true => simp at hu
                | false =>
                  simp at hu
                  exact ⟨r, targets, target, rold, rfl, hst, hf, hfd,
                    by rw [← h2.2]; exact hr, hsg, rfl, by rw [← h2.1, ← hu]⟩

theorem putRecord_get (st : Store) (r : OptimizationRecord) :
    getOptimization (putRecord st r).1 r.id = .ok r := by
  unfold putRecord getOptimization
  rw [storeGet_put]

/-- `SaveProposal` with a non-empty record ID stores a `proposed` record at
that ID unconditionally, whatever was there before. -/
theorem saveProposal_get (st : Store) (nid : List Char) (n2 : Nat)
    (recordID fp tg pc nc : List Char) (h : recordID ≠ []) :
    ∃ r', getOptimization (saveProposal st nid n2 recordID fp tg pc nc).1
        recordID = .ok r' ∧ r'.status = optStatusProposed := by
  unfold saveProposal createOptimization
  simp only []
  rw [if_neg h]
  exact ⟨_, putRecord_get st _, rfl⟩

/-- `Apply` when the final store update fails: the document is already
rewritten, the store is untouched. -/
theorem applyOpt_update_fails {st : Store} {doc id : List Char} {now : Nat}
    {r rold : OptimizationRecord} {ts : List OptimizationTarget}
    {target : OptimizationTarget} {doc2 : List Char}
    (hget : getOptimization st id = .ok r)
    (hst : r.status = optStatusProposed)
    (hfind : findTargets r.targetFile doc = .ok ts)
    (hfirst : ts.find? (fun t => t.tag = r.tag) = some target)
    (hrepl : replaceTarget doc target r.newContent = .ok doc2)
    (hsgr : storeGet st r.id = some rold) :
    applyOpt true st doc id now = (some ("update failed").data, st, doc2) := by
  have hup : updateOptimization true st
      { r with status := optStatusAccepted, appliedAt := some now } =
      .error ("update failed").data := by
    unfold updateOptimization
    have hidr : ({ r with
        status := optStatusAccepted, appliedAt := some now } :
        OptimizationRecord).id = r.id := rfl
    rw [hidr, hsgr]
    rfl
  unfold applyOpt
  rw [hget]
  show applyCore true st doc now r = _
  unfold applyCore
  simp only [hfind, hfirst, hrepl]
  rw [if_neg (show ¬(r.status ≠ optStatusProposed) by simp [hst])]
  rw [hup]

/-- `Rollback` when the final store update fails: the document is already
rewritten, the store is untouched. -/
theorem rollbackOpt_update_fails {st : Store} {doc id : List Char} {now : Nat}
    {r rold : OptimizationRecord} {ts : List OptimizationTarget}
    {target : OptimizationTarget} {doc2 : List Char}
    (hget : getOptimization st id = .ok r)
    (hst : r.status = optStatusAccepted)
    (hfind : findTargets r.targetFile doc = .ok ts)
    (hfirst : ts.find? (fun t => t.tag = r.tag) = some target)
    (hrepl : replaceTarget doc target r.previousContent = .ok doc2)
    (hsgr : storeGet st r.id = some rold) :
    rollbackOpt true st doc id now
      = (some ("update failed").data, st, doc2) := by
  have hup : updateOptimization true st
      { r with status := optStatusRolledBack, rolledBackAt := some now } =
      .error ("update failed").data := by
    unfold updateOptimization
    have hidr : ({ r with
        status := optStatusRolledBack, rolledBackAt := some now } :
        OptimizationRecord).id = r.id := rfl
    rw [hidr, hsgr]
    rfl
  unfold rollbackOpt
  rw [hget]
  show rollbackCore true st doc now r = _
  unfold rollbackCore
  simp only [hfind, hfirst, hrepl]
  rw [if_neg (show ¬(r.status ≠ optStatusAccepted) by simp [hst])]
  rw [hup]

/-- **C1** (corrected).  `Apply`, `Reject` and `Rollback` do follow the
claimed finite state machine: a record that is not `proposed` makes `Apply`
and `Reject` fail with the not-proposed error and one that is not
`accepted` makes `Rollback` fail with the not-applied error, in both cases
leaving store and document untouched; every successful `Apply` moves
`proposed → accepted`, every successful `Reject` moves
`proposed → rejected`, and every successful `Rollback` moves
`accepted → rolled_back`.  But the claim's final clause is FALSE:
`SaveProposal` persists through `BoltStore.CreateOptimization`, whose
`b.Put` is unconditional, so saving with an existing record's ID replaces
that record with a fresh `proposed` one whatever its status — an
`accepted → proposed` edge outside the claimed machine (see
`C1_save_overwrites_counterexample`). -/
theorem C1_status_fsm (ufail : Bool) (st : Store) (doc id : List Char)
    (now : Nat) (r : OptimizationRecord)
    (hget : getOptimization st id = .ok r) (hid : r.id = id) :
    (r.status ≠ optStatusProposed →
      applyOpt ufail st doc id now
        = (some ("optimization is not in proposed status").data, st, doc) ∧
      rejectOpt ufail st id
        = (some ("optimization is not in proposed status").data, st)) ∧
    (r.status ≠ optStatusAccepted →
      rollbackOpt ufail st doc id now
        = (some ("optimization is not in accepted status").data, st, doc)) ∧
    (∀ st' doc', applyOpt ufail st doc id now = (none, st', doc') →
      r.status = optStatusProposed ∧
      getOptimization st' id
        = .ok { r with status := optStatusAccepted, appliedAt := some now }) ∧
    (∀ st', rejectOpt ufail st id = (none, st') →
      r.status = optStatusProposed ∧
      getOptimization st' id = .ok { r with status := optStatusRejected }) ∧
    (∀ st' doc', rollbackOpt ufail st doc id now = (none, st', doc') →
      r.status = optStatusAccepted ∧
      getOptimization st' id = .ok { r with
        status := optStatusRolledBack, rolledBackAt := some now }) ∧
    (id ≠ [] → ∀ nid n2 fp tg pc nc,
      ∃ r', getOptimization (saveProposal st nid n2 id fp tg pc nc).1 id
          = .ok r' ∧ r'.status = optStatusProposed) := by
  refine ⟨(lifecycle_wrong_status ufail hget).1,
    (lifecycle_wrong_status ufail hget).2, ?_, ?_, ?_,
    fun h0 nid n2 fp tg pc nc => saveProposal_get st nid n2 id fp tg pc nc h0⟩
  · intro st' doc' h
    obtain ⟨r0, ts, target, rold, hget0, hst0, -, -, -, -, -, hput⟩ :=
      applyOpt_none_inv h
    rw [hget] at hget0
    obtain rfl : r = r0 := by injection hget0
    refine ⟨hst0, ?_⟩
    rw [hput, hid]
    unfold getOptimization
    rw [storeGet_put]
  · intro st' h
    obtain ⟨r0, hget0, hst0, -, hput⟩ := rejectOpt_none_inv h
    rw [hget] at hget0
    obtain rfl : r = r0 := by injection hget0
    refine ⟨hst0, ?_⟩
    rw [hput, hid]
    unfold getOptimization
    rw [storeGet_put]
  · intro st' doc' h
    obtain ⟨r0, ts, target, rold, hget0, hst0, -, -, -, -, -, hput⟩ :=
      rollbackOpt_none_inv h
    rw [hget] at hget0
    obtain rfl : r = r0 := by injection hget0
    refine ⟨hst0, ?_⟩
    rw [hput, hid]
    unfold getOptimization
    rw [storeGet_put]

/-- **C1** witness: on a store whose record `X` is `accepted`, `Apply` and
`Reject` fail with the not-proposed error and change nothing. -/
theorem C1_status_fsm_witness :
    applyOpt false c1st2 c1doc2 "X".data 7
      = (some ("optimization is not in proposed status").data, c1st2, c1doc2) ∧
    rejectOpt false c1st2 "X".data
      = (some ("optimization is not in proposed status").data, c1st2) :=
  (C1_status_fsm false c1st2 c1doc2 "X".data 7 _ (by rfl) (by rfl)).1 (by decide)

/-- **C1** counterexample: `Apply` turns record `X` `accepted`, yet
`SaveProposal` with the same ID afterwards silently replaces it with a
fresh `proposed` record — an `accepted → proposed` transition through
`Save`. -/
theorem C1_save_overwrites_counterexample :
    (applyOpt false c1st1 c1doc "X".data 5).1 = none ∧
    (∃ r, getOptimization c1st2 "X".data = .ok r ∧
      r.status = optStatusAccepted) ∧
    (∃ r, getOptimization
        (saveProposal c1st2 "Z".data 9 "X".data c1fp "t".data
          "o2".data "n2".data).1 "X".data = .ok r ∧
      r.status = optStatusProposed) :=
  ⟨by rfl, ⟨_, by rfl, by rfl⟩, ⟨_, by rfl, by rfl⟩⟩

/-- **C10** (confirmed).  `Apply` and `Rollback` rewrite the target document
first and persist the status only afterwards: whenever the non-faulty run
succeeds, the same run with a failing store update returns the update
error with the document already holding the new (respectively previous)
region content while the store — hence the record's status — is exactly as
before the call. -/
theorem C10_doc_store_nonatomic (st : Store) (doc id : List Char) (now : Nat) :
    (∀ st' doc', applyOpt false st doc id now = (none, st', doc') →
      applyOpt true st doc id now
        = (some ("update failed").data, st, doc')) ∧
    (∀ st' doc', rollbackOpt false st doc id now = (none, st', doc') →
      rollbackOpt true st doc id now
        = (some ("update failed").data, st, doc')) := by
  constructor
  · intro st' doc' h
    obtain ⟨r, ts, target, rold, hget, hst, hfind, hfirst, hrepl, hsgr, -, -⟩ :=
      applyOpt_none_inv h
    exact applyOpt_update_fails hget hst hfind hfirst hrepl hsgr
  · intro st' doc' h
    obtain ⟨r, ts, target, rold, hget, hst, hfind, hfirst, hrepl, hsgr, -, -⟩ :=
      rollbackOpt_none_inv h
    exact rollbackOpt_update_fails hget hst hfind hfirst hrepl hsgr

/-- **C10** witness: on the concrete proposed record `X`, the faulty run
returns the update error with the document already rewritten and the store
unchanged. -/
theorem C10_doc_store_nonatomic_witness :
    applyOpt true c1st1 c1doc "X".data 5
      = (some ("update failed").data, c1st1, c1doc2) :=
  (C10_doc_store_nonatomic c1st1 c1doc "X".data 5).1 c1st2 c1doc2 (by rfl)

/-- Replacing a found region's body and then replacing the re-found
region's body (lines `startLine .. startLine + |splitNL X| + 1`) with the
originally recorded content restores the original document, provided the
recorded content plus one newline equals the raw body bytes. -/
theorem replace_restore {fp doc X : List Char}
    {ts ts₁ ts₂ : List OptimizationTarget} {t : OptimizationTarget}
    (h : findTargets fp doc = .ok ts) (hts : ts = ts₁ ++ t :: ts₂)
    (hexact : flatJoin (((splitNL doc).drop t.startLine).take
        (t.endLine - 1 - t.startLine)) = t.content ++ ['\n']) :
    replaceContent (replaceContent doc t.startLine t.endLine X)
      t.startLine (t.startLine + (splitNL X).length + 1) t.content = doc := by
  obtain ⟨Pre, sl, B, el, C, attrs, tg, ms, hSL, hPre, hsl, hpa, hB, hsel,
    heel, ht, hrunC⟩ := findTargets_decomp h hts
  obtain ⟨t0, hsp, ht0⟩ := scanLines_spec doc
  have hs : t.startLine = 1 + Pre.length := by rw [ht]; rfl
  have he : t.endLine = 1 + Pre.length + B.length + 1 := by rw [ht]; rfl
  have hL : splitNL doc = Pre ++ sl :: (B ++ el :: (C ++ t0)) := by
    rw [hsp, hSL]
    simp [List.append_assoc]
  have hnl : ∀ l ∈ splitNL doc, '\n' ∉ l := splitNL_no_newline doc
  have htake : (splitNL doc).take t.startLine = Pre ++ [sl] := by
    rw [hs, hL, Nat.add_comm 1 Pre.length]
    exact take_append_cons Pre sl _
  have hdrop : (splitNL doc).drop (t.endLine - 1) = el :: (C ++ t0) := by
    rw [he, hL]
    have harr : Pre ++ sl :: (B ++ el :: (C ++ t0))
        = (Pre ++ sl :: B) ++ (el :: (C ++ t0)) := by simp
    rw [harr]
    have hlen : 1 + Pre.length + B.length + 1 - 1 = (Pre ++ sl :: B).length := by
      simp
      omega
    rw [hlen, List.drop_left]
  have hnewdoc : replaceContent doc t.startLine t.endLine X
      = flatJoin (Pre ++ [sl]) ++ X ++ '\n' :: joinNL (el :: (C ++ t0)) := by
    show flatJoin ((splitNL doc).take t.startLine) ++ X ++
        '\n' :: joinNL ((splitNL doc).drop (t.endLine - 1))
      = flatJoin (Pre ++ [sl]) ++ X ++ '\n' :: joinNL (el :: (C ++ t0))
    rw [htake, hdrop]
  have hnlPre : ∀ l ∈ Pre ++ [sl], '\n' ∉ l := by
    intro l hl
    refine hnl l ?_
    rw [hL]
    rcases List.mem_append.mp hl with h' | h'
    · exact List.mem_append.mpr (Or.inl h')
    · simp at h'
      subst h'
      simp
  have hnlSuf : ∀ l ∈ el :: (C ++ t0), '\n' ∉ l := by
    intro l hl
    refine hnl l ?_
    rw [hL]
    have hmem : l ∈ B ++ el :: (C ++ t0) := List.mem_append.mpr (Or.inr hl)
    exact List.mem_append.mpr (Or.inr (List.mem_cons_of_mem _ hmem))
  have hsplitnew : splitNL (replaceContent doc t.startLine t.endLine X)
      = (Pre ++ [sl]) ++ (splitNL X ++ el :: (C ++ t0)) := by
    rw [hnewdoc, List.append_assoc, splitNL_flatJoin_append hnlPre,
      splitNL_append_newline, splitNL_joinNL _ (by simp) hnlSuf]
  have htake1 : (splitNL (replaceContent doc t.startLine t.endLine X)).take
      t.startLine = Pre ++ [sl] := by
    rw [hsplitnew, hs]
    have hlen : 1 + Pre.length = (Pre ++ [sl]).length := by
      simp
      omega
    rw [hlen, List.take_left]
  have hdrop1 : (splitNL (replaceContent doc t.startLine t.endLine X)).drop
      (t.startLine + (splitNL X).length + 1 - 1) = el :: (C ++ t0) := by
    rw [hsplitnew, hs]
    have harr : (Pre ++ [sl]) ++ (splitNL X ++ el :: (C ++ t0))
        = ((Pre ++ [sl]) ++ splitNL X) ++ (el :: (C ++ t0)) := by
      simp [List.append_assoc]
    rw [harr]
    have hlen : 1 + Pre.length + (splitNL X).length + 1 - 1
        = ((Pre ++ [sl]) ++ splitNL X).length := by
      simp
      omega
    rw [hlen, List.drop_left]
  have hLHS : replaceContent (replaceContent doc t.startLine t.endLine X)
      t.startLine (t.startLine + (splitNL X).length + 1) t.content
      = flatJoin (Pre ++ [sl]) ++ t.content ++
        '\n' :: joinNL (el :: (C ++ t0)) := by
    show flatJoin ((splitNL (replaceContent doc t.startLine t.endLine X)).take
        t.startLine) ++ t.content ++
      '\n' :: joinNL ((splitNL (replaceContent doc t.startLine t.endLine X)).drop
        (t.startLine + (splitNL X).length + 1 - 1))
      = flatJoin (Pre ++ [sl]) ++ t.content ++ '\n' :: joinNL (el :: (C ++ t0))
    rw [htake1, hdrop1]
  have hlenL : t.endLine ≤ (splitNL doc).length := by
    rw [he, hL]
    simp
    omega
  have hdocdecomp : doc = flatJoin (Pre ++ [sl]) ++ (t.content ++ ['\n']) ++
      joinNL (el :: (C ++ t0)) := by
    have hb1 : 1 ≤ t.startLine := by omega
    have hb2 : t.startLine < t.endLine := by omega
    conv_lhs => rw [← joinNL_splitNL doc]
    rw [joinNL_decomp hb1 hb2 hlenL, htake, hdrop, hexact]
  rw [hLHS, hdocdecomp]
  simp [List.append_assoc]

theorem find?_split {α : Type} {p : α → Bool} {l : List α} {a : α}
    (h : l.find? p = some a) :
    p a = true ∧ ∃ l₁ l₂, l = l₁ ++ a :: l₂ ∧ ∀ x ∈ l₁, p x = false := by
  induction l with
  | nil => simp at h
  | cons x xs ih =>
    cases hp : p x with
    | true =>
      rw [List.find?_cons_of_pos _ hp] at h
      obtain rfl : x = a := by injection h
      exact ⟨hp, [], xs, rfl, by simp⟩
    | false =>
      rw [List.find?_cons_of_neg _ (by simp [hp])] at h
      obtain ⟨hpa, l₁, l₂, rfl, hl₁⟩ := ih h
      refine ⟨hpa, x :: l₁, l₂, rfl, ?_⟩
      intro y hy
      rcases List.mem_cons.mp hy with rfl | hy
      · exact hp
      · exact hl₁ y hy

theorem find?_append_first {α : Type} {p : α → Bool} {l₁ l₂ : List α} {a : α}
    (h₁ : ∀ x ∈ l₁, p x = false) (ha : p a = true) :
    (l₁ ++ a :: l₂).find? p = some a := by
  induction l₁ with
  | nil =>
    rw [List.nil_append, List.find?_cons_of_pos _ ha]
  | cons x xs ih =>
    rw [List.cons_append,
      List.find?_cons_of_neg _ (by simp [h₁ x (List.mem_cons_self x xs)])]
    exact ih (fun y hy => h₁ y (List.mem_cons_of_mem x hy))

/-- **C6** (corrected).  For a `proposed` record whose target document
contains the record's tag, `apply → rollback → apply → rollback` ends with
exactly the original document bytes PROVIDED (i) the record's
`PreviousContent` is the found region's recorded content (as `Propose`
sets it), (ii) the new content's lines contain no markers, and (iii) the
raw body bytes equal the recorded content plus one newline — i.e. the body
survives the scanner's per-line CR-stripping and the `TrimSpace` applied
when the content was recorded.  Without (iii) the round-trip does NOT
restore the bytes (see `C6_roundtrip_counterexample`): rollback writes
back the trimmed content, not the original body.  The second apply and
second rollback fail (the record is `rolled_back`) and leave the restored
document untouched. -/
theorem C6_double_apply_rollback
    (st : Store) (doc id : List Char) (n1 n2 n3 n4 : Nat)
    (r : OptimizationRecord) (ts : List OptimizationTarget)
    (target : OptimizationTarget)
    (hget : getOptimization st id = .ok r) (hid : r.id = id)
    (hst : r.status = optStatusProposed)
    (hfind : findTargets r.targetFile doc = .ok ts)
    (hfirst : ts.find? (fun t => t.tag = r.tag) = some target)
    (hprev : r.previousContent = target.content)
    (hN : ∀ l ∈ splitNL r.newContent, NonMarker l)
    (hexact : flatJoin (((splitNL doc).drop target.startLine).take
        (target.endLine - 1 - target.startLine)) = target.content ++ ['\n']) :
    ∃ st1 doc1 st2, applyOpt false st doc id n1 = (none, st1, doc1) ∧
      rollbackOpt false st1 doc1 id n2 = (none, st2, doc) ∧
      applyOpt false st2 doc id n3
        = (some ("optimization is not in proposed status").data, st2, doc) ∧
      rollbackOpt false st2 doc id n4
        = (some ("optimization is not in accepted status").data, st2, doc) := by
  obtain ⟨hptag, ts₁, ts₂, hts, hl₁⟩ := find?_split hfirst
  have htageq : target.tag = r.tag := of_decide_eq_true hptag
  have hmem : target ∈ ts := by
    rw [hts]
    exact List.mem_append.mpr (Or.inr (List.mem_cons_self _ _))
  have hrepl : replaceTarget doc target r.newContent
      = .ok (replaceContent doc target.startLine target.endLine r.newContent) :=
    replaceTarget_found hfind hmem r.newContent
  have happly : applyOpt false st doc id n1
      = (none, storePut st id
          { r with status := optStatusAccepted, appliedAt := some n1 },
        replaceContent doc target.startLine target.endLine r.newContent) :=
    applyOpt_run false hget hid hst hfind hfirst hrepl
  obtain ⟨ds, hfind1⟩ := replace_rescan hfind hts hN
  have hget1 : getOptimization (storePut st id
      { r with status := optStatusAccepted, appliedAt := some n1 }) id
      = .ok { r with status := optStatusAccepted, appliedAt := some n1 } := by
    unfold getOptimization
    rw [storeGet_put]
  have hfirst1 : (ts₁ ++ mkTarget r.targetFile
      ⟨target.tag, target.minSessions, target.startLine,
        bodyFold [] (splitNL r.newContent)⟩
      (target.startLine + (splitNL r.newContent).length + 1) :: ds).find?
      (fun t => t.tag = r.tag) = some (mkTarget r.targetFile
      ⟨target.tag, target.minSessions, target.startLine,
        bodyFold [] (splitNL r.newContent)⟩
      (target.startLine + (splitNL r.newContent).length + 1)) :=
    find?_append_first (fun x hx => hl₁ x hx)
      (decide_eq_true (show (mkTarget r.targetFile
        ⟨target.tag, target.minSessions, target.startLine,
          bodyFold [] (splitNL r.newContent)⟩
        (target.startLine + (splitNL r.newContent).length + 1)).tag = r.tag
        from htageq))
  have hmem1 : mkTarget r.targetFile
      ⟨target.tag, target.minSessions, target.startLine,
        bodyFold [] (splitNL r.newContent)⟩
      (target.startLine + (splitNL r.newContent).length + 1)
      ∈ ts₁ ++ mkTarget r.targetFile
      ⟨target.tag, target.minSessions, target.startLine,
        bodyFold [] (splitNL r.newContent)⟩
      (target.startLine + (splitNL r.newContent).length + 1) :: ds :=
    List.mem_append.mpr (Or.inr (List.mem_cons_self _ _))
  have hrestore := replace_restore (X := r.newContent) hfind hts hexact
  have hrepl1 : replaceTarget
      (replaceContent doc target.startLine target.endLine r.newContent)
      (mkTarget r.targetFile
        ⟨target.tag, target.minSessions, target.startLine,
          bodyFold [] (splitNL r.newContent)⟩
        (target.startLine + (splitNL r.newContent).length + 1))
      ({ r with
        status := optStatusAccepted, appliedAt := some n1 } :
        OptimizationRecord).previousContent
      = .ok doc := by
    have hfound := replaceTarget_found hfind1 hmem1
      ({ r with
        status := optStatusAccepted, appliedAt := some n1 } :
        OptimizationRecord).previousContent
    rw [hfound]
    show Except.ok (replaceContent
      (replaceContent doc target.startLine target.endLine r.newContent)
      target.startLine
      (target.startLine + (splitNL r.newContent).length + 1)
      r.previousContent) = Except.ok doc
    rw [hprev, hrestore]
  have hrollback : rollbackOpt false
      (storePut st id
        { r with status := optStatusAccepted, appliedAt := some n1 })
      (replaceContent doc target.startLine target.endLine r.newContent) id n2
      = (none, storePut (storePut st id
          { r with status := optStatusAccepted, appliedAt := some n1 }) id
          { r with status := optStatusRolledBack, appliedAt := some n1, rolledBackAt := some n2 }, doc) :=
    rollbackOpt_run false hget1 hid rfl hfind1 hfirst1 hrepl1
  have hget2 : getOptimization (storePut (storePut st id
      { r with status := optStatusAccepted, appliedAt := some n1 }) id
      { r with status := optStatusRolledBack, appliedAt := some n1, rolledBackAt := some n2 }) id
      = .ok { r with status := optStatusRolledBack, appliedAt := some n1, rolledBackAt := some n2 } := by
    unfold getOptimization
    rw [storeGet_put]
  refine ⟨_, _, _, happly, hrollback, ?_, ?_⟩
  · exact ((lifecycle_wrong_status false hget2).1
      (show optStatusRolledBack ≠ optStatusProposed by decide)).1
  · exact (lifecycle_wrong_status false hget2).2
      (show optStatusRolledBack ≠ optStatusAccepted by decide)

/-- **C6** witness: the round-trip theorem applied to the concrete proposed
record `X` over `c1doc`, whose region body `old` is exactly the recorded
content. -/
theorem C6_double_apply_rollback_witness :
    ∃ st1 doc1 st2, applyOpt false c1st1 c1doc "X".data 1 = (none, st1, doc1) ∧
      rollbackOpt false st1 doc1 "X".data 2 = (none, st2, c1doc) ∧
      applyOpt false st2 c1doc "X".data 3
        = (some ("optimization is not in proposed status").data, st2, c1doc) ∧
      rollbackOpt false st2 c1doc "X".data 4
        = (some ("optimization is not in accepted status").data, st2, c1doc) :=
  C6_double_apply_rollback c1st1 c1doc "X".data 1 2 3 4 _ _ _
    (by rfl) (by rfl) (by rfl) (by rfl) (by rfl) (by rfl) (by decide) (by rfl)

/-- **C6** counterexample: with the leading-whitespace body `  old`, apply
followed by rollback succeeds but writes back the trimmed content, so the
document ends with body `old` — not the original bytes. -/
theorem C6_roundtrip_counterexample :
    c6app.1 = none ∧ c6rb.1 = none ∧
    c6rb.2.2 = ("<!-- trajectory-optimize:start tag=\"t\" -->\nold\n<!-- trajectory-optimize:end -->").data ∧
    c6rb.2.2 ≠ c6doc :=
  ⟨by rfl, by rfl, by rfl, by decide⟩

/-- **C7** (confirmed).  `Analyze` partitions the scored sessions by score:
the high cohort is exactly those with score ≥ 0.75, the low cohort exactly
those with score < 0.5 (everything else is counted in the total but mined
by neither cohort), the reported totals are the cohort sizes, and the
analysis succeeds only with at least `minSessions` scored sessions. -/
theorem C7_cohort_split (tag : List Char) (minSessions : Nat)
    (sessions : List Session) (A : TrajectoryAnalysis)
    (h : analyzeSessions tag minSessions sessions = .ok A) :
    minSessions ≤ (sessions.filter (fun s => s.outcome.isSome)).length ∧
    A.totalSessions = (sessions.filter (fun s => s.outcome.isSome)).length ∧
    A.highScoreSessions = ((sessions.filter (fun s => s.outcome.isSome)).filter
      (fun s => HighScoreThreshold ≤ sessionScore s)).length ∧
    A.lowScoreSessions = ((sessions.filter (fun s => s.outcome.isSome)).filter
      (fun s => sessionScore s < LowScoreThreshold)).length := by
  have h2 : (if (sessions.filter (fun s => s.outcome.isSome)).length
        < minSessions then
      (.error ("insufficient scored sessions for analysis").data :
        Except (List Char) TrajectoryAnalysis)
    else .ok
      { tag := tag,
        totalSessions := (sessions.filter (fun s => s.outcome.isSome)).length,
        highScoreSessions := ((sessions.filter (fun s => s.outcome.isSome)).filter
          (fun s => decide (HighScoreThreshold ≤ sessionScore s))).length,
        lowScoreSessions := ((sessions.filter (fun s => s.outcome.isSome)).filter
          (fun s => !decide (HighScoreThreshold ≤ sessionScore s) &&
            !decide (LowScoreThreshold ≤ sessionScore s))).length,
        avgScoreHigh := calculateAvgScore
          ((sessions.filter (fun s => s.outcome.isSome)).filter
            (fun s => decide (HighScoreThreshold ≤ sessionScore s))),
        avgScoreLow := calculateAvgScore
          ((sessions.filter (fun s => s.outcome.isSome)).filter
            (fun s => !decide (HighScoreThreshold ≤ sessionScore s) &&
              !decide (LowScoreThreshold ≤ sessionScore s))),
        curatedExamples := curateExamples
          ((sessions.filter (fun s => s.outcome.isSome)).filter
            (fun s => decide (HighScoreThreshold ≤ sessionScore s)))
          ((sessions.filter (fun s => s.outcome.isSome)).filter
            (fun s => !decide (HighScoreThreshold ≤ sessionScore s) &&
              !decide (LowScoreThreshold ≤ sessionScore s))) }) = .ok A := h
  by_cases hlen : (sessions.filter (fun s => s.outcome.isSome)).length
      < minSessions
  · rw [if_pos hlen] at h2
    simp at h2
  · rw [if_neg hlen] at h2
    injection h2 with h2
    subst h2
    have hfc : ∀ L : List Session, L.filter
        (fun s => !decide (HighScoreThreshold ≤ sessionScore s) &&
          !decide (LowScoreThreshold ≤ sessionScore s))
        = L.filter (fun s => sessionScore s < LowScoreThreshold) := by
      intro L
      refine List.filter_congr ?_
      intro s hs
      by_cases h1 : sessionScore s < LowScoreThreshold
      · have hLH : LowScoreThreshold ≤ HighScoreThreshold := by decide
        have h2' : ¬ HighScoreThreshold ≤ sessionScore s := by
          intro hc
          linarith
        have h3' : ¬ LowScoreThreshold ≤ sessionScore s := not_le.mpr h1
        simp [h1, h2', h3']
      · have h3' : LowScoreThreshold ≤ sessionScore s := not_lt.mp h1
        simp [h1, h3']
    refine ⟨by omega, rfl, rfl, ?_⟩
    show ((sessions.filter (fun s => s.outcome.isSome)).filter
        (fun s => !decide (HighScoreThreshold ≤ sessionScore s) &&
          !decide (LowScoreThreshold ≤ sessionScore s))).length
      = ((sessions.filter (fun s => s.outcome.isSome)).filter
        (fun s => decide (sessionScore s < LowScoreThreshold))).length
    rw [hfc]

/-- **C7** witness: the cohort theorem at the spec's example, which reports
`TotalSessions = 7`, `HighScoreSessions = 3`, `LowScoreSessions = 2`. -/
theorem C7_cohort_split_witness :
    (5 ≤ (c7sessions.filter (fun s => s.outcome.isSome)).length ∧
      c7A.totalSessions = (c7sessions.filter (fun s => s.outcome.isSome)).length ∧
      c7A.highScoreSessions
        = ((c7sessions.filter (fun s => s.outcome.isSome)).filter
          (fun s => HighScoreThreshold ≤ sessionScore s)).length ∧
      c7A.lowScoreSessions
        = ((c7sessions.filter (fun s => s.outcome.isSome)).filter
          (fun s => sessionScore s < LowScoreThreshold)).length) ∧
    c7A.totalSessions = 7 ∧ c7A.highScoreSessions = 3 ∧
    c7A.lowScoreSessions = 2 :=
  ⟨C7_cohort_split "t".data 5 c7sessions c7A (by rfl), by rfl, by decide, by decide⟩

/-- **C8** (corrected).  Curation appends at most ONE low-cohort example:
the one built from the first session with a non-empty summary in the
ascending-score order.  The claim's "exactly one whenever the low cohort is
non-empty" is FALSE: when no low session has a summary, no low example is
selected at all (see `C8_no_summary_counterexample`).  What holds: the low
part is empty exactly when every low session's summary is empty, and a
selected example comes from a summary-bearing low session whose score is
minimal among all summary-bearing low sessions. -/
theorem C8_low_curation (high low : List Session) :
    (∃ hp, curateExamples high low = hp ++ lowExamples low) ∧
    (lowExamples low).length ≤ 1 ∧
    (lowExamples low = [] ↔ ∀ s ∈ low, s.summary = []) ∧
    (∀ e, lowExamples low = [e] →
      ∃ s ∈ low, s.summary ≠ [] ∧ e = mkCuratedExample s ∧
        ∀ u ∈ low, u.summary ≠ [] → sessionScore s ≤ sessionScore u) := by
  refine ⟨⟨_, rfl⟩, ?_, ?_, ?_⟩
  · unfold lowExamples
    by_cases h0 : low = []
    · rw [if_pos h0]
      simp
    · rw [if_neg h0]
      cases hfd : (List.insertionSort ascScore low).find?
          (fun s => !s.summary.isEmpty) with
      | some s => simp
      | none => simp
  · unfold lowExamples
    by_cases h0 : low = []
    · rw [if_pos h0]
      subst h0
      simp
    · rw [if_neg h0]
      cases hfd : (List.insertionSort ascScore low).find?
          (fun s => !s.summary.isEmpty) with
      | some s =>
        constructor
        · intro hc
          exact absurd hc (by simp)
        · intro hall
          have hs := List.find?_some hfd
          have hmem := List.mem_of_find?_eq_some hfd
          have hmem2 : s ∈ low :=
            (List.perm_insertionSort ascScore low).mem_iff.mp hmem
          have hse : s.summary = [] := hall s hmem2
          rw [hse] at hs
          simp at hs
      | none =>
        constructor
        · intro _ s hs
          have hs2 : s ∈ List.insertionSort ascScore low :=
            (List.perm_insertionSort ascScore low).mem_iff.mpr hs
          have := List.find?_eq_none.mp hfd s hs2
          simpa using this
        · intro _
          rfl
  · intro e he
    unfold lowExamples at he
    by_cases h0 : low = []
    · rw [if_pos h0] at he
      exact absurd he (by simp)
    · rw [if_neg h0] at he
      cases hfd : (List.insertionSort ascScore low).find?
          (fun s => !s.summary.isEmpty) with
      | none =>
        rw [hfd] at he
        exact absurd he (by simp)
      | some s =>
        rw [hfd] at he
        have heq : mkCuratedExample s = e := by
          have := List.cons.injEq (mkCuratedExample s) [] e [] ▸ he
          simpa using he
        obtain ⟨hps, l₁, l₂, hsplit, hl₁⟩ := find?_split hfd
        have hmem : s ∈ low := by
          refine (List.perm_insertionSort ascScore low).mem_iff.mp ?_
          rw [hsplit]
          exact List.mem_append.mpr (Or.inr (List.mem_cons_self _ _))
        refine ⟨s, hmem, by simpa using hps, heq.symm, ?_⟩
        intro u hu husum
        have hu2 : u ∈ List.insertionSort ascScore low :=
          (List.perm_insertionSort ascScore low).mem_iff.mpr hu
        rw [hsplit] at hu2
        rcases List.mem_append.mp hu2 with hu3 | hu3
        · have := hl₁ u hu3
          simp at this
          exact absurd this husum
        · rcases List.mem_cons.mp hu3 with rfl | hu4
          · exact le_refl _
          · have hsorted : List.Sorted ascScore
                (List.insertionSort ascScore low) :=
              List.sorted_insertionSort ascScore low
            rw [hsplit] at hsorted
            exact (List.pairwise_cons.mp
              (List.pairwise_append.mp hsorted).2.1).1 u hu4

/-- **C8** witness: on `c8low` the curation theorem yields the 0.4 session —
the lowest-scoring one that has a summary. -/
theorem C8_low_curation_witness :
    ∃ s ∈ c8low, s.summary ≠ [] ∧
      mkCuratedExample
        ⟨"u2".data, "q2".data, "bad".data, some ⟨mkRat 2 5, []⟩⟩
        = mkCuratedExample s ∧
      ∀ u ∈ c8low, u.summary ≠ [] → sessionScore s ≤ sessionScore u :=
  (C8_low_curation [] c8low).2.2.2
    (mkCuratedExample ⟨"u2".data, "q2".data, "bad".data, some ⟨mkRat 2 5, []⟩⟩)
    (by rfl)

/-- **C8** counterexample: the low cohort is non-empty, yet curation selects
NO low example, because no low session has a summary. -/
theorem C8_no_summary_counterexample :
    c8nolow ≠ [] ∧ curateExamples [] c8nolow = [] :=
  ⟨by decide, by rfl⟩

theorem rotateLoop_cases (stats : List (List Char × Strategy)) :
    ∀ (rest : List Strategy) (sel : Option Strategy) (m : Nat),
    (rotateLoop stats rest sel m = sel ∧ ∀ x ∈ rest, m ≤ usageOf stats x) ∨
    (∃ s ∈ rest, rotateLoop stats rest sel m = some (withCount stats s) ∧
      usageOf stats s < m ∧ ∀ x ∈ rest, usageOf stats s ≤ usageOf stats x) := by
  intro rest
  induction rest with
  | nil =>
    intro sel m
    exact Or.inl ⟨rfl, by simp⟩
  | cons strat rest ih =>
    intro sel m
    by_cases hc : usageOf stats strat < m
    · rw [show rotateLoop stats (strat :: rest) sel m
          = rotateLoop stats rest (some (withCount stats strat))
            (usageOf stats strat) from by rw [rotateLoop, if_pos hc]]
      rcases ih (some (withCount stats strat)) (usageOf stats strat) with
        ⟨heq, hge⟩ | ⟨s, hs, heq, hlt, hmin⟩
      · refine Or.inr ⟨strat, List.mem_cons_self _ _, heq, hc, ?_⟩
        intro x hx
        rcases List.mem_cons.mp hx with rfl | hx
        · exact le_refl _
        · exact hge x hx
      · refine Or.inr ⟨s, List.mem_cons_of_mem _ hs, heq, lt_trans hlt hc, ?_⟩
        intro x hx
        rcases List.mem_cons.mp hx with rfl | hx
        · exact le_of_lt hlt
        · exact hmin x hx
    · rw [show rotateLoop stats (strat :: rest) sel m
          = rotateLoop stats rest sel m from by rw [rotateLoop, if_neg hc]]
      rcases ih sel m with ⟨heq, hge⟩ | ⟨s, hs, heq, hlt, hmin⟩
      · refine Or.inl ⟨heq, ?_⟩
        intro x hx
        rcases List.mem_cons.mp hx with rfl | hx
        · exact le_of_not_lt hc
        · exact hge x hx
      · refine Or.inr ⟨s, List.mem_cons_of_mem _ hs, heq, hlt, ?_⟩
        intro x hx
        rcases List.mem_cons.mp hx with rfl | hx
        · exact le_trans (le_of_lt hlt) (le_of_not_lt hc)
        · exact hmin x hx

theorem recommendLoop_cons_some {stats : List (List Char × Strategy)}
    {strat : Strategy} {rest : List Strategy} {best : Option Strategy}
    {bscore : ℚ} {stat : Strategy}
    (hsg : statsGet stats strat.name = some stat) :
    recommendLoop stats (strat :: rest) best bscore
      = if 2 ≤ stat.sessionCount then
          (if bscore < stat.avgScore then
            recommendLoop stats rest (some { strat with
              avgScore := stat.avgScore, sessionCount := stat.sessionCount })
              stat.avgScore
          else recommendLoop stats rest best bscore)
        else recommendLoop stats rest best bscore := by
  rw [recommendLoop, hsg]

theorem recommendLoop_cons_none {stats : List (List Char × Strategy)}
    {strat : Strategy} {rest : List Strategy} {best : Option Strategy}
    {bscore : ℚ} (hsg : statsGet stats strat.name = none) :
    recommendLoop stats (strat :: rest) best bscore
      = recommendLoop stats rest best bscore := by
  rw [recommendLoop, hsg]

theorem recommendLoop_cases (stats : List (List Char × Strategy)) :
    ∀ (rest : List Strategy) (best : Option Strategy) (bscore : ℚ),
    (recommendLoop stats rest best bscore = best ∧
      ∀ x ∈ rest, ∀ st, qualOf stats x = some st → st.avgScore ≤ bscore) ∨
    (∃ s ∈ rest, ∃ st, qualOf stats s = some st ∧
      recommendLoop stats rest best bscore
        = some { s with
            avgScore := st.avgScore, sessionCount := st.sessionCount } ∧
      bscore < st.avgScore ∧
      ∀ x ∈ rest, ∀ stx, qualOf stats x = some stx →
        stx.avgScore ≤ st.avgScore) := by
  intro rest
  induction rest with
  | nil =>
    intro best bscore
    exact Or.inl ⟨rfl, by simp⟩
  | cons strat rest ih =>
    intro best bscore
    cases hsg : statsGet stats strat.name with
    | none =>
      have hq : qualOf stats strat = none := by
        unfold qualOf
        rw [hsg]
      rw [recommendLoop_cons_none hsg]
      rcases ih best bscore with ⟨heq, hub⟩ | ⟨s, hs, st, hq2, heq, hlt, hub⟩
      · refine Or.inl ⟨heq, ?_⟩
        intro x hx st hst
        rcases List.mem_cons.mp hx with rfl | hx
        · rw [hq] at hst
          exact absurd hst (by simp)
        · exact hub x hx st hst
      · refine Or.inr ⟨s, List.mem_cons_of_mem _ hs, st, hq2, heq, hlt, ?_⟩
        intro x hx stx hstx
        rcases List.mem_cons.mp hx with rfl | hx
        · rw [hq] at hstx
          exact absurd hstx (by simp)
        · exact hub x hx stx hstx
    | some stat =>
      by_cases hcnt : 2 ≤ stat.sessionCount
      · have hq : qualOf stats strat = some stat := by
          unfold qualOf
          rw [hsg]
          show (if 2 ≤ stat.sessionCount then some stat else none) = some stat
          rw [if_pos hcnt]
        by_cases hsc : bscore < stat.avgScore
        · rw [recommendLoop_cons_some hsg, if_pos hcnt, if_pos hsc]
          rcases ih (some { strat with
              avgScore := stat.avgScore,
              sessionCount := stat.sessionCount }) stat.avgScore with
            ⟨heq, hub⟩ | ⟨s, hs, st, hq2, heq, hlt, hub⟩
          · refine Or.inr ⟨strat, List.mem_cons_self _ _, stat, hq, heq,
              hsc, ?_⟩
            intro x hx stx hstx
            rcases List.mem_cons.mp hx with rfl | hx
            · rw [hq] at hstx
              obtain rfl : stat = stx := by injection hstx
              exact le_refl _
            · exact hub x hx stx hstx
          · refine Or.inr ⟨s, List.mem_cons_of_mem _ hs, st, hq2, heq,
              lt_trans hsc hlt, ?_⟩
            intro x hx stx hstx
            rcases List.mem_cons.mp hx with rfl | hx
            · rw [hq] at hstx
              obtain rfl : stat = stx := by injection hstx
              exact le_of_lt hlt
            · exact hub x hx stx hstx
        · rw [recommendLoop_cons_some hsg, if_pos hcnt, if_neg hsc]
          rcases ih best bscore with ⟨heq, hub⟩ | ⟨s, hs, st, hq2, heq, hlt, hub⟩
          · refine Or.inl ⟨heq, ?_⟩
            intro x hx stx hstx
            rcases List.mem_cons.mp hx with rfl | hx
            · rw [hq] at hstx
              obtain rfl : stat = stx := by injection hstx
              exact le_of_not_lt hsc
            · exact hub x hx stx hstx
          · refine Or.inr ⟨s, List.mem_cons_of_mem _ hs, st, hq2, heq, hlt, ?_⟩
            intro x hx stx hstx
            rcases List.mem_cons.mp hx with rfl | hx
            · rw [hq] at hstx
              obtain rfl : stat = stx := by injection hstx
              exact le_trans (le_of_not_lt hsc) (le_of_lt hlt)
            · exact hub x hx stx hstx
      · have hq : qualOf stats strat = none := by
          unfold qualOf
          rw [hsg]
          show (if 2 ≤ stat.sessionCount then some stat else none) = none
          rw [if_neg hcnt]
        rw [recommendLoop_cons_some hsg, if_neg hcnt]
        rcases ih best bscore with ⟨heq, hub⟩ | ⟨s, hs, st, hq2, heq, hlt, hub⟩
        · refine Or.inl ⟨heq, ?_⟩
          intro x hx stx hstx
          rcases List.mem_cons.mp hx with rfl | hx
          · rw [hq] at hstx
            exact absurd hstx (by simp)
          · exact hub x hx stx hstx
        · refine Or.inr ⟨s, List.mem_cons_of_mem _ hs, st, hq2, heq, hlt, ?_⟩
          intro x hx stx hstx
          rcases List.mem_cons.mp hx with rfl | hx
          · rw [hq] at hstx
            exact absurd hstx (by simp)
          · exact hub x hx stx hstx

/-- **C9** (corrected).  `recommend` behaves as claimed: when no declared
strategy qualifies (fewer than 2 recorded usages), it falls back to the
first declared strategy; when some strategy qualifies (scores being
non-negative), it selects a qualifying one whose mean dominates every
qualifying mean.  `rotate` selects a declared strategy with the fewest
recorded usages — but only because of a sentinel: its minimum starts at
999999, not at infinity, so when every declared strategy has at least
999999 recorded usages the loop selects NOTHING (a nil dereference in the
original Go; see `C9_sentinel_counterexample`), instead of the
fewest-used strategy the claim promises.  The theorem therefore carries
the hypothesis that some strategy has fewer than 999999 usages. -/
theorem C9_strategy_selection (strategies : List Strategy)
    (stats : List (List Char × Strategy)) (first : Strategy)
    (hne : strategies.head? = some first) :
    ((∀ x ∈ strategies, qualOf stats x = none) →
      selectRecommend strategies stats = some first) ∧
    ((∀ x ∈ strategies, ∀ st, qualOf stats x = some st → 0 ≤ st.avgScore) →
      (∃ x ∈ strategies, qualOf stats x ≠ none) →
      ∃ s ∈ strategies, ∃ st, qualOf stats s = some st ∧
        selectRecommend strategies stats = some { s with
          avgScore := st.avgScore, sessionCount := st.sessionCount } ∧
        ∀ x ∈ strategies, ∀ stx, qualOf stats x = some stx →
          stx.avgScore ≤ st.avgScore) ∧
    ((∃ x ∈ strategies, usageOf stats x < 999999) →
      ∃ s ∈ strategies, selectRotate strategies stats
          = some (withCount stats s) ∧
        ∀ x ∈ strategies, usageOf stats s ≤ usageOf stats x) := by
  refine ⟨?_, ?_, ?_⟩
  · intro hnq
    rcases recommendLoop_cases stats strategies none (-1) with
      ⟨heq, -⟩ | ⟨s, hs, st, hq2, -⟩
    · unfold selectRecommend
      rw [heq]
      exact hne
    · rw [hnq s hs] at hq2
      exact absurd hq2 (by simp)
  · intro hpos hex
    rcases recommendLoop_cases stats strategies none (-1) with
      ⟨-, hub⟩ | ⟨s, hs, st, hq2, heq, -, hub⟩
    · obtain ⟨x, hx, hqx⟩ := hex
      cases hq : qualOf stats x with
      | none => exact absurd hq hqx
      | some stx =>
        have h1 := hub x hx stx hq
        have h2 := hpos x hx stx hq
        have : (0 : ℚ) ≤ -1 := le_trans h2 h1
        norm_num at this
    · refine ⟨s, hs, st, hq2, ?_, hub⟩
      unfold selectRecommend
      rw [heq]
  · intro hex
    rcases rotateLoop_cases stats strategies none 999999 with
      ⟨-, hge⟩ | ⟨s, hs, heq, -, hmin⟩
    · obtain ⟨x, hx, hlt⟩ := hex
      have := hge x hx
      omega
    · exact ⟨s, hs, heq, hmin⟩

/-- **C9** witness: on A (3 uses, mean 0.9) and B (1 use, mean 1.0),
`recommend` selects A (B does not qualify) and `rotate` selects B (fewest
uses). -/
theorem C9_strategy_selection_witness :
    (∃ s ∈ c9AB, ∃ st, qualOf c9ABstats s = some st ∧
      selectRecommend c9AB c9ABstats = some { s with
        avgScore := st.avgScore, sessionCount := st.sessionCount } ∧
      ∀ x ∈ c9AB, ∀ stx, qualOf c9ABstats x = some stx →
        stx.avgScore ≤ st.avgScore) ∧
    (∃ s ∈ c9AB, selectRotate c9AB c9ABstats = some (withCount c9ABstats s) ∧
      ∀ x ∈ c9AB, usageOf c9ABstats s ≤ usageOf c9ABstats x) ∧
    selectRecommend c9AB c9ABstats
      = some ⟨"A".data, "pa".data, mkRat 9 10, 3⟩ ∧
    selectRotate c9AB c9ABstats = some ⟨"B".data, "pb".data, 0, 1⟩ := by
  refine ⟨(C9_strategy_selection c9AB c9ABstats _ (by rfl)).2.1 ?_ ?_,
    (C9_strategy_selection c9AB c9ABstats ⟨"A".data, "pa".data, 0, 0⟩
      (by rfl)).2.2 ?_, by rfl, by rfl⟩
  · intro x hx st hst
    rcases List.mem_cons.mp hx with rfl | hx2
    · rw [show qualOf c9ABstats ⟨"A".data, "pa".data, 0, 0⟩
          = some ⟨"A".data, "pa".data, mkRat 9 10, 3⟩ from by rfl] at hst
      obtain rfl : (⟨"A".data, "pa".data, mkRat 9 10, 3⟩ : Strategy) = st := by
        injection hst
      decide
    · rcases List.mem_cons.mp hx2 with rfl | hx3
      · rw [show qualOf c9ABstats ⟨"B".data, "pb".data, 0, 0⟩ = none
            from by rfl] at hst
        exact absurd hst (by simp)
      · simp at hx3
  · exact ⟨⟨"A".data, "pa".data, 0, 0⟩, List.mem_cons_self _ _, by decide⟩
  · exact ⟨⟨"B".data, "pb".data, 0, 0⟩,
      List.mem_cons_of_mem _ (List.mem_cons_self _ _), by decide⟩

/-- **C9** counterexample: with every declared strategy at ≥ 999999 recorded
usages, `rotate` selects nothing at all — not the fewest-used strategy —
because its minimum search starts at the 999999 sentinel. -/
theorem C9_sentinel_counterexample :
    c9Sat ≠ [] ∧ selectRotate c9Sat c9SatStats = none :=
  ⟨by decide, by rfl⟩

/-- Coarse case analysis of a successful merged scan step: an open (either
form), a close (either form), or a skip/accumulate. -/
theorem stepBoth_cases {fp : List Char} {n : Nat} {p p' : Option PendingTarget}
    {acc acc' : List OptimizationTarget} {raw : List Char}
    (h : stepBoth fp n p acc raw = .ok (p', acc')) :
    (∃ tg ms, p = none ∧ p' = some ⟨tg, ms, n, []⟩ ∧ acc' = acc) ∨
    (∃ pt, p = some pt ∧ p' = none ∧ acc' = acc ++ [mkTarget fp pt n]) ∨
    (acc' = acc ∧
      ((∃ pt, p = some pt ∧
        p' = some { pt with content := builderPush pt.content (stripCR raw) }) ∨
      (p = none ∧ p' = none))) := by
  unfold stepBoth at h
  cases hs : optimizeStartCapture (stripCR raw) with
  | some attrs =>
    simp only [hs] at h
    cases p with
    | some _ => simp at h
    | none =>
      cases hp : parseOptimizeAttrs attrs with
      | none => simp [hp] at h
      | some tm =>
        obtain ⟨tg, ms⟩ := tm
        simp [hp] at h
        exact Or.inl ⟨tg, ms, rfl, h.1.symm, h.2.symm⟩
  | none =>
    simp only [hs] at h
    by_cases he : optimizeEndMatch (stripCR raw) = true
    · rw [if_pos he] at h
      cases p with
      | none => simp at h
      | some pt =>
        simp at h
        exact Or.inr (Or.inl ⟨pt, rfl, h.1.symm, h.2.symm⟩)
    · rw [if_neg he] at h
      cases hcc : compactCloseCapture (stripCR raw) with
      | some tg =>
        simp only [hcc] at h
        cases p with
        | none => simp at h
        | some pt =>
          have h2 : (if pt.tag = tg
              then (Except.ok (none, acc ++ [mkTarget fp pt n]) :
                Except ParseErr (Option PendingTarget × List OptimizationTarget))
              else .error (.endWithoutStart n)) = .ok (p', acc') := h
          by_cases htg : pt.tag = tg
          · rw [if_pos htg] at h2
            simp at h2
            exact Or.inr (Or.inl ⟨pt, rfl, h2.1.symm, h2.2.symm⟩)
          · rw [if_neg htg] at h2
            simp at h2
      | none =>
        simp only [hcc] at h
        cases hco : compactOpenCapture (stripCR raw) with
        | some ta =>
          obtain ⟨tg, attrs⟩ := ta
          simp only [hco] at h
          cases p with
          | some _ => simp at h
          | none =>
            simp at h
            exact Or.inl ⟨tg, parseCompactAttrs attrs, rfl, h.1.symm, h.2.symm⟩
        | none =>
          simp only [hco] at h
          cases p with
          | some pt =>
            simp at h
            exact Or.inr (Or.inr ⟨h.2.symm, Or.inl ⟨pt, rfl, h.1.symm⟩⟩)
          | none =>
            simp at h
            exact Or.inr (Or.inr ⟨h.2.symm, Or.inr ⟨rfl, h.1.symm⟩⟩)

/-- The merged scan preserves the well-formedness invariant. -/
theorem runScanBoth_inv {fp : List Char} {lines : List (List Char)}
    {n n' : Nat} {p p' : Option PendingTarget}
    {acc acc' : List OptimizationTarget}
    (h : runScanBoth fp lines n p acc = .ok (n', p', acc'))
    (hn : 1 ≤ n) (hinv : ScanInv n p acc) : ScanInv n' p' acc' := by
  induction lines generalizing n p acc with
  | nil =>
    simp only [runScanBoth] at h
    obtain ⟨h1, h2, h3⟩ : n = n' ∧ p = p' ∧ acc = acc' := by
      injection h with h
      exact ⟨congrArg Prod.fst h, congrArg (fun x => x.2.1) h,
        congrArg (fun x => x.2.2) h⟩
    rw [← h1, ← h2, ← h3]
    exact hinv
  | cons raw rest ih =>
    simp only [runScanBoth] at h
    cases hstep : stepBoth fp n p acc raw with
    | error e => rw [hstep] at h; simp at h
    | ok s =>
      rw [hstep] at h
      obtain ⟨p₁, acc₁⟩ := s
      obtain ⟨hacc, hpend, hpair⟩ := hinv
      refine ih h (by omega) ?_
      rcases stepBoth_cases hstep with
        ⟨tg, ms, hpn, hp1, hacc1⟩ |
        ⟨pt, hpn, hp1, hacc1⟩ |
        ⟨hacc1, hrest⟩
      · subst hacc1
        subst hp1
        refine ⟨fun t ht => ?_, fun pt hpt => ?_, hpair⟩
        · obtain ⟨u1, u2, u3⟩ := hacc t ht
          exact ⟨u1, u2, by omega⟩
        · obtain rfl : pt = ⟨tg, ms, n, []⟩ := by injection hpt with hpt; exact hpt.symm
          exact ⟨show 1 ≤ n by omega, show n < n + 1 by omega,
            fun t ht => show t.endLine < n from (hacc t ht).2.2⟩
      · subst hacc1
        subst hp1
        have hptinv := hpend pt hpn
        constructor
        · intro t ht
          rcases List.mem_append.mp ht with ht | ht
          · obtain ⟨u1, u2, u3⟩ := hacc t ht
            exact ⟨u1, u2, by omega⟩
          · obtain rfl : t = mkTarget fp pt n := by simpa using ht
            exact ⟨hptinv.1, hptinv.2.1, show n < n + 1 by omega⟩
        constructor
        · intro pt' hpt'
          simp at hpt'
        · rw [List.pairwise_append]
          refine ⟨hpair, by simp, fun a ha b hb => ?_⟩
          obtain rfl : b = mkTarget fp pt n := by simpa using hb
          exact hptinv.2.2 a ha
      · subst hacc1
        rcases hrest with ⟨pt, hpn, hp1⟩ | ⟨hpn, hp1⟩
        · subst hp1
          refine ⟨fun t ht => ?_, fun pt' hpt' => ?_, hpair⟩
          · obtain ⟨u1, u2, u3⟩ := hacc t ht
            exact ⟨u1, u2, by omega⟩
          · obtain rfl : pt' = { pt with
                content := builderPush pt.content (stripCR raw) } := by
              injection hpt' with hpt'
              exact hpt'.symm
            have := hpend pt hpn
            exact ⟨this.1, show pt.startLine < n + 1 by have := this.2.1; omega,
              fun t ht => this.2.2 t ht⟩
        · subst hp1
          refine ⟨fun t ht => ?_, fun pt' hpt' => ?_, hpair⟩
          · obtain ⟨u1, u2, u3⟩ := hacc t ht
            exact ⟨u1, u2, by omega⟩
          · simp at hpt'

theorem runScanBoth_append (fp : List Char) (xs ys : List (List Char))
    (n : Nat) (p : Option PendingTarget) (acc : List OptimizationTarget) :
    runScanBoth fp (xs ++ ys) n p acc =
      match runScanBoth fp xs n p acc with
      | .error e => .error e
      | .ok (n', p', acc') => runScanBoth fp ys n' p' acc' := by
  induction xs generalizing n p acc with
  | nil => simp [runScanBoth]
  | cons raw rest ih =>
    simp only [List.cons_append, runScanBoth]
    cases h : stepBoth fp n p acc raw with
    | error e => rfl
    | ok s => exact ih ..

/-- A non-marker line is skipped outside a region. -/
theorem stepBoth_skip (fp : List Char) (n : Nat)
    (acc : List OptimizationTarget) {raw : List Char}
    (h : NonMarkerBoth raw) :
    stepBoth fp n none acc raw = .ok (none, acc) := by
  obtain ⟨h1, h2, h3, h4⟩ := h
  unfold stepBoth
  simp [h1, h2, h3, h4]

/-- A non-marker line is accumulated inside a region. -/
theorem stepBoth_acc (fp : List Char) (n : Nat) (pt : PendingTarget)
    (acc : List OptimizationTarget) {raw : List Char}
    (h : NonMarkerBoth raw) :
    stepBoth fp n (some pt) acc raw
      = .ok (some { pt with
          content := builderPush pt.content (stripCR raw) }, acc) := by
  obtain ⟨h1, h2, h3, h4⟩ := h
  unfold stepBoth
  simp [h1, h2, h3, h4]

/-- The merged scan skips a run of non-marker lines. -/
theorem runScanBoth_skips {fp : List Char} {A : List (List Char)}
    (hA : ∀ l ∈ A, NonMarkerBoth l) (n : Nat)
    (acc : List OptimizationTarget) :
    runScanBoth fp A n none acc = .ok (n + A.length, none, acc) := by
  induction A generalizing n with
  | nil => simp [runScanBoth]
  | cons raw rest ih =>
    have hstep := stepBoth_skip fp n acc (hA raw (by simp))
    have hrec := ih (fun l hl => hA l (List.mem_cons_of_mem _ hl)) (n + 1)
    have harith : n + 1 + rest.length = n + (raw :: rest).length := by
      simp
      omega
    simp only [runScanBoth, hstep]
    rw [hrec, harith]

/-- The merged scan accumulates a run of non-marker lines into the open
region's builder. -/
theorem runScanBoth_body {fp : List Char} {B : List (List Char)}
    (hB : ∀ l ∈ B, NonMarkerBoth l) (n : Nat) (pt : PendingTarget)
    (acc : List OptimizationTarget) :
    runScanBoth fp B n (some pt) acc =
      .ok (n + B.length,
        some { pt with
          content := B.foldl (fun a raw => builderPush a (stripCR raw))
            pt.content },
        acc) := by
  induction B generalizing n pt with
  | nil => simp [runScanBoth]
  | cons raw rest ih =>
    have hstep := stepBoth_acc fp n pt acc (hB raw (by simp))
    have hrec := ih (fun l hl => hB l (List.mem_cons_of_mem _ hl)) (n + 1)
      { pt with content := builderPush pt.content (stripCR raw) }
    have harith : n + 1 + rest.length = n + (raw :: rest).length := by
      simp
      omega
    simp only [runScanBoth, hstep]
    rw [hrec, harith]
    simp [List.foldl_cons]

/-- A legacy verbose segment of the merged scan: filler, the legacy start
marker, the body, the legacy end marker. -/
theorem runScanBoth_segment_legacy {fp : List Char} {A : List (List Char)}
    {sl : List Char} {B : List (List Char)} {el : List Char}
    (C : List (List Char)) {attrs tg : List Char} {ms : Nat}
    (hA : ∀ l ∈ A, NonMarkerBoth l)
    (hsl : optimizeStartCapture (stripCR sl) = some attrs)
    (hpa : parseOptimizeAttrs attrs = some (tg, ms))
    (hB : ∀ l ∈ B, NonMarkerBoth l)
    (hsel : optimizeStartCapture (stripCR el) = none)
    (heel : optimizeEndMatch (stripCR el) = true)
    (n : Nat) (acc : List OptimizationTarget) :
    runScanBoth fp (A ++ sl :: (B ++ el :: C)) n none acc =
      runScanBoth fp C (n + A.length + B.length + 2) none
        (acc ++ [mkTarget fp ⟨tg, ms, n + A.length, bodyFold [] B⟩
          (n + A.length + B.length + 1)]) := by
  rw [runScanBoth_append, runScanBoth_skips hA]
  have hstep : stepBoth fp (n + A.length) none acc sl
      = .ok (some ⟨tg, ms, n + A.length, []⟩, acc) := by
    unfold stepBoth
    simp [hsl, hpa]
  simp only [runScanBoth, hstep]
  rw [runScanBoth_append, runScanBoth_body hB]
  simp only [bodyFold]
  have hstep2 : stepBoth fp (n + A.length + 1 + B.length)
      (some { tag := tg, minSessions := ms, startLine := n + A.length,
              content := B.foldl (fun a raw => builderPush a (stripCR raw)) [] })
      acc el
      = .ok (none, acc ++ [mkTarget fp
          { tag := tg, minSessions := ms, startLine := n + A.length,
            content := B.foldl (fun a raw => builderPush a (stripCR raw)) [] }
          (n + A.length + 1 + B.length)]) := by
    unfold stepBoth
    simp [hsel, heel]
  simp only [runScanBoth, hstep2]
  have e1 : n + A.length + 1 + B.length + 1 = n + A.length + B.length + 2 := by
    omega
  have e2 : n + A.length + 1 + B.length = n + A.length + B.length + 1 := by
    omega
  rw [e1, e2]

/-- A compact segment of the merged scan: filler, the compact opening
marker, the body, the matching compact closing marker. -/
theorem runScanBoth_segment_compact {fp : List Char} {A : List (List Char)}
    {sl : List Char} {B : List (List Char)} {el : List Char}
    (C : List (List Char)) {tg cattrs : List Char}
    (hA : ∀ l ∈ A, NonMarkerBoth l)
    (hslS : optimizeStartCapture (stripCR sl) = none)
    (hslE : optimizeEndMatch (stripCR sl) = false)
    (hslC : compactCloseCapture (stripCR sl) = none)
    (hslO : compactOpenCapture (stripCR sl) = some (tg, cattrs))
    (hB : ∀ l ∈ B, NonMarkerBoth l)
    (helS : optimizeStartCapture (stripCR el) = none)
    (helE : optimizeEndMatch (stripCR el) = false)
    (helC : compactCloseCapture (stripCR el) = some tg)
    (n : Nat) (acc : List OptimizationTarget) :
    runScanBoth fp (A ++ sl :: (B ++ el :: C)) n none acc =
      runScanBoth fp C (n + A.length + B.length + 2) none
        (acc ++ [mkTarget fp
          ⟨tg, parseCompactAttrs cattrs, n + A.length, bodyFold [] B⟩
          (n + A.length + B.length + 1)]) := by
  rw [runScanBoth_append, runScanBoth_skips hA]
  have hstep : stepBoth fp (n + A.length) none acc sl
      = .ok (some ⟨tg, parseCompactAttrs cattrs, n + A.length, []⟩, acc) := by
    unfold stepBoth
    simp [hslS, hslE, hslC, hslO]
  simp only [runScanBoth, hstep]
  rw [runScanBoth_append, runScanBoth_body hB]
  simp only [bodyFold]
  have hstep2 : stepBoth fp (n + A.length + 1 + B.length)
      (some { tag := tg, minSessions := parseCompactAttrs cattrs,
              startLine := n + A.length,
              content := B.foldl (fun a raw => builderPush a (stripCR raw)) [] })
      acc el
      = .ok (none, acc ++ [mkTarget fp
          { tag := tg, minSessions := parseCompactAttrs cattrs,
            startLine := n + A.length,
            content := B.foldl (fun a raw => builderPush a (stripCR raw)) [] }
          (n + A.length + 1 + B.length)]) := by
    unfold stepBoth
    simp [helS, helE, helC]
  simp only [runScanBoth, hstep2]
  have e1 : n + A.length + 1 + B.length + 1 = n + A.length + B.length + 2 := by
    omega
  have e2 : n + A.length + 1 + B.length = n + A.length + B.length + 1 := by
    omega
  rw [e1, e2]

/-- **C5** (confirmed).  The merged finder recognizes both marker syntaxes
and returns their regions merged in document order: a document whose
scanner lines consist of a compact region (`<!-- trajectory-optimize:L
attrs -->` … `<!-- /trajectory-optimize:L -->`) followed by a verbose
region (`<!-- trajectory-optimize:start tag="L" attrs -->` …
`<!-- trajectory-optimize:end -->`), with non-marker lines anywhere
around and between them, parses to exactly the two targets in document
order, each with its own form's tag and parameters and with the body
being the lines strictly between its open and close markers; moreover
every successful parse of any document yields well-formed regions in
document order (`1 ≤ StartLine < EndLine`, each region's end before the
next region's start). -/
theorem C5_merged_formats (fp doc : List Char)
    (A₀ : List (List Char)) (co : List Char) (B₁ : List (List Char))
    (cc : List Char) (A₁ : List (List Char)) (vo : List Char)
    (B₂ : List (List Char)) (ve : List Char) (A₂ : List (List Char))
    (ctg cattrs attrs vtg : List Char) (vms : Nat)
    (hdoc : scanLines doc
      = A₀ ++ co :: (B₁ ++ cc :: (A₁ ++ vo :: (B₂ ++ ve :: A₂))))
    (hcoS : optimizeStartCapture (stripCR co) = none)
    (hcoE : optimizeEndMatch (stripCR co) = false)
    (hcoC : compactCloseCapture (stripCR co) = none)
    (hcoO : compactOpenCapture (stripCR co) = some (ctg, cattrs))
    (hccS : optimizeStartCapture (stripCR cc) = none)
    (hccE : optimizeEndMatch (stripCR cc) = false)
    (hccC : compactCloseCapture (stripCR cc) = some ctg)
    (hvo : optimizeStartCapture (stripCR vo) = some attrs)
    (hpa : parseOptimizeAttrs attrs = some (vtg, vms))
    (hveS : optimizeStartCapture (stripCR ve) = none)
    (hveE : optimizeEndMatch (stripCR ve) = true)
    (hA₀ : ∀ l ∈ A₀, NonMarkerBoth l) (hB₁ : ∀ l ∈ B₁, NonMarkerBoth l)
    (hA₁ : ∀ l ∈ A₁, NonMarkerBoth l) (hB₂ : ∀ l ∈ B₂, NonMarkerBoth l)
    (hA₂ : ∀ l ∈ A₂, NonMarkerBoth l) :
    findTargetsBoth fp doc
      = .ok [mkTarget fp
          ⟨ctg, parseCompactAttrs cattrs, 1 + A₀.length, bodyFold [] B₁⟩
          (1 + A₀.length + B₁.length + 1),
        mkTarget fp
          ⟨vtg, vms, 1 + A₀.length + B₁.length + 2 + A₁.length,
            bodyFold [] B₂⟩
          (1 + A₀.length + B₁.length + 2 + A₁.length + B₂.length + 1)] ∧
    (∀ d ts, findTargetsBoth fp d = .ok ts →
      (∀ t ∈ ts, 1 ≤ t.startLine ∧ t.startLine < t.endLine) ∧
      List.Pairwise (fun a b : OptimizationTarget => a.endLine < b.startLine)
        ts) := by
  constructor
  · unfold findTargetsBoth
    rw [hdoc]
    rw [runScanBoth_segment_compact (A₁ ++ vo :: (B₂ ++ ve :: A₂))
      hA₀ hcoS hcoE hcoC hcoO hB₁ hccS hccE hccC 1 []]
    rw [runScanBoth_segment_legacy A₂ hA₁ hvo hpa hB₂ hveS hveE
      (1 + A₀.length + B₁.length + 2) _]
    rw [runScanBoth_skips hA₂]
    simp
  · intro d ts h
    unfold findTargetsBoth at h
    cases hrun : runScanBoth fp (scanLines d) 1 none [] with
    | error e => rw [hrun] at h; simp at h
    | ok s =>
      rw [hrun] at h
      obtain ⟨nf, pf, accf⟩ := s
      cases pf with
      | some pt => simp at h
      | none =>
        obtain rfl : accf = ts := by simpa using h
        have hinv := runScanBoth_inv hrun (by omega)
          ⟨by simp, by simp, List.Pairwise.nil⟩
        exact ⟨fun t ht => ⟨(hinv.1 t ht).1, (hinv.1 t ht).2.1⟩, hinv.2.2⟩

/-- **C5** witness: the merged-formats theorem applied to the repository's
mixed-formats test document — the compact region (`new-style`,
`min_sessions=5`, lines 3–5) and the legacy region (`legacy-style`,
`min_sessions=15`, lines 7–9) come back merged in document order from the
one finder. -/
theorem C5_merged_formats_witness :
    findTargetsBoth c5fp c5doc
      = .ok [⟨c5fp, "new-style".data, 5, 3, 5, ("New format content").data⟩,
        ⟨c5fp, "legacy-style".data, 15, 7, 9,
          ("Legacy format content").data⟩] := by
  have h := C5_merged_formats c5fp c5doc
    [("# Mixed Formats").data, []] _ [("New format content").data] _
    [[]] _ [("Legacy format content").data] _ [] _ _ _ _ 15
    (by rfl) (by rfl) (by rfl) (by rfl) (by rfl) (by rfl) (by rfl)
    (by rfl) (by rfl) (by rfl) (by rfl) (by rfl)
    (by decide) (by decide) (by decide) (by decide) (by decide)
  rw [h.1]
  rfl

end TrajectoryMemory
